import Mathlib

/-!
# civic-attest: the Merkle tree and the ledger built on it

A shallow embedding of `internal/crypto/hash/hash.go`,
`internal/crypto/merkle/merkle.go`, `internal/ledger/tree/tree.go`,
`internal/crypto/signatures/signatures.go`, the dispatch of
`internal/crypto/canonical/canonical.go`, `internal/identity/models/identity.go`,
`internal/crypto/timestamp/timestamp.go` (without `Token.Encode`) and the `main`
functions of `cmd/signer` and `cmd/verifier`, followed by theorems about it.

* A Go `[]byte` is a `List (Fin 256)`; the `nil` slice is `[]` (Go's `len` and
  `bytes.Equal` do not tell them apart).
* A Go `int` is an `Int`; slice lengths are natural numbers cast to `Int`.
* The three digest primitives (`sha256.Sum256`, `sha3.Sum512`, `blake3.Sum256`)
  are library code: they are a parameter `Primitives`, which records only what
  their Go types say, the length of the returned array.
* A `*Node` is a value of the inductive type `Node`: a leaf (built in `Append`)
  or an inner node (built in `combineNodes`).
* A method that mutates its receiver returns the new receiver; a Go
  `(value, error)` result is an `Except String value`.
* A Go `string` inside an `Entry` is its byte sequence, a `Bytes`.
* The ledger stores `*Entry` pointers and `LedgerTree.Append` writes through the
  pointer it is given: entries live in a `Heap` (a map from `EntryPtr` to `Entry`)
  that `LedgerTree.Append` takes and returns, and the ledger holds pointers.
* Counters (`treeSize`, `sequence`) are unbounded integers: the wrap-around of a
  64-bit counter after `2^63` calls is not modelled.
* The mutex of `LedgerTree` is not modelled: calls run one after another.
* Library code is a parameter: the Ed25519 operations (`SigPrimitives`) and the
  CBOR and JSON encoders and decoders behind `canonical` (`Codec`).
* A slice index out of range, which panics in Go, ends a modelled function with
  the error text `panic: index out of range` (in `Token.Verify` and
  `compareHashes`, which return a plain `bool`, with `none`); `log.Fatalf` ends a
  `main` with its message as the error. What a `main` prints is not modelled.
* The two `main` functions start after their file reads and decodings, whose
  results are their inputs.
-/

namespace CivicAttest

/-- Go's `[]byte`. -/
abbrev Bytes := List (Fin 256)

/-! ## internal/crypto/hash/hash.go -/

/-- Go's `type Algorithm string`. -/
abbrev Algorithm := String

/-- The constant `SHA256`. -/
def SHA256 : Algorithm := "SHA-256"

/-- The constant `SHA3_512`. -/
def SHA3_512 : Algorithm := "SHA-3-512"

/-- The constant `BLAKE3`. -/
def BLAKE3 : Algorithm := "BLAKE3"

/-- The digest primitives `Hash` dispatches to. Each returns a fixed-size array
in Go (`[32]byte`, `[64]byte`, `[32]byte`), which is all that is recorded. -/
structure Primitives where
  sha256Sum256 : Bytes → Bytes
  sha3Sum512 : Bytes → Bytes
  blake3Sum256 : Bytes → Bytes
  sha256Sum256_length : ∀ d, (sha256Sum256 d).length = 32
  sha3Sum512_length : ∀ d, (sha3Sum512 d).length = 64
  blake3Sum256_length : ∀ d, (blake3Sum256 d).length = 32

/-- Function `hash.Hash`: the `switch algo` with its `default` error branch. -/
def Hash (P : Primitives) (data : Bytes) (algo : Algorithm) : Except String Bytes :=
  if algo = SHA256 then Except.ok (P.sha256Sum256 data)
  else if algo = SHA3_512 then Except.ok (P.sha3Sum512 data)
  else if algo = BLAKE3 then Except.ok (P.blake3Sum256 data)
  else Except.error ("unsupported hash algorithm: " ++ algo)

/-- The algorithms `Hash` has a case for. -/
def Supported (algo : Algorithm) : Prop :=
  algo = SHA256 ∨ algo = SHA3_512 ∨ algo = BLAKE3

instance (algo : Algorithm) : Decidable (Supported algo) := by
  unfold Supported; infer_instance

/-! ## internal/crypto/merkle/merkle.go -/

/-- Struct `Node`: a leaf carries `Hash` and `Data` (`IsLeaf = true`, `Left = Right = nil`);
an inner node carries `Hash`, `Left` and `Right` (`IsLeaf = false`, `Data = nil`). -/
inductive Node where
  | leaf (hash : Bytes) (data : Bytes) : Node
  | inner (hash : Bytes) (left right : Node) : Node
  deriving DecidableEq, Repr

/-- The field `Node.Hash`. -/
def Node.Hash : Node → Bytes
  | Node.leaf h _ => h
  | Node.inner h _ _ => h

/-- The field `Node.IsLeaf`. -/
def Node.IsLeaf : Node → Bool
  | Node.leaf _ _ => true
  | Node.inner _ _ _ => false

/-- The field `Node.Data`. -/
def Node.Data : Node → Bytes
  | Node.leaf _ d => d
  | Node.inner _ _ _ => []

/-- Struct `Tree`. -/
structure Tree where
  Root : Option Node
  Leaves : List Node
  HashAlgo : Algorithm
  treeSize : Int
  deriving DecidableEq, Repr

/-- Function `NewTree`. -/
def NewTree (hashAlgo : Algorithm) : Tree :=
  { Root := none, Leaves := [], HashAlgo := hashAlgo, treeSize := 0 }

/-- Method `Tree.combineNodes`: `hash(left || right)`; the error of `hash.Hash` is
dropped (`parentHash, _ :=`), leaving the `nil` hash it returns with it. Every
`Hash` slice is `nil` or a whole digest array (`h[:]`, capacity equal to length),
so `append(left.Hash, right.Hash...)` allocates and `left.Hash` is not written. -/
def combineNodes (P : Primitives) (t : Tree) (left right : Node) : Node :=
  let combined := left.Hash ++ right.Hash
  let parentHash :=
    match Hash P combined t.HashAlgo with
    | Except.ok h => h
    | Except.error _ => []
  Node.inner parentHash left right

/-- The inner `for i := 0; i < len(currentLevel); i += 2` of `rebuildTree`: pairs
are combined, an odd node out is promoted. -/
def nextLevel (P : Primitives) (t : Tree) : List Node → List Node
  | a :: b :: rest => combineNodes P t a b :: nextLevel P t rest
  | [a] => [a]
  | [] => []

/-- The outer `for len(currentLevel) > 1` of `rebuildTree`, run for at most
`fuel` rounds. -/
def levelLoop (P : Primitives) (t : Tree) : Nat → List Node → List Node
  | 0, currentLevel => currentLevel
  | fuel + 1, currentLevel =>
    if currentLevel.length > 1 then levelLoop P t fuel (nextLevel P t currentLevel)
    else currentLevel

/-- Method `Tree.rebuildTree`. The loop gets `len(t.Leaves)` rounds of fuel (it needs
about `log2` of that, see `levelLoop_length`). -/
def rebuildTree (P : Primitives) (t : Tree) : Tree :=
  if t.Leaves.length = 0 then { t with Root := none }
  else if t.Leaves.length = 1 then { t with Root := t.Leaves.head? }
  else { t with Root := (levelLoop P t t.Leaves.length t.Leaves).head? }

/-- Method `Tree.Append`. -/
def Append (P : Primitives) (t : Tree) (data : Bytes) : Except String Tree :=
  match Hash P data t.HashAlgo with
  | Except.error err => Except.error ("failed to hash leaf data: " ++ err)
  | Except.ok leafHash =>
    let leaf := Node.leaf leafHash data
    Except.ok (rebuildTree P { t with Leaves := t.Leaves ++ [leaf], treeSize := t.treeSize + 1 })

/-- Method `Tree.RootHash`. -/
def RootHash (t : Tree) : Bytes :=
  match t.Root with
  | none => []
  | some root => root.Hash

/-- Method `Tree.Size`. -/
def Size (t : Tree) : Int := t.treeSize

/-- Struct `InclusionProof`. -/
structure InclusionProof where
  LeafIndex : Int
  LeafHash : Bytes
  TreeSize : Int
  Path : List Bytes
  deriving DecidableEq, Repr

/-- The `for i, leaf := range t.Leaves` of `buildPath`, from position `i` on: at
the first leaf whose hash equals the node's, the hash of the leaf at `i ^ 1` is
appended when that index is in range, and the loop breaks. -/
def buildPathLoop (t : Tree) (node : Node) : Nat → List Node → List Bytes → List Bytes
  | _, [], path => path
  | i, leaf :: rest, path =>
    if leaf.Hash = node.Hash then
      if h : i ^^^ 1 < t.Leaves.length then path ++ [(t.Leaves.get ⟨i ^^^ 1, h⟩).Hash]
      else path
    else buildPathLoop t node (i + 1) rest path

/-- Method `Tree.buildPath`. -/
def buildPath (t : Tree) (node : Node) (path : List Bytes) : List Bytes :=
  buildPathLoop t node 0 t.Leaves path

/-- Method `Tree.GenerateInclusionProof`. -/
def GenerateInclusionProof (t : Tree) (leafIndex : Int) : Except String InclusionProof :=
  if h : leafIndex < 0 ∨ leafIndex ≥ t.Leaves.length then
    Except.error ("invalid leaf index: " ++ toString leafIndex)
  else
    let leaf := t.Leaves.get ⟨leafIndex.toNat, by omega⟩
    Except.ok
      { LeafIndex := leafIndex, LeafHash := leaf.Hash, TreeSize := Size t,
        Path := buildPath t leaf [] }

/-- Method `Tree.VerifyInclusionProof`. -/
def VerifyInclusionProof (t : Tree) (proof : InclusionProof) : Bool :=
  if h : proof.LeafIndex < 0 ∨ proof.LeafIndex ≥ t.Leaves.length then false
  else
    let leaf := t.Leaves.get ⟨proof.LeafIndex.toNat, by omega⟩
    decide (leaf.Hash = proof.LeafHash)

/-- The caller's loop `for _, d := range data { tree.Append(d) }` (as in
`tests/unit/merkle_test.go`), stopping at the first error. -/
def appendAll (P : Primitives) (t : Tree) : List Bytes → Except String Tree
  | [] => Except.ok t
  | d :: ds =>
    match Append P t d with
    | Except.error err => Except.error err
    | Except.ok t1 => appendAll P t1 ds

/-- A concrete instance of `Primitives`, used to evaluate the definitions on
concrete inputs: the input zero-padded or cut to the digest length. -/
def padPrimitives : Primitives where
  sha256Sum256 d := (d ++ List.replicate 32 0).take 32
  sha3Sum512 d := (d ++ List.replicate 64 0).take 64
  blake3Sum256 d := (d ++ List.replicate 32 0).take 32
  sha256Sum256_length d := by simp
  sha3Sum512_length d := by simp
  blake3Sum256_length d := by simp

/-- Struct `ConsistencyProof`. -/
structure ConsistencyProof where
  OldSize : Int
  NewSize : Int
  Path : List Bytes
  deriving DecidableEq, Repr

/-- Method `Tree.GenerateConsistencyProof`: the size check, then a proof whose
`Path` is `make([][]byte, 0)`. -/
def GenerateConsistencyProof (t : Tree) (oldSize : Int) : Except String ConsistencyProof :=
  if oldSize < 0 ∨ oldSize > Size t then
    Except.error ("invalid old size: " ++ toString oldSize)
  else
    Except.ok { OldSize := oldSize, NewSize := Size t, Path := [] }

/-! ## The root the specification describes -/

/-- The `digest(bytes, algorithm)` of the specification: the value `hash.Hash`
returns (the `nil` it returns with an error for an unknown algorithm). -/
def digest (P : Primitives) (algo : Algorithm) (data : Bytes) : Bytes :=
  match Hash P data algo with
  | Except.ok h => h
  | Except.error _ => []

/-- The largest power of two strictly less than `n` (for `n ≥ 2`). -/
def splitPoint (n : Nat) : Nat := 2 ^ Nat.log 2 (n - 1)

/-- The root of the specification (RFC 6962 style): the root of one leaf is the
leaf hash; the root of `n > 1` leaves split at `k`, the largest power of two
below `n`, is `H(root(first k) || root(remaining n - k))`. The specification
gives no root for no leaves; `[]` stands for it. -/
def MTH (H : Bytes → Bytes) (l : List Bytes) : Bytes :=
  match l with
  | [] => []
  | [h] => h
  | a :: b :: rest =>
    H (MTH H ((a :: b :: rest).take (splitPoint (rest.length + 2)))
      ++ MTH H ((a :: b :: rest).drop (splitPoint (rest.length + 2))))
termination_by l.length
decreasing_by
  all_goals simp_wf
  · have h1 : 2 ^ Nat.log 2 (rest.length + 2 - 1) ≤ rest.length + 2 - 1 :=
      Nat.pow_log_le_self 2 (by omega)
    unfold splitPoint
    omega
  · have h2 : 0 < 2 ^ Nat.log 2 (rest.length + 2 - 1) := by positivity
    unfold splitPoint
    omega

/-- The leaf node `Append` creates for `data`: `&Node{Hash: leafHash, IsLeaf: true,
Data: data}`. -/
def leafOf (P : Primitives) (algo : Algorithm) (data : Bytes) : Node :=
  Node.leaf (digest P algo data) data

/-- The audit path of the specification (RFC 6962 style) for leaf `m` of the
leaves `l`: the sibling subtree root at each level of the recursive split at the
largest power of two below the size, from the leaf upwards. -/
def auditPath (H : Bytes → Bytes) (m : Nat) (l : List Bytes) : List Bytes :=
  match l with
  | [] => []
  | [_] => []
  | a :: b :: rest =>
    if m < splitPoint (rest.length + 2) then
      auditPath H m ((a :: b :: rest).take (splitPoint (rest.length + 2)))
        ++ [MTH H ((a :: b :: rest).drop (splitPoint (rest.length + 2)))]
    else
      auditPath H (m - splitPoint (rest.length + 2))
          ((a :: b :: rest).drop (splitPoint (rest.length + 2)))
        ++ [MTH H ((a :: b :: rest).take (splitPoint (rest.length + 2)))]
termination_by l.length
decreasing_by
  all_goals simp_wf
  · have h1 : 2 ^ Nat.log 2 (rest.length + 2 - 1) ≤ rest.length + 2 - 1 :=
      Nat.pow_log_le_self 2 (by omega)
    unfold splitPoint
    omega
  · have h2 : 0 < 2 ^ Nat.log 2 (rest.length + 2 - 1) := by positivity
    unfold splitPoint
    omega

/-- The recombination of the specification: the root recomputed from the hash
of leaf `m` of `n` and an audit path, following the same split (the last path
entry is the sibling at the top). `none` when the path does not have the shape
the split asks for. -/
def rootFromPath (H : Bytes → Bytes) (leafHash : Bytes) (m n : Nat) (path : List Bytes) :
    Option Bytes :=
  if n ≤ 1 then
    if path = [] then some leafHash else none
  else
    match path.getLast? with
    | none => none
    | some sibling =>
      if m < splitPoint n then
        (rootFromPath H leafHash m (splitPoint n) path.dropLast).map
          (fun r => H (r ++ sibling))
      else
        (rootFromPath H leafHash (m - splitPoint n) (n - splitPoint n) path.dropLast).map
          (fun r => H (sibling ++ r))
termination_by n
decreasing_by
  all_goals simp_wf
  · have h1 : 2 ^ Nat.log 2 (n - 1) ≤ n - 1 := Nat.pow_log_le_self 2 (by omega)
    unfold splitPoint
    omega
  · have h2 : 0 < 2 ^ Nat.log 2 (n - 1) := by positivity
    unfold splitPoint
    omega

/-- The bytes of `"leaf1"`, the first item of `tests/unit/merkle_test.go`. -/
def leaf1 : Bytes := [108, 101, 97, 102, 49]

/-- The bytes of `"leaf2"`. -/
def leaf2 : Bytes := [108, 101, 97, 102, 50]

/-- The bytes of `"leaf3"`. -/
def leaf3 : Bytes := [108, 101, 97, 102, 51]

/-- The bytes of `"leaf4"`. -/
def leaf4 : Bytes := [108, 101, 97, 102, 52]

/-- One round of `rebuildTree` seen on the hashes alone: used to relate the
bottom-up loop to `MTH`. -/
def pairHashes (H : Bytes → Bytes) : List Bytes → List Bytes
  | a :: b :: rest => H (a ++ b) :: pairHashes H rest
  | [a] => [a]
  | [] => []

/-! ## internal/ledger/tree/tree.go -/

/-- Go's `time.Time`, as far as the ledger reads it: the seconds `Unix()` returns
and the nanoseconds within the second. -/
structure Time where
  unix : Int
  nsec : Nat
  deriving DecidableEq, Repr

/-- Struct `Entry`. `EntryHash` is compared with `nil` by `Append`, so it is an
`Option`: `none` is the `nil` slice. -/
structure Entry where
  EntryHash : Option Bytes
  Timestamp : Time
  SignerIdentityID : Bytes
  SignatureHash : Bytes
  EntryType : Bytes
  SequenceNumber : Int
  deriving DecidableEq, Repr

/-- Struct `SignedTreeHead`. -/
structure SignedTreeHead where
  TreeSize : Int
  RootHash : Bytes
  Timestamp : Time
  Signature : Bytes
  LedgerAuthorityID : Bytes
  deriving DecidableEq, Repr

/-- A `*Entry`: the address of an entry. -/
abbrev EntryPtr := Nat

/-- The entries the caller has allocated, by address. -/
abbrev Heap := EntryPtr → Entry

/-- Struct `LedgerTree` (without its mutex). -/
structure LedgerTree where
  tree : Tree
  entries : List EntryPtr
  hashAlgo : Algorithm
  sequence : Int
  deriving DecidableEq, Repr

/-- Function `NewLedgerTree`. -/
def NewLedgerTree (hashAlgo : Algorithm) : LedgerTree :=
  { tree := NewTree hashAlgo, entries := [], hashAlgo := hashAlgo, sequence := 0 }

/-- One digit of `hex.EncodeToString`, from the table `"0123456789abcdef"`. -/
def hexDigit (n : Nat) : Fin 256 :=
  if n < 10 then Fin.ofNat (48 + n) else Fin.ofNat (87 + n)

/-- Go's `hex.EncodeToString`: two lowercase digits for each byte. -/
def hexEncodeToString (src : Bytes) : Bytes :=
  src.flatMap fun b => [hexDigit (b.val / 16), hexDigit (b.val % 16)]

/-- The decimal digits of a natural number, most significant first (`"0"` for 0). -/
def formatDecimalNat (n : Nat) : Bytes :=
  if n = 0 then [48] else (Nat.digits 10 n).reverse.map fun d => Fin.ofNat (48 + d)

/-- The verb `%d` of `fmt.Sprintf` on an `int64`. -/
def formatDecimal (n : Int) : Bytes :=
  if n < 0 then 45 :: formatDecimalNat n.natAbs else formatDecimalNat n.natAbs

/-- Method `LedgerTree.serializeEntry`:
`fmt.Sprintf("%s|%s|%s|%d", SignerIdentityID, hex(SignatureHash), EntryType, Timestamp.Unix())`
as bytes. -/
def LedgerTree.serializeEntry (_lt : LedgerTree) (entry : Entry) : Bytes :=
  entry.SignerIdentityID ++ [124] ++ hexEncodeToString entry.SignatureHash ++ [124]
    ++ entry.EntryType ++ [124] ++ formatDecimal entry.Timestamp.unix

/-- What one call of `LedgerTree.Append` leaves behind: the ledger, the heap (the
entry was written through its pointer) and the returned error (`none` is `nil`). -/
structure AppendResult where
  ledger : LedgerTree
  heap : Heap
  err : Option String

/-- The last two statements of `LedgerTree.Append`, reached once the entry carries
its hash: `lt.entries = append(lt.entries, entry)` and
`lt.tree.Append(entry.EntryHash)`, whose error returns with the tree untouched. -/
def LedgerTree.storeEntry (P : Primitives) (lt : LedgerTree) (heap : Heap) (entry : EntryPtr) :
    AppendResult :=
  let lt2 : LedgerTree := { lt with entries := lt.entries ++ [entry] }
  match CivicAttest.Append P lt2.tree ((heap entry).EntryHash.getD []) with
  | Except.error err =>
    { ledger := lt2, heap := heap, err := some ("failed to append to tree: " ++ err) }
  | Except.ok t => { ledger := { lt2 with tree := t }, heap := heap, err := none }

/-- Method `LedgerTree.Append`. The statements in order: `lt.sequence++`,
`entry.SequenceNumber = lt.sequence`, the hash of the serialized entry when
`entry.EntryHash == nil` (an error returns at once), then `storeEntry`. -/
def LedgerTree.Append (P : Primitives) (lt : LedgerTree) (heap : Heap) (entry : EntryPtr) :
    AppendResult :=
  let lt1 : LedgerTree := { lt with sequence := lt.sequence + 1 }
  let heap1 : Heap :=
    Function.update heap entry { heap entry with SequenceNumber := lt1.sequence }
  match (heap1 entry).EntryHash with
  | none =>
    match Hash P (lt1.serializeEntry (heap1 entry)) lt1.hashAlgo with
    | Except.error err =>
      { ledger := lt1, heap := heap1, err := some ("failed to hash entry: " ++ err) }
    | Except.ok h =>
      lt1.storeEntry P (Function.update heap1 entry { heap1 entry with EntryHash := some h })
        entry
  | some _ => lt1.storeEntry P heap1 entry

/-- Method `LedgerTree.GetRootHash`. -/
def LedgerTree.GetRootHash (lt : LedgerTree) : Bytes := RootHash lt.tree

/-- Method `LedgerTree.GetSize`. -/
def LedgerTree.GetSize (lt : LedgerTree) : Int := Size lt.tree

/-- Method `LedgerTree.GetEntry`: the stored pointer at `index`. -/
def LedgerTree.GetEntry (lt : LedgerTree) (index : Int) : Except String EntryPtr :=
  if h : index < 0 ∨ index ≥ lt.entries.length then
    Except.error ("invalid entry index: " ++ toString index)
  else
    Except.ok (lt.entries.get ⟨index.toNat, by omega⟩)

/-- Method `LedgerTree.GenerateInclusionProof`. -/
def LedgerTree.GenerateInclusionProof (lt : LedgerTree) (index : Int) :
    Except String InclusionProof :=
  CivicAttest.GenerateInclusionProof lt.tree index

/-- Method `LedgerTree.GenerateConsistencyProof`. -/
def LedgerTree.GenerateConsistencyProof (lt : LedgerTree) (oldSize : Int) :
    Except String ConsistencyProof :=
  CivicAttest.GenerateConsistencyProof lt.tree oldSize

/-- Method `LedgerTree.GetSignedTreeHead`; `now` is what `time.Now().UTC()` returns.
`Signature` and `LedgerAuthorityID` keep their zero values. -/
def LedgerTree.GetSignedTreeHead (lt : LedgerTree) (now : Time) : SignedTreeHead :=
  { TreeSize := Size lt.tree, RootHash := RootHash lt.tree, Timestamp := now,
    Signature := [], LedgerAuthorityID := [] }

/-- Method `LedgerTree.VerifyConsistency`. -/
def LedgerTree.VerifyConsistency (_lt : LedgerTree) (oldSTH newSTH : SignedTreeHead) : Bool :=
  if newSTH.TreeSize < oldSTH.TreeSize then false else true

/-- What one call of `Append` did, as the caller sees it: the pointer passed, the
number found in `entry.SequenceNumber` on return, and the error. -/
structure CallRecord where
  entry : EntryPtr
  SequenceNumber : Int
  err : Option String

/-- The state after a run of calls, with the record of each call in order. -/
structure RunResult where
  ledger : LedgerTree
  heap : Heap
  calls : List CallRecord

/-- A caller making one `Append` call after another, with the pointers `ptrs` in
order, going on after an error. -/
def LedgerTree.appendEach (P : Primitives) (lt : LedgerTree) (heap : Heap) :
    List EntryPtr → RunResult
  | [] => { ledger := lt, heap := heap, calls := [] }
  | entry :: rest =>
    let r := lt.Append P heap entry
    let rs := LedgerTree.appendEach P r.ledger r.heap rest
    { rs with
      calls := { entry := entry, SequenceNumber := (r.heap entry).SequenceNumber,
                 err := r.err } :: rs.calls }

/-- An entry as `cmd/ledger-node` builds it before `Append`: no hash, sequence
number zero. -/
def testEntry : Entry :=
  { EntryHash := none, Timestamp := { unix := 1700000000, nsec := 0 },
    SignerIdentityID := [116, 101, 115, 116], SignatureHash := [1, 2],
    EntryType := [115, 105, 103], SequenceNumber := 0 }

/-- A heap in which every address holds a copy of `testEntry`. -/
def testHeap : Heap := fun _ => testEntry

/-- A heap like `testHeap` in which the entry at address 0 comes with the
one-byte hash `[7]` already supplied. -/
def suppliedHeap : Heap := Function.update testHeap 0 { testEntry with EntryHash := some [7] }

/-- The tree and the stored entries of a ledger are in step: every stored entry
carries a hash, leaf `i` of the tree is the leaf `Tree.Append` creates when fed
the hash of stored entry `i`, and the root is the recursive root of the leaf
hashes. -/
def LedgerTree.InStep (P : Primitives) (lt : LedgerTree) (heap : Heap) : Prop :=
  (∀ p ∈ lt.entries, (heap p).EntryHash ≠ none) ∧
  lt.tree.Leaves = lt.entries.map (fun p => leafOf P lt.hashAlgo ((heap p).EntryHash.getD [])) ∧
  (lt.entries ≠ [] →
    RootHash lt.tree = MTH (digest P lt.hashAlgo) (lt.tree.Leaves.map Node.Hash))

/-! ## internal/crypto/hash/hash.go, continued -/

/-- The loop `for i := range computed { if computed[i] != expected[i] ... }` from
position `i` on, as `hash.Verify` and `compareHashes` of `cmd/verifier` write it:
`some false` at the first difference, `some true` at the end, `none` when
`expected[i]` is out of range. -/
def compareFrom (expected : Bytes) : Nat → Bytes → Option Bool
  | _, [] => some true
  | i, c :: rest =>
    match expected[i]? with
    | none => none
    | some x => if c ≠ x then some false else compareFrom expected (i + 1) rest

/-- Function `hash.HashString`; the Go string returned is its byte sequence. -/
def hash.HashString (P : Primitives) (data : Bytes) (algo : Algorithm) : Except String Bytes :=
  match Hash P data algo with
  | Except.error err => Except.error err
  | Except.ok h => Except.ok (hexEncodeToString h)

/-- Function `hash.Verify`. -/
def hash.Verify (P : Primitives) (data expectedHash : Bytes) (algo : Algorithm) :
    Except String Bool :=
  match Hash P data algo with
  | Except.error err => Except.error err
  | Except.ok computed =>
    if computed.length ≠ expectedHash.length then Except.ok false
    else
      match compareFrom expectedHash 0 computed with
      | some b => Except.ok b
      | none => Except.error "panic: index out of range"

/-! ## internal/crypto/signatures/signatures.go -/

/-- The Ed25519 operations of `crypto/ed25519`: the outcome of
`GenerateKey(rand.Reader)` (public key, private key), `Sign` and `Verify`. -/
structure SigPrimitives where
  ed25519GenerateKey : Except String (Bytes × Bytes)
  ed25519Sign : Bytes → Bytes → Bytes
  ed25519Verify : Bytes → Bytes → Bytes → Bool

/-- The constant `signatures.Ed25519`. -/
def signatures.Ed25519 : String := "Ed25519"

/-- The constant `signatures.Ed448`. -/
def signatures.Ed448 : String := "Ed448"

/-- Struct `KeyPair`. -/
structure KeyPair where
  PublicKey : Bytes
  PrivateKey : Bytes
  Algorithm : String
  deriving DecidableEq, Repr

/-- Function `signatures.GenerateKeyPair`. -/
def signatures.GenerateKeyPair (S : SigPrimitives) (algo : String) : Except String KeyPair :=
  if algo = signatures.Ed25519 then
    match S.ed25519GenerateKey with
    | Except.error err => Except.error ("failed to generate Ed25519 key: " ++ err)
    | Except.ok (pub, priv) =>
      Except.ok { PublicKey := pub, PrivateKey := priv, Algorithm := signatures.Ed25519 }
  else if algo = signatures.Ed448 then Except.error "Ed448 not yet implemented"
  else Except.error ("unsupported signature algorithm: " ++ algo)

/-- Function `signatures.Sign`; `ed25519.PrivateKeySize` is 64. -/
def signatures.Sign (S : SigPrimitives) (privateKey message : Bytes) (algo : String) :
    Except String Bytes :=
  if algo = signatures.Ed25519 then
    if privateKey.length ≠ 64 then Except.error "invalid Ed25519 private key size"
    else Except.ok (S.ed25519Sign privateKey message)
  else if algo = signatures.Ed448 then Except.error "Ed448 not yet implemented"
  else Except.error ("unsupported signature algorithm: " ++ algo)

/-- Function `signatures.Verify`; `ed25519.PublicKeySize` is 32 and
`ed25519.SignatureSize` is 64. -/
def signatures.Verify (S : SigPrimitives) (publicKey message signature : Bytes)
    (algo : String) : Except String Bool :=
  if algo = signatures.Ed25519 then
    if publicKey.length ≠ 32 then Except.error "invalid Ed25519 public key size"
    else if signature.length ≠ 64 then Except.error "invalid Ed25519 signature size"
    else Except.ok (S.ed25519Verify publicKey message signature)
  else if algo = signatures.Ed448 then Except.error "Ed448 not yet implemented"
  else Except.error ("unsupported signature algorithm: " ++ algo)

/-! ## internal/crypto/canonical/canonical.go -/

/-- The constant `canonical.CBOR`. -/
def canonical.CBOR : String := "CBOR"

/-- The constant `canonical.JSON`. -/
def canonical.JSON : String := "JSON"

/-- The four functions `Encode` and `Decode` dispatch to, for values of one Go
type `α`: `encodeCBOR`, `encodeJSON`, `decodeCBOR`, `decodeJSON` (a decoder
returns the value it writes to `dest`). Their results come from the CBOR and JSON
libraries. -/
structure Codec (α : Type) where
  encodeCBOR : α → Except String Bytes
  encodeJSON : α → Except String Bytes
  decodeCBOR : Bytes → Except String α
  decodeJSON : Bytes → Except String α

/-- Function `canonical.Encode`. -/
def canonical.Encode {α : Type} (C : Codec α) (data : α) (format : String) :
    Except String Bytes :=
  if format = canonical.CBOR then C.encodeCBOR data
  else if format = canonical.JSON then C.encodeJSON data
  else Except.error ("unsupported canonical format: " ++ format)

/-- Function `canonical.Decode`. -/
def canonical.Decode {α : Type} (C : Codec α) (data : Bytes) (format : String) :
    Except String α :=
  if format = canonical.CBOR then C.decodeCBOR data
  else if format = canonical.JSON then C.decodeJSON data
  else Except.error ("unsupported canonical format: " ++ format)

/-! ## internal/identity/models/identity.go -/

/-- Method `time.Time.Before` on wall-clock readings: seconds first, then
nanoseconds. -/
def Time.Before (t u : Time) : Bool :=
  decide (t.unix < u.unix) || (decide (t.unix = u.unix) && decide (t.nsec < u.nsec))

/-- Method `time.Time.After`. -/
def Time.After (t u : Time) : Bool :=
  decide (t.unix > u.unix) || (decide (t.unix = u.unix) && decide (t.nsec > u.nsec))

/-- The order of instants, `t ≤ u`: `t` is not later than `u`. -/
def Time.le (t u : Time) : Prop :=
  t.unix < u.unix ∨ (t.unix = u.unix ∧ t.nsec ≤ u.nsec)

/-- The instant as nanoseconds since the epoch. -/
def Time.nanos (t : Time) : Int := t.unix * 1000000000 + t.nsec

/-- The constant `StatusActive`. -/
def StatusActive : String := "active"

/-- The constant `StatusRevoked`. -/
def StatusRevoked : String := "revoked"

/-- The constant `StatusExpired`. -/
def StatusExpired : String := "expired"

/-- The constant `StatusPending`. -/
def StatusPending : String := "pending"

/-- Struct `Identity`. -/
structure Identity where
  OfficeID : Bytes
  Jurisdiction : Bytes
  PublicKey : Bytes
  KeyVersion : Int
  ValidFrom : Time
  ValidTo : Time
  KeyAlgorithm : Bytes
  Status : String
  RevocationPointer : Bytes
  IdentityID : Bytes
  deriving DecidableEq, Repr

/-- Method `Identity.IsValid`. -/
def Identity.IsValid (i : Identity) (instant : Time) : Bool :=
  if i.Status ≠ StatusActive then false
  else if instant.Before i.ValidFrom || instant.After i.ValidTo then false
  else true

/-! ## internal/signer/bundle/bundle.go -/

/-- Struct `bundle.InclusionProof`. -/
structure BundleInclusionProof where
  LeafIndex : Int
  LeafHash : Bytes
  TreeSize : Int
  Path : List Bytes
  deriving DecidableEq, Repr

/-- Struct `SignatureBundle`; `MerkleInclusionProof` is a pointer, `none` for `nil`. -/
structure SignatureBundle where
  ContentHash : Bytes
  ContentHashAlgorithm : String
  CanonicalFormatVersion : String
  SignerIdentityID : Bytes
  KeyVersion : Int
  Signature : Bytes
  TimestampToken : Bytes
  LedgerEntryHash : Bytes
  MerkleInclusionProof : Option BundleInclusionProof
  BundleVersion : String
  deriving DecidableEq, Repr

/-- Struct `IdentityInfo`. -/
structure IdentityInfo where
  IdentityID : Bytes
  Office : Bytes
  Jurisdiction : Bytes
  KeyVersion : Int
  ValidFrom : Time
  ValidTo : Time
  Status : String
  deriving DecidableEq, Repr

/-- Struct `VerificationResult`; the map `Checks` is a list of key and value, one
pair for each key. -/
structure VerificationResult where
  Valid : Bool
  Timestamp : Time
  Checks : List (String × Bool)
  Errors : List String
  Warnings : List String
  IdentityInfo : Option IdentityInfo
  deriving DecidableEq, Repr

/-- The assignment `m[key] = value` on a map. -/
def mapSet (m : List (String × Bool)) (key : String) (value : Bool) : List (String × Bool) :=
  (key, value) :: m.filter (fun kv => kv.1 ≠ key)

/-- The read `result.Checks[key]`: the zero value `false` for a missing key. -/
def VerificationResult.check (r : VerificationResult) (key : String) : Bool :=
  (r.Checks.lookup key).getD false

/-! ## cmd/verifier/main.go -/

/-- Function `compareHashes` of `cmd/verifier`; `none` stands for an index out of
range. -/
def compareHashes (a b : Bytes) : Option Bool :=
  if a.length ≠ b.length then some false else compareFrom b 0 a

/-- What `main` of `cmd/verifier` works on after its file reads: the media file,
the decoded bundle, the decoded public key, the flags `-offline` and `-audit`,
and the value of `time.Now().UTC()`. -/
structure VerifierInput where
  mediaContent : Bytes
  sigBundle : SignatureBundle
  pubKeyBytes : Bytes
  offline : Bool
  audit : Bool
  now : Time

/-- Steps 5 to 10 of `main` of `cmd/verifier`, once the comparison of the hashes
and the signature check have returned `hashMatch` and `sigValid`. -/
def verifierResult (inp : VerifierInput) (hashMatch sigValid : Bool) : VerificationResult :=
  let result0 : VerificationResult :=
    { Valid := true, Timestamp := inp.now, Checks := [], Errors := [], Warnings := [],
      IdentityInfo := none }
  let result1 := { result0 with Checks := mapSet result0.Checks "hash_match" hashMatch }
  let result2 :=
    if !hashMatch then
      { result1 with Valid := false, Errors := result1.Errors ++ ["Content hash mismatch"] }
    else result1
  let result3 := { result2 with Checks := mapSet result2.Checks "signature_valid" sigValid }
  let result4 :=
    if !sigValid then
      { result3 with Valid := false, Errors := result3.Errors ++ ["Invalid signature"] }
    else result3
  let result5 :=
    { result4 with
      Checks := mapSet result4.Checks "timestamp_valid"
        (decide (inp.sigBundle.TimestampToken.length > 0)) }
  let result6 :=
    if inp.sigBundle.TimestampToken.length > 0 then result5
    else { result5 with Warnings := result5.Warnings ++ ["No timestamp token"] }
  let result7 :=
    if !inp.offline then
      { result6 with Checks := mapSet result6.Checks "ledger_inclusion" true }
    else result6
  if inp.audit then { result7 with Checks := mapSet result7.Checks "audit_complete" true }
  else result7

/-- Function `main` of `cmd/verifier` from step 3 on: canonicalize the media as
CBOR, hash it with SHA-256, compare with `ContentHash`, verify the signature with
Ed25519, then `verifierResult`. -/
def verifierMain (P : Primitives) (S : SigPrimitives) (C : Codec Bytes) (inp : VerifierInput) :
    Except String VerificationResult :=
  match canonical.Encode C inp.mediaContent canonical.CBOR with
  | Except.error err => Except.error ("Failed to canonicalize media: " ++ err)
  | Except.ok canonicalMedia =>
    match Hash P canonicalMedia SHA256 with
    | Except.error err => Except.error ("Failed to hash media: " ++ err)
    | Except.ok computedHash =>
      match compareHashes computedHash inp.sigBundle.ContentHash with
      | none => Except.error "panic: index out of range"
      | some hashMatch =>
        match signatures.Verify S inp.pubKeyBytes inp.sigBundle.ContentHash
            inp.sigBundle.Signature signatures.Ed25519 with
        | Except.error err => Except.error ("Failed to verify signature: " ++ err)
        | Except.ok sigValid => Except.ok (verifierResult inp hashMatch sigValid)

/-! ## cmd/signer/main.go -/

/-- What `main` of `cmd/signer` works on: the input file, the flags `-identity`
and `-canon`, the key `loadPrivateKey` returned, the bytes of the encoded
timestamp token (steps 6, from the timestamp authority), and the value of
`time.Now().UTC()`. -/
structure SignerInput where
  content : Bytes
  identityID : Bytes
  canonFormat : String
  privateKey : Bytes
  tsData : Bytes
  now : Time

/-- Function `main` of `cmd/signer` from step 2 on, up to the bundle it encodes
and writes. -/
def signerMain (P : Primitives) (S : SigPrimitives) (C : Codec Bytes) (inp : SignerInput) :
    Except String SignatureBundle :=
  let format : Except String String :=
    if inp.canonFormat = "CBOR" then Except.ok canonical.CBOR
    else if inp.canonFormat = "JSON" then Except.ok canonical.JSON
    else Except.error ("Unsupported canonical format: " ++ inp.canonFormat)
  match format with
  | Except.error err => Except.error err
  | Except.ok format =>
    match canonical.Encode C inp.content format with
    | Except.error err => Except.error ("Failed to canonicalize content: " ++ err)
    | Except.ok canonicalData =>
      match Hash P canonicalData SHA256 with
      | Except.error err => Except.error ("Failed to hash content: " ++ err)
      | Except.ok contentHash =>
        match signatures.Sign S inp.privateKey contentHash signatures.Ed25519 with
        | Except.error err => Except.error ("Failed to sign: " ++ err)
        | Except.ok signature =>
          let entry : Entry :=
            { EntryHash := none, Timestamp := inp.now, SignerIdentityID := inp.identityID,
              SignatureHash := contentHash, EntryType := [115, 105, 103, 110, 97, 116, 117, 114, 101],
              SequenceNumber := 0 }
          let r := (NewLedgerTree SHA256).Append P (fun _ => entry) 0
          match r.err with
          | some err => Except.error ("Failed to append to ledger: " ++ err)
          | none =>
            match r.ledger.GenerateInclusionProof 0 with
            | Except.error err => Except.error ("Failed to generate inclusion proof: " ++ err)
            | Except.ok proof =>
              Except.ok
                { ContentHash := contentHash, ContentHashAlgorithm := SHA256,
                  CanonicalFormatVersion := "1.0", SignerIdentityID := inp.identityID,
                  KeyVersion := 1, Signature := signature, TimestampToken := inp.tsData,
                  LedgerEntryHash := (r.heap 0).EntryHash.getD [],
                  MerkleInclusionProof :=
                    some { LeafIndex := proof.LeafIndex, LeafHash := proof.LeafHash,
                           TreeSize := proof.TreeSize, Path := proof.Path },
                  BundleVersion := "1.0" }

/-- A concrete instance of `SigPrimitives`, used to evaluate the definitions on
concrete inputs: all-zero keys and signatures, and a check that accepts. -/
def testSig : SigPrimitives where
  ed25519GenerateKey := Except.ok (List.replicate 32 0, List.replicate 64 0)
  ed25519Sign _ _ := List.replicate 64 0
  ed25519Verify _ _ _ := true

/-- A concrete instance of `Codec Bytes`, used to evaluate the definitions on
concrete inputs: the CBOR side puts a length byte in front, the JSON side puts
the bytes between quotes. -/
def testCodec : Codec Bytes where
  encodeCBOR b := Except.ok (Fin.ofNat (64 + b.length) :: b)
  encodeJSON b := Except.ok ([34] ++ b ++ [34])
  decodeCBOR b := Except.ok b.tail
  decodeJSON b := Except.ok b.tail.dropLast

/-- The bytes of `hello`. -/
def helloBytes : Bytes := [104, 101, 108, 108, 111]

/-- A signer input over `hello` with the default format, CBOR. -/
def testSignerInput : SignerInput :=
  { content := helloBytes, identityID := [105, 100], canonFormat := "CBOR",
    privateKey := List.replicate 64 0, tsData := [1],
    now := { unix := 1700000000, nsec := 0 } }

/-- The verifier input that goes with a bundle: the same content `hello`, a
public key of 32 bytes, online, no audit. -/
def testVerifierInput (b : SignatureBundle) : VerifierInput :=
  { mediaContent := helloBytes, sigBundle := b, pubKeyBytes := List.replicate 32 0,
    offline := false, audit := false, now := { unix := 1700000001, nsec := 0 } }

/-- A bundle over `hello` as `testCodec` and `padPrimitives` make it: the content
hash is the digest of the CBOR side's encoding, the signature has 64 bytes, and
there is no timestamp token and no inclusion proof. -/
def testBundle : SignatureBundle :=
  { ContentHash := padPrimitives.sha256Sum256 (Fin.ofNat (64 + helloBytes.length) :: helloBytes),
    ContentHashAlgorithm := SHA256, CanonicalFormatVersion := "1.0",
    SignerIdentityID := [105, 100], KeyVersion := 1, Signature := List.replicate 64 0,
    TimestampToken := [], LedgerEntryHash := [], MerkleInclusionProof := none,
    BundleVersion := "1.0" }

/-- An identity record with status revoked, for the signer `id` of `testBundle`
and the public key of `testVerifierInput`. -/
def revokedIdentity : Identity :=
  { OfficeID := [], Jurisdiction := [], PublicKey := List.replicate 32 0, KeyVersion := 1,
    ValidFrom := { unix := 0, nsec := 0 }, ValidTo := { unix := 2000000000, nsec := 0 },
    KeyAlgorithm := [], Status := StatusRevoked, RevocationPointer := [],
    IdentityID := [105, 100] }

/-! ## internal/crypto/timestamp/timestamp.go -/

/-- Struct `Token`. -/
structure Token where
  Version : Int
  GenTime : Time
  MessageImprint : Bytes
  HashAlgorithm : String
  SerialNumber : Int
  TSA : String
  deriving DecidableEq, Repr

/-- Struct `MockTSAClient`. -/
structure MockTSAClient where
  counter : Int
  deriving DecidableEq, Repr

/-- Function `NewMockTSAClient`. -/
def NewMockTSAClient : MockTSAClient := { counter := 1 }

/-- Method `MockTSAClient.Request`: the pair `(token, err)` it returns, `err` always
`nil`, and the client after `m.counter++`; `now` is what `time.Now().UTC()` gave. -/
def MockTSAClient.Request (m : MockTSAClient) (now : Time) (messageHash : Bytes)
    (hashAlgo : String) : Except String Token × MockTSAClient :=
  let token : Token :=
    { Version := 1, GenTime := now, MessageImprint := messageHash, HashAlgorithm := hashAlgo,
      SerialNumber := m.counter, TSA := "mock-tsa" }
  (Except.ok token, { m with counter := m.counter + 1 })

/-- Method `Token.Verify`; `none` is the panic of `messageHash[i]` out of range. -/
def Token.Verify (t : Token) (messageHash : Bytes) (hashAlgo : String) : Option Bool :=
  if t.HashAlgorithm ≠ hashAlgo then some false
  else if t.MessageImprint.length ≠ messageHash.length then some false
  else compareFrom messageHash 0 t.MessageImprint

/-- An entry with `SignerIdentityID = "a"` and `EntryType = "|b"`, no signature
hash, Unix time 0. -/
def pipeEntry1 : Entry :=
  { EntryHash := none, Timestamp := { unix := 0, nsec := 0 }, SignerIdentityID := [97],
    SignatureHash := [], EntryType := [124, 98], SequenceNumber := 0 }

/-- An entry with `SignerIdentityID = "a|"` and `EntryType = "b"`, no signature
hash, Unix time 0. -/
def pipeEntry2 : Entry :=
  { EntryHash := none, Timestamp := { unix := 0, nsec := 0 }, SignerIdentityID := [97, 124],
    SignatureHash := [], EntryType := [98], SequenceNumber := 0 }

/-- Reads a string of decimal digits back as a number. -/
def parseDecimalNat (s : Bytes) : Nat :=
  Nat.ofDigits 10 ((s.map fun c => c.val - 48).reverse)

end CivicAttest

/-! ## Theorems -/

namespace CivicAttest

/-! ### The split point -/

theorem splitPoint_pos (n : Nat) : 0 < splitPoint n := by
  unfold splitPoint; positivity

theorem splitPoint_lt {n : Nat} (h : 2 ≤ n) : splitPoint n < n := by
  have h1 : 2 ^ Nat.log 2 (n - 1) ≤ n - 1 := Nat.pow_log_le_self 2 (by omega)
  unfold splitPoint; omega

theorem le_two_mul_splitPoint (n : Nat) : n ≤ 2 * splitPoint n := by
  have h1 : n - 1 < 2 ^ (Nat.log 2 (n - 1)).succ := Nat.lt_pow_succ_log_self (by decide) _
  rw [Nat.pow_succ] at h1
  unfold splitPoint; omega

theorem splitPoint_is_pow (n : Nat) : ∃ e, splitPoint n = 2 ^ e := ⟨_, rfl⟩

theorem splitPoint_eq_of_bounds {n e : Nat} (h1 : 2 ^ e < n) (h2 : n ≤ 2 * 2 ^ e) :
    splitPoint n = 2 ^ e := by
  unfold splitPoint
  congr 1
  apply Nat.log_eq_of_pow_le_of_lt_pow
  · omega
  · rw [Nat.pow_succ]; omega

theorem splitPoint_half {n : Nat} (h : 3 ≤ n) :
    2 * splitPoint ((n + 1) / 2) = splitPoint n := by
  obtain ⟨e, he⟩ : ∃ e, Nat.log 2 (n - 1) = e + 1 := by
    have h0 : 0 < Nat.log 2 (n - 1) := Nat.log_pos (by decide) (by omega)
    exact ⟨Nat.log 2 (n - 1) - 1, by omega⟩
  have h1 : 2 ^ (e + 1) ≤ n - 1 := he ▸ Nat.pow_log_le_self 2 (by omega)
  have h2 : n - 1 < 2 ^ (e + 1 + 1) := he ▸ Nat.lt_pow_succ_log_self (by decide) (n - 1)
  have hs : splitPoint n = 2 ^ (e + 1) := by unfold splitPoint; rw [he]
  rw [Nat.pow_succ] at h1
  rw [Nat.pow_succ, Nat.pow_succ] at h2
  rw [hs, splitPoint_eq_of_bounds (e := e) (by omega) (by omega), Nat.pow_succ]
  omega

theorem splitPoint_largest {n e : Nat} (h : 2 ^ e < n) : 2 ^ e ≤ splitPoint n := by
  have h1 := le_two_mul_splitPoint n
  unfold splitPoint at h1 ⊢
  have h2 : 2 ^ e < 2 ^ (Nat.log 2 (n - 1) + 1) := by rw [Nat.pow_succ]; omega
  have h3 : e < Nat.log 2 (n - 1) + 1 := (Nat.pow_lt_pow_iff_right (by decide)).mp h2
  exact Nat.pow_le_pow_right (by decide) (by omega)

/-! ### One round on the hashes -/

theorem pairHashes_length (H : Bytes → Bytes) :
    ∀ l : List Bytes, (pairHashes H l).length = (l.length + 1) / 2
  | [] => by simp [pairHashes]
  | [_] => by simp [pairHashes]
  | _ :: _ :: rest => by
    simp only [pairHashes, List.length_cons, pairHashes_length H rest]
    omega

theorem pairHashes_append (H : Bytes → Bytes) :
    ∀ (j : Nat) (l1 l2 : List Bytes), l1.length = 2 * j →
      pairHashes H (l1 ++ l2) = pairHashes H l1 ++ pairHashes H l2
  | 0, [], l2, _ => by simp [pairHashes]
  | 0, _ :: _, _, h => by simp at h
  | j + 1, [], _, h => by simp at h
  | j + 1, [_], _, h => by simp at h; omega
  | j + 1, a :: b :: rest, l2, h => by
    have hr : rest.length = 2 * j := by simp at h; omega
    simp [pairHashes, pairHashes_append H j rest l2 hr]

theorem pairHashes_take (H : Bytes → Bytes) (j : Nat) (l : List Bytes) (h : 2 * j ≤ l.length) :
    (pairHashes H l).take j = pairHashes H (l.take (2 * j)) := by
  have hl : (l.take (2 * j)).length = 2 * j := by simp; omega
  have hp : (pairHashes H (l.take (2 * j))).length = j := by
    rw [pairHashes_length, hl]; omega
  conv_lhs => rw [← List.take_append_drop (2 * j) l, pairHashes_append H j _ _ hl]
  rw [List.take_left' hp]

theorem pairHashes_drop (H : Bytes → Bytes) (j : Nat) (l : List Bytes) (h : 2 * j ≤ l.length) :
    (pairHashes H l).drop j = pairHashes H (l.drop (2 * j)) := by
  have hl : (l.take (2 * j)).length = 2 * j := by simp; omega
  have hp : (pairHashes H (l.take (2 * j))).length = j := by
    rw [pairHashes_length, hl]; omega
  conv_lhs => rw [← List.take_append_drop (2 * j) l, pairHashes_append H j _ _ hl]
  rw [List.drop_left' hp]

/-! ### The recursive root -/

theorem MTH_singleton (H : Bytes → Bytes) (h : Bytes) : MTH H [h] = h := by
  rw [MTH]

theorem MTH_split (H : Bytes → Bytes) (l : List Bytes) (h : 2 ≤ l.length) :
    MTH H l = H (MTH H (l.take (splitPoint l.length)) ++ MTH H (l.drop (splitPoint l.length))) := by
  match l, h with
  | a :: b :: rest, _ => rw [MTH]; rfl

/-- One bottom-up round does not change the recursive root. -/
theorem MTH_pairHashes (H : Bytes → Bytes) :
    ∀ (n : Nat) (l : List Bytes), l.length = n → MTH H (pairHashes H l) = MTH H l := by
  intro n
  induction n using Nat.strong_induction_on with
  | _ n ih =>
    intro l hl
    match l, hl with
    | [], _ => simp [pairHashes]
    | [a], _ => simp [pairHashes]
    | [a, b], _ =>
      have h2 : splitPoint 2 = 1 := by simp [splitPoint]
      have e1 : MTH H [a, b] = H (MTH H [a] ++ MTH H [b]) := by
        rw [MTH_split H [a, b] (by simp)]
        simp only [List.length_cons, List.length_nil, h2]
        rfl
      rw [e1]
      simp [pairHashes, MTH_singleton]
    | a :: b :: c :: rest, hl =>
      have hn : 3 ≤ n := by simp at hl; omega
      generalize hL : a :: b :: c :: rest = L at hl
      have hk := splitPoint_half hn
      have hlt := splitPoint_lt (show 2 ≤ n by omega)
      have hpos := splitPoint_pos ((n + 1) / 2)
      have hpl : (pairHashes H L).length = (n + 1) / 2 := by rw [pairHashes_length, hl]
      rw [MTH_split H (pairHashes H L) (by omega), MTH_split H L (by omega), hpl, hl, ← hk]
      rw [pairHashes_take H _ L (by omega), pairHashes_drop H _ L (by omega)]
      rw [ih (2 * splitPoint ((n + 1) / 2)) (by omega) (L.take (2 * splitPoint ((n + 1) / 2)))
        (by simp; omega)]
      rw [ih (n - 2 * splitPoint ((n + 1) / 2)) (by omega)
        (L.drop (2 * splitPoint ((n + 1) / 2))) (by simp; omega)]

/-! ### The audit path of the specification recombines to the recursive root -/

theorem auditPath_split (H : Bytes → Bytes) (m : Nat) (l : List Bytes) (h : 2 ≤ l.length) :
    auditPath H m l =
      if m < splitPoint l.length then
        auditPath H m (l.take (splitPoint l.length)) ++ [MTH H (l.drop (splitPoint l.length))]
      else
        auditPath H (m - splitPoint l.length) (l.drop (splitPoint l.length))
          ++ [MTH H (l.take (splitPoint l.length))] := by
  match l, h with
  | a :: b :: rest, _ => rw [auditPath]; rfl

theorem rootFromPath_auditPath (H : Bytes → Bytes) :
    ∀ (n : Nat) (l : List Bytes) (m : Nat) (x : Bytes), l.length = n → l[m]? = some x →
      rootFromPath H x m n (auditPath H m l) = some (MTH H l) := by
  intro n
  induction n using Nat.strong_induction_on with
  | _ n ih =>
    intro l m x hl hx
    have hm : m < l.length := by
      by_contra hc
      rw [List.getElem?_eq_none (by omega)] at hx
      cases hx
    by_cases h1 : n ≤ 1
    · obtain ⟨a, ha⟩ := List.length_eq_one.mp (show l.length = 1 by omega)
      subst ha
      have hm0 : m = 0 := by simp at hm; exact hm
      subst hm0
      simp only [List.getElem?_cons_zero, Option.some.injEq] at hx
      subst hx
      rw [rootFromPath, if_pos h1, auditPath, MTH_singleton]
      simp
    · have hk := splitPoint_lt (show 2 ≤ n by omega)
      have hpos := splitPoint_pos n
      rw [rootFromPath, if_neg h1, auditPath_split H m l (by omega), hl, MTH_split H l (by omega),
        hl]
      by_cases hlt : m < splitPoint n
      · simp only [if_pos hlt, List.getLast?_concat, List.dropLast_concat]
        rw [ih (splitPoint n) hk (l.take (splitPoint n)) m x (by simp; omega)
          (by rw [List.getElem?_take_of_lt hlt]; exact hx)]
        rfl
      · simp only [if_neg hlt, List.getLast?_concat, List.dropLast_concat]
        rw [ih (n - splitPoint n) (by omega) (l.drop (splitPoint n)) (m - splitPoint n) x
          (by simp; omega)
          (by rw [List.getElem?_drop, show splitPoint n + (m - splitPoint n) = m by omega]
              exact hx)]
        rfl

/-! ### `hash.Hash` -/

theorem Hash_of_supported (P : Primitives) {algo : Algorithm} (h : Supported algo) (d : Bytes) :
    Hash P d algo = Except.ok (digest P algo d) := by
  unfold digest Hash
  rcases h with h | h | h <;> subst h <;> simp [SHA256, SHA3_512, BLAKE3]

theorem Hash_of_not_supported (P : Primitives) {algo : Algorithm} (h : ¬ Supported algo)
    (d : Bytes) : Hash P d algo = Except.error ("unsupported hash algorithm: " ++ algo) := by
  unfold Supported at h
  unfold Hash
  simp only [not_or] at h
  simp [h.1, h.2.1, h.2.2]

theorem Hash_eq_ok (P : Primitives) {algo : Algorithm} {d h : Bytes}
    (hh : Hash P d algo = Except.ok h) : Supported algo ∧ h = digest P algo d := by
  by_cases hs : Supported algo
  · rw [Hash_of_supported P hs] at hh
    exact ⟨hs, by injection hh with e; exact e.symm⟩
  · rw [Hash_of_not_supported P hs] at hh
    cases hh

theorem digest_length_pos (P : Primitives) {algo : Algorithm} (h : Supported algo) (d : Bytes) :
    0 < (digest P algo d).length := by
  unfold digest Hash
  rcases h with h | h | h <;> subst h <;>
    simp [SHA256, SHA3_512, BLAKE3, P.sha256Sum256_length, P.sha3Sum512_length,
      P.blake3Sum256_length]

/-! ### `rebuildTree` -/

theorem combineNodes_Hash (P : Primitives) (t : Tree) (a b : Node) :
    (combineNodes P t a b).Hash = digest P t.HashAlgo (a.Hash ++ b.Hash) := rfl

theorem nextLevel_hashes (P : Primitives) (t : Tree) :
    ∀ l : List Node, (nextLevel P t l).map Node.Hash
      = pairHashes (digest P t.HashAlgo) (l.map Node.Hash)
  | [] => by simp [nextLevel, pairHashes]
  | [_] => by simp [nextLevel, pairHashes]
  | a :: b :: rest => by
    simp [nextLevel, pairHashes, combineNodes_Hash, nextLevel_hashes P t rest]

theorem nextLevel_length (P : Primitives) (t : Tree) (l : List Node) :
    (nextLevel P t l).length = (l.length + 1) / 2 := by
  have h := congrArg List.length (nextLevel_hashes P t l)
  simpa [pairHashes_length] using h

/-- With as many rounds as nodes, the loop of `rebuildTree` ends on exactly one
node, whose hash is the recursive root of the level it started from. -/
theorem levelLoop_hashes (P : Primitives) (t : Tree) :
    ∀ (fuel : Nat) (cur : List Node), cur ≠ [] → cur.length ≤ fuel →
      (levelLoop P t fuel cur).map Node.Hash = [MTH (digest P t.HashAlgo) (cur.map Node.Hash)] := by
  intro fuel
  induction fuel with
  | zero =>
    intro cur hne hle
    cases cur with
    | nil => exact absurd rfl hne
    | cons a l => simp at hle
  | succ fuel ih =>
    intro cur hne hle
    unfold levelLoop
    by_cases h1 : cur.length > 1
    · rw [if_pos h1]
      have hlen := nextLevel_length P t cur
      have hne2 : nextLevel P t cur ≠ [] := by
        intro h0
        rw [h0] at hlen
        simp at hlen
        omega
      rw [ih (nextLevel P t cur) hne2 (by omega), nextLevel_hashes,
        MTH_pairHashes _ _ _ rfl]
    · rw [if_neg h1]
      match cur, hne, h1 with
      | [a], _, _ => simp [MTH_singleton]
      | _ :: _ :: _, _, h1 => simp at h1

theorem levelLoop_length (P : Primitives) (t : Tree) (cur : List Node) (hne : cur ≠ []) :
    (levelLoop P t cur.length cur).length = 1 := by
  have h := congrArg List.length (levelLoop_hashes P t cur.length cur hne (le_refl _))
  simpa using h

theorem rebuildTree_Leaves (P : Primitives) (t : Tree) : (rebuildTree P t).Leaves = t.Leaves := by
  unfold rebuildTree; split_ifs <;> rfl

theorem rebuildTree_HashAlgo (P : Primitives) (t : Tree) :
    (rebuildTree P t).HashAlgo = t.HashAlgo := by
  unfold rebuildTree; split_ifs <;> rfl

theorem rebuildTree_treeSize (P : Primitives) (t : Tree) :
    (rebuildTree P t).treeSize = t.treeSize := by
  unfold rebuildTree; split_ifs <;> rfl

/-- After `rebuildTree` on a tree with leaves, the root hash is the recursive
root of the leaf hashes. -/
theorem rebuildTree_RootHash (P : Primitives) (t : Tree) (hne : t.Leaves ≠ []) :
    RootHash (rebuildTree P t) = MTH (digest P t.HashAlgo) (t.Leaves.map Node.Hash) := by
  unfold rebuildTree
  have h0 : ¬ t.Leaves.length = 0 := by
    intro h; exact hne (List.length_eq_zero.mp h)
  rw [if_neg h0]
  by_cases h1 : t.Leaves.length = 1
  · rw [if_pos h1]
    obtain ⟨a, ha⟩ := List.length_eq_one.mp h1
    simp [RootHash, ha, MTH_singleton]
  · rw [if_neg h1]
    have h := levelLoop_hashes P t t.Leaves.length t.Leaves hne (le_refl _)
    match hc : levelLoop P t t.Leaves.length t.Leaves, h with
    | [x], h =>
      simp only [List.map_cons, List.map_nil, List.cons.injEq, and_true] at h
      simp [RootHash, h]
    | _ :: _ :: _, h => simp at h

/-! ### `Append` and the caller's loop -/

theorem Append_of_supported (P : Primitives) (t : Tree) (d : Bytes) (h : Supported t.HashAlgo) :
    Append P t d = Except.ok (rebuildTree P
      { t with Leaves := t.Leaves ++ [leafOf P t.HashAlgo d], treeSize := t.treeSize + 1 }) := by
  unfold Append
  rw [Hash_of_supported P h]
  rfl

theorem Append_eq_ok (P : Primitives) {t t1 : Tree} {d : Bytes}
    (h : Append P t d = Except.ok t1) :
    Supported t.HashAlgo ∧ t1 = rebuildTree P
      { t with Leaves := t.Leaves ++ [leafOf P t.HashAlgo d], treeSize := t.treeSize + 1 } := by
  by_cases hs : Supported t.HashAlgo
  · rw [Append_of_supported P t d hs] at h
    exact ⟨hs, by injection h with e; exact e.symm⟩
  · unfold Append at h
    rw [Hash_of_not_supported P hs] at h
    cases h

theorem appendAll_of_supported (P : Primitives) :
    ∀ (ds : List Bytes) (t : Tree), Supported t.HashAlgo → ∃ t1, appendAll P t ds = Except.ok t1
  | [], t, _ => ⟨t, rfl⟩
  | d :: ds, t, h => by
    unfold appendAll
    rw [Append_of_supported P t d h]
    exact appendAll_of_supported P ds _ (by rw [rebuildTree_HashAlgo]; exact h)

/-- What a successful run of appends leaves in the tree. -/
theorem appendAll_eq_ok (P : Primitives) :
    ∀ (ds : List Bytes) (t t1 : Tree), appendAll P t ds = Except.ok t1 →
      t1.HashAlgo = t.HashAlgo ∧
      t1.Leaves = t.Leaves ++ ds.map (leafOf P t.HashAlgo) ∧
      t1.treeSize = t.treeSize + ds.length ∧
      (ds ≠ [] → Supported t.HashAlgo ∧
        RootHash t1 = MTH (digest P t.HashAlgo) (t1.Leaves.map Node.Hash))
  | [], t, t1, h => by
    simp only [appendAll, Except.ok.injEq] at h
    subst h
    simp
  | d :: ds, t, t1, h => by
    unfold appendAll at h
    match ha : Append P t d, h with
    | Except.ok t2, h =>
      obtain ⟨hs, e2⟩ := Append_eq_ok P ha
      have ih := appendAll_eq_ok P ds t2 t1 h
      have hA : t2.HashAlgo = t.HashAlgo := by rw [e2, rebuildTree_HashAlgo]
      have hL : t2.Leaves = t.Leaves ++ [leafOf P t.HashAlgo d] := by
        rw [e2, rebuildTree_Leaves]
      have hS : t2.treeSize = t.treeSize + 1 := by rw [e2, rebuildTree_treeSize]
      obtain ⟨i1, i2, i3, i4⟩ := ih
      refine ⟨i1.trans hA, ?_, ?_, ?_⟩
      · rw [i2, hL, hA]; simp
      · rw [i3, hS]; simp; omega
      · intro _
        refine ⟨hs, ?_⟩
        by_cases hds : ds = []
        · subst hds
          simp only [appendAll, Except.ok.injEq] at h
          subst h
          rw [e2, rebuildTree_RootHash P _ (by simp), rebuildTree_Leaves]
        · rw [(i4 hds).2, hA]

/-- The trees the package can produce: `NewTree` followed by successful appends. -/
theorem built_tree (P : Primitives) (algo : Algorithm) (ds : List Bytes) (t : Tree)
    (h : appendAll P (NewTree algo) ds = Except.ok t) :
    t.HashAlgo = algo ∧ t.Leaves = ds.map (leafOf P algo) ∧ t.treeSize = ds.length ∧
      (ds ≠ [] → Supported algo ∧ RootHash t = MTH (digest P algo) (ds.map (digest P algo))) := by
  obtain ⟨h1, h2, h3, h4⟩ := appendAll_eq_ok P ds (NewTree algo) t h
  have hL : t.Leaves = ds.map (leafOf P algo) := by simpa [NewTree] using h2
  refine ⟨h1, hL, by simpa [NewTree] using h3, ?_⟩
  intro hne
  obtain ⟨hs, hr⟩ := h4 hne
  refine ⟨hs, ?_⟩
  rw [hr, hL]
  simp [NewTree, leafOf, Node.Hash, Function.comp_def]

theorem MTH_length_pos (H : Bytes → Bytes) (hH : ∀ x, 0 < (H x).length) :
    ∀ l : List Bytes, l ≠ [] → (∀ h ∈ l, 0 < h.length) → 0 < (MTH H l).length
  | [], hne, _ => absurd rfl hne
  | [h], _, hl => by rw [MTH_singleton]; exact hl h (by simp)
  | a :: b :: rest, _, _ => by rw [MTH_split H _ (by simp)]; exact hH _

/-! ### Inclusion proofs -/

theorem GenerateInclusionProof_eq_ok {t : Tree} {i : Int} {p : InclusionProof}
    (h : GenerateInclusionProof t i = Except.ok p) :
    0 ≤ i ∧ i < t.Leaves.length ∧ p.LeafIndex = i ∧ p.TreeSize = Size t ∧
      ∃ leaf, t.Leaves[i.toNat]? = some leaf ∧ p.LeafHash = leaf.Hash ∧
        p.Path = buildPath t leaf [] := by
  unfold GenerateInclusionProof at h
  by_cases hi : i < 0 ∨ i ≥ (t.Leaves.length : Int)
  · rw [dif_pos hi] at h; cases h
  · rw [dif_neg hi] at h
    have hlt : i.toNat < t.Leaves.length := by omega
    injection h with h
    subst h
    refine ⟨by omega, by omega, rfl, rfl, t.Leaves[i.toNat], ?_, ?_, ?_⟩
    · exact List.getElem?_eq_getElem hlt
    · simp
    · simp

theorem GenerateInclusionProof_of_valid (t : Tree) (i : Int) (h0 : 0 ≤ i)
    (h1 : i < t.Leaves.length) : ∃ p, GenerateInclusionProof t i = Except.ok p := by
  unfold GenerateInclusionProof
  have hi : ¬ (i < 0 ∨ i ≥ (t.Leaves.length : Int)) := by omega
  rw [dif_neg hi]
  exact ⟨_, rfl⟩

theorem GenerateInclusionProof_of_invalid (t : Tree) (i : Int)
    (h : i < 0 ∨ i ≥ (t.Leaves.length : Int)) :
    GenerateInclusionProof t i = Except.error ("invalid leaf index: " ++ toString i) := by
  unfold GenerateInclusionProof
  rw [dif_pos h]

/-- What `VerifyInclusionProof` does: it looks the leaf up by `LeafIndex` and
compares its hash with `LeafHash`; it reads nothing else of the proof. -/
theorem VerifyInclusionProof_eq_true_iff (t : Tree) (p : InclusionProof) :
    VerifyInclusionProof t p = true ↔
      0 ≤ p.LeafIndex ∧ ∃ leaf, t.Leaves[p.LeafIndex.toNat]? = some leaf ∧
        leaf.Hash = p.LeafHash := by
  unfold VerifyInclusionProof
  by_cases hi : p.LeafIndex < 0 ∨ p.LeafIndex ≥ (t.Leaves.length : Int)
  · rw [dif_pos hi]
    constructor
    · intro h; cases h
    · rintro ⟨h0, leaf, hl, _⟩
      have hlt : p.LeafIndex.toNat < t.Leaves.length := by
        by_contra hc
        rw [List.getElem?_eq_none (by omega)] at hl
        cases hl
      omega
  · rw [dif_neg hi]
    have hlt : p.LeafIndex.toNat < t.Leaves.length := by omega
    simp only [List.get_eq_getElem, decide_eq_true_eq]
    constructor
    · intro h
      exact ⟨by omega, _, List.getElem?_eq_getElem hlt, h⟩
    · rintro ⟨_, leaf, hl, hh⟩
      rw [List.getElem?_eq_getElem hlt] at hl
      injection hl with hl
      rw [hl]; exact hh

theorem built_tree_length (P : Primitives) (algo : Algorithm) (ds : List Bytes) (t : Tree)
    (h : appendAll P (NewTree algo) ds = Except.ok t) : (t.Leaves.length : Int) = Size t := by
  obtain ⟨_, hL, hS, _⟩ := built_tree P algo ds t h
  simp [Size, hL, hS]

/-! ### `buildPath` -/

theorem buildPathLoop_cons (t : Tree) (node leaf : Node) (i : Nat) (rest : List Node)
    (path : List Bytes) :
    buildPathLoop t node i (leaf :: rest) path =
      if leaf.Hash = node.Hash then
        match t.Leaves[i ^^^ 1]? with
        | some s => path ++ [s.Hash]
        | none => path
      else buildPathLoop t node (i + 1) rest path := by
  rw [buildPathLoop]
  by_cases hh : leaf.Hash = node.Hash
  · rw [if_pos hh, if_pos hh]
    by_cases hi : i ^^^ 1 < t.Leaves.length
    · rw [dif_pos hi, List.getElem?_eq_getElem hi]
      simp
    · rw [dif_neg hi, List.getElem?_eq_none (by omega)]
  · rw [if_neg hh, if_neg hh]

/-- The loop of `buildPath` adds at most one hash to the path. -/
theorem buildPathLoop_length_le (t : Tree) (node : Node) :
    ∀ (rest : List Node) (i : Nat) (path : List Bytes),
      (buildPathLoop t node i rest path).length ≤ path.length + 1
  | [], i, path => by simp [buildPathLoop]
  | leaf :: rest, i, path => by
    rw [buildPathLoop_cons]
    split_ifs
    · split <;> simp
    · exact buildPathLoop_length_le t node rest (i + 1) path

theorem GenerateInclusionProof_Path_length_le {t : Tree} {i : Int} {p : InclusionProof}
    (h : GenerateInclusionProof t i = Except.ok p) : p.Path.length ≤ 1 := by
  obtain ⟨_, _, _, _, leaf, _, _, hp⟩ := GenerateInclusionProof_eq_ok h
  rw [hp]
  exact buildPathLoop_length_le t leaf t.Leaves 0 []

/-- The proof for index 2 of a tree of four leaves: `buildPath` stops at the first
leaf whose hash equals that of leaf 2 and adds the hash of one neighbouring leaf. -/
theorem four_leaves_index_two (P : Primitives) (d0 d1 d2 d3 : Bytes) :
    ∃ t p, appendAll P (NewTree SHA256) [d0, d1, d2, d3] = Except.ok t ∧ Size t = 4 ∧
      GenerateInclusionProof t 2 = Except.ok p ∧ p.Path.length = 1 := by
  obtain ⟨t, ht⟩ := appendAll_of_supported P [d0, d1, d2, d3] (NewTree SHA256) (Or.inl rfl)
  obtain ⟨_, hL, hS, _⟩ := built_tree P SHA256 _ t ht
  obtain ⟨p, hp⟩ := GenerateInclusionProof_of_valid t 2 (by decide) (by rw [hL]; simp)
  obtain ⟨_, _, _, _, leaf, hleaf, _, hpath⟩ := GenerateInclusionProof_eq_ok hp
  refine ⟨t, p, ht, by simp [Size, hS], hp, ?_⟩
  have hl : leaf = leafOf P SHA256 d2 := by
    rw [hL] at hleaf
    simp at hleaf
    exact hleaf.symm
  rw [hpath, hl, buildPath]
  have e : buildPathLoop t (leafOf P SHA256 d2) 0 t.Leaves []
      = buildPathLoop t (leafOf P SHA256 d2) 0
          [leafOf P SHA256 d0, leafOf P SHA256 d1, leafOf P SHA256 d2, leafOf P SHA256 d3] [] := by
    rw [hL]; rfl
  rw [e]
  simp only [buildPathLoop_cons, hL]
  split_ifs <;> simp

/-- The proof for index 0 of a tree of two leaves carries the hash of leaf 1. -/
theorem two_leaves_index_zero (P : Primitives) (d0 d1 : Bytes) :
    ∃ t p, appendAll P (NewTree SHA256) [d0, d1] = Except.ok t ∧
      GenerateInclusionProof t 0 = Except.ok p ∧ p.Path = [digest P SHA256 d1] := by
  obtain ⟨t, ht⟩ := appendAll_of_supported P [d0, d1] (NewTree SHA256) (Or.inl rfl)
  obtain ⟨_, hL, _, _⟩ := built_tree P SHA256 _ t ht
  obtain ⟨p, hp⟩ := GenerateInclusionProof_of_valid t 0 (by decide) (by rw [hL]; simp)
  obtain ⟨_, _, _, _, leaf, hleaf, _, hpath⟩ := GenerateInclusionProof_eq_ok hp
  refine ⟨t, p, ht, hp, ?_⟩
  have hl : leaf = leafOf P SHA256 d0 := by
    rw [hL] at hleaf
    simp at hleaf
    exact hleaf.symm
  rw [hpath, hl, buildPath]
  have e : buildPathLoop t (leafOf P SHA256 d0) 0 t.Leaves []
      = buildPathLoop t (leafOf P SHA256 d0) 0 [leafOf P SHA256 d0, leafOf P SHA256 d1] [] := by
    rw [hL]; rfl
  rw [e]
  simp [buildPathLoop_cons, hL, leafOf, Node.Hash]

/-- The result of `VerifyInclusionProof` depends only on `LeafIndex` and `LeafHash` of the proof. -/
theorem VerifyInclusionProof_congr (t : Tree) (p q : InclusionProof)
    (h1 : p.LeafIndex = q.LeafIndex) (h2 : p.LeafHash = q.LeafHash) :
    VerifyInclusionProof t p = VerifyInclusionProof t q := by
  rw [Bool.eq_iff_iff, VerifyInclusionProof_eq_true_iff, VerifyInclusionProof_eq_true_iff,
    h1, h2]

theorem VerifyInclusionProof_of_ok {t : Tree} {i : Int} {p : InclusionProof}
    (hp : GenerateInclusionProof t i = Except.ok p) : VerifyInclusionProof t p = true := by
  obtain ⟨h0, _, hidx, _, leaf, hleaf, hh, _⟩ := GenerateInclusionProof_eq_ok hp
  rw [VerifyInclusionProof_eq_true_iff, hidx]
  exact ⟨h0, leaf, hleaf, hh.symm⟩

theorem VerifyInclusionProof_after_Append (P : Primitives) {t t1 : Tree} {d : Bytes}
    {p : InclusionProof} (hv : VerifyInclusionProof t p = true)
    (ha : Append P t d = Except.ok t1) : VerifyInclusionProof t1 p = true := by
  obtain ⟨_, e⟩ := Append_eq_ok P ha
  rw [VerifyInclusionProof_eq_true_iff] at hv ⊢
  obtain ⟨h0, leaf, hl, hh⟩ := hv
  refine ⟨h0, leaf, ?_, hh⟩
  have hlt : p.LeafIndex.toNat < t.Leaves.length := by
    by_contra hc
    rw [List.getElem?_eq_none (by omega)] at hl
    cases hl
  rw [e, rebuildTree_Leaves]
  simp only
  rw [List.getElem?_append_left hlt]
  exact hl

/-! ### `LedgerTree.Append` -/

theorem storeEntry_sequence (P : Primitives) (lt : LedgerTree) (heap : Heap) (e : EntryPtr) :
    (lt.storeEntry P heap e).ledger.sequence = lt.sequence := by
  unfold LedgerTree.storeEntry
  dsimp only
  split <;> rfl

theorem storeEntry_hashAlgo (P : Primitives) (lt : LedgerTree) (heap : Heap) (e : EntryPtr) :
    (lt.storeEntry P heap e).ledger.hashAlgo = lt.hashAlgo := by
  unfold LedgerTree.storeEntry
  dsimp only
  split <;> rfl

theorem storeEntry_heap (P : Primitives) (lt : LedgerTree) (heap : Heap) (e : EntryPtr) :
    (lt.storeEntry P heap e).heap = heap := by
  unfold LedgerTree.storeEntry
  dsimp only
  split <;> rfl

theorem storeEntry_entries (P : Primitives) (lt : LedgerTree) (heap : Heap) (e : EntryPtr) :
    (lt.storeEntry P heap e).ledger.entries = lt.entries ++ [e] := by
  unfold LedgerTree.storeEntry
  dsimp only
  split <;> rfl

theorem storeEntry_cases (P : Primitives) (lt : LedgerTree) (heap : Heap) (e : EntryPtr) :
    ((lt.storeEntry P heap e).err ≠ none ∧ (lt.storeEntry P heap e).ledger.tree = lt.tree ∧
      ¬ Supported lt.tree.HashAlgo) ∨
    ((lt.storeEntry P heap e).err = none ∧ Supported lt.tree.HashAlgo ∧
      CivicAttest.Append P lt.tree ((heap e).EntryHash.getD [])
        = Except.ok (lt.storeEntry P heap e).ledger.tree) := by
  unfold LedgerTree.storeEntry
  dsimp only
  split
  · next err herr =>
    left
    refine ⟨by simp, rfl, ?_⟩
    intro hs
    rw [Append_of_supported P _ _ hs] at herr
    cases herr
  · next t ht =>
    right
    exact ⟨rfl, (Append_eq_ok P ht).1, ht⟩

theorem LedgerTree_Append_sequence (P : Primitives) (lt : LedgerTree) (heap : Heap)
    (e : EntryPtr) : (lt.Append P heap e).ledger.sequence = lt.sequence + 1 := by
  unfold LedgerTree.Append
  dsimp only
  split
  · split
    · rfl
    · rw [storeEntry_sequence]
  · rw [storeEntry_sequence]

theorem LedgerTree_Append_hashAlgo (P : Primitives) (lt : LedgerTree) (heap : Heap)
    (e : EntryPtr) : (lt.Append P heap e).ledger.hashAlgo = lt.hashAlgo := by
  unfold LedgerTree.Append
  dsimp only
  split
  · split
    · rfl
    · rw [storeEntry_hashAlgo]
  · rw [storeEntry_hashAlgo]

/-- On return the entry passed carries the new value of the counter. -/
theorem LedgerTree_Append_assigned (P : Primitives) (lt : LedgerTree) (heap : Heap)
    (e : EntryPtr) : ((lt.Append P heap e).heap e).SequenceNumber = lt.sequence + 1 := by
  unfold LedgerTree.Append
  dsimp only
  split
  · split
    · simp
    · rw [storeEntry_heap]; simp
  · rw [storeEntry_heap]; simp

/-- Only the entry passed is written. -/
theorem LedgerTree_Append_heap_other (P : Primitives) (lt : LedgerTree) (heap : Heap)
    (e q : EntryPtr) (hq : q ≠ e) : (lt.Append P heap e).heap q = heap q := by
  unfold LedgerTree.Append
  dsimp only
  split
  · split
    · simp [Function.update_noteq hq]
    · rw [storeEntry_heap]; simp [Function.update_noteq hq]
  · rw [storeEntry_heap]; simp [Function.update_noteq hq]

/-- The ways a call ends: with an error and the tree as it was, or without one,
the pointer stored and the tree one leaf longer. -/
theorem LedgerTree_Append_cases (P : Primitives) (lt : LedgerTree) (heap : Heap)
    (e : EntryPtr) :
    ((lt.Append P heap e).err ≠ none ∧ (lt.Append P heap e).ledger.tree = lt.tree ∧
      (¬ Supported lt.hashAlgo ∨ ¬ Supported lt.tree.HashAlgo)) ∨
    ((lt.Append P heap e).err = none ∧ Supported lt.tree.HashAlgo ∧
      (lt.Append P heap e).ledger.entries = lt.entries ++ [e] ∧
      ∃ d, CivicAttest.Append P lt.tree d = Except.ok (lt.Append P heap e).ledger.tree) := by
  have key : ∀ (lt1 : LedgerTree) (h1 : Heap), lt1.tree = lt.tree → lt1.entries = lt.entries →
      ((lt1.storeEntry P h1 e).err ≠ none ∧ (lt1.storeEntry P h1 e).ledger.tree = lt.tree ∧
        (¬ Supported lt.hashAlgo ∨ ¬ Supported lt.tree.HashAlgo)) ∨
      ((lt1.storeEntry P h1 e).err = none ∧ Supported lt.tree.HashAlgo ∧
        (lt1.storeEntry P h1 e).ledger.entries = lt.entries ++ [e] ∧
        ∃ d, CivicAttest.Append P lt.tree d = Except.ok (lt1.storeEntry P h1 e).ledger.tree) := by
    intro lt1 h1 ht he
    rcases storeEntry_cases P lt1 h1 e with ⟨c1, c2, c3⟩ | ⟨c1, c2, c3⟩
    · left; exact ⟨c1, by rw [c2, ht], Or.inr (by rw [← ht]; exact c3)⟩
    · right
      refine ⟨c1, by rw [← ht]; exact c2, by rw [storeEntry_entries, he],
        (h1 e).EntryHash.getD [], ?_⟩
      rw [← ht]; exact c3
  unfold LedgerTree.Append
  dsimp only
  split
  · split
    · next err herr =>
      left
      refine ⟨by simp, rfl, Or.inl ?_⟩
      intro hs
      rw [Hash_of_supported P hs] at herr
      cases herr
    · exact key _ _ rfl rfl
  · exact key _ _ rfl rfl

/-- The tree of the ledger keeps the ledger's algorithm and counts its leaves. -/
theorem LedgerTree_Append_inv (P : Primitives) (lt : LedgerTree) (heap : Heap) (e : EntryPtr)
    (h : lt.tree.HashAlgo = lt.hashAlgo ∧ lt.tree.treeSize = lt.tree.Leaves.length) :
    (lt.Append P heap e).ledger.tree.HashAlgo = (lt.Append P heap e).ledger.hashAlgo ∧
      (lt.Append P heap e).ledger.tree.treeSize = (lt.Append P heap e).ledger.tree.Leaves.length := by
  rw [LedgerTree_Append_hashAlgo]
  rcases LedgerTree_Append_cases P lt heap e with ⟨_, c2, _⟩ | ⟨_, _, _, d, hd⟩
  · rw [c2]; exact h
  · obtain ⟨_, ht⟩ := Append_eq_ok P hd
    rw [ht, rebuildTree_HashAlgo, rebuildTree_treeSize, rebuildTree_Leaves]
    refine ⟨h.1, ?_⟩
    simp only [List.length_append, List.length_singleton, Nat.cast_add, Nat.cast_one]
    omega

/-- A call leaves the size as it was or adds one to it. -/
theorem LedgerTree_Append_size (P : Primitives) (lt : LedgerTree) (heap : Heap) (e : EntryPtr) :
    ((lt.Append P heap e).err ≠ none ∧ (lt.Append P heap e).ledger.GetSize = lt.GetSize) ∨
    ((lt.Append P heap e).err = none ∧ (lt.Append P heap e).ledger.GetSize = lt.GetSize + 1) := by
  rcases LedgerTree_Append_cases P lt heap e with ⟨c1, c2, _⟩ | ⟨c1, _, _, d, hd⟩
  · left; exact ⟨c1, by simp [LedgerTree.GetSize, c2]⟩
  · right
    obtain ⟨_, ht⟩ := Append_eq_ok P hd
    refine ⟨c1, ?_⟩
    simp [LedgerTree.GetSize, Size, ht, rebuildTree_treeSize]

theorem LedgerTree_Append_ok_of_supported (P : Primitives) (lt : LedgerTree) (heap : Heap)
    (e : EntryPtr) (h : lt.tree.HashAlgo = lt.hashAlgo) (hs : Supported lt.hashAlgo) :
    (lt.Append P heap e).err = none ∧ (lt.Append P heap e).ledger.entries = lt.entries ++ [e] ∧
      (lt.Append P heap e).ledger.GetSize = lt.GetSize + 1 := by
  rcases LedgerTree_Append_cases P lt heap e with ⟨_, _, c3⟩ | ⟨c1, _, c3, _⟩
  · rw [h] at c3
    rcases c3 with c3 | c3 <;> exact absurd hs c3
  · rcases LedgerTree_Append_size P lt heap e with ⟨d1, _⟩ | ⟨_, d2⟩
    · exact absurd c1 d1
    · exact ⟨c1, c3, d2⟩

theorem LedgerTree_Append_error_of_not_supported (P : Primitives) (lt : LedgerTree) (heap : Heap)
    (e : EntryPtr) (h : lt.tree.HashAlgo = lt.hashAlgo) (hs : ¬ Supported lt.hashAlgo) :
    (lt.Append P heap e).err ≠ none ∧ (lt.Append P heap e).ledger.tree = lt.tree := by
  rcases LedgerTree_Append_cases P lt heap e with ⟨c1, c2, _⟩ | ⟨_, c2, _⟩
  · exact ⟨c1, c2⟩
  · rw [h] at c2
    exact absurd c2 hs

/-! ### Runs of `LedgerTree.Append` calls -/

theorem appendEach_cons (P : Primitives) (lt : LedgerTree) (heap : Heap) (e : EntryPtr)
    (rest : List EntryPtr) :
    (lt.appendEach P heap (e :: rest)).ledger
        = ((lt.Append P heap e).ledger.appendEach P (lt.Append P heap e).heap rest).ledger ∧
    (lt.appendEach P heap (e :: rest)).heap
        = ((lt.Append P heap e).ledger.appendEach P (lt.Append P heap e).heap rest).heap ∧
    (lt.appendEach P heap (e :: rest)).calls
        = { entry := e, SequenceNumber := ((lt.Append P heap e).heap e).SequenceNumber,
            err := (lt.Append P heap e).err }
          :: ((lt.Append P heap e).ledger.appendEach P (lt.Append P heap e).heap rest).calls :=
  ⟨rfl, rfl, rfl⟩

theorem appendEach_hashAlgo (P : Primitives) :
    ∀ (ptrs : List EntryPtr) (lt : LedgerTree) (heap : Heap),
      (lt.appendEach P heap ptrs).ledger.hashAlgo = lt.hashAlgo
  | [], _, _ => rfl
  | e :: rest, lt, heap => by
    rw [(appendEach_cons P lt heap e rest).1, appendEach_hashAlgo P rest,
      LedgerTree_Append_hashAlgo]

theorem appendEach_sequence (P : Primitives) :
    ∀ (ptrs : List EntryPtr) (lt : LedgerTree) (heap : Heap),
      (lt.appendEach P heap ptrs).ledger.sequence = lt.sequence + ptrs.length
  | [], _, _ => by simp [LedgerTree.appendEach]
  | e :: rest, lt, heap => by
    rw [(appendEach_cons P lt heap e rest).1, appendEach_sequence P rest,
      LedgerTree_Append_sequence]
    simp only [List.length_cons, Nat.cast_add, Nat.cast_one]
    omega

theorem appendEach_inv (P : Primitives) :
    ∀ (ptrs : List EntryPtr) (lt : LedgerTree) (heap : Heap),
      (lt.tree.HashAlgo = lt.hashAlgo ∧ lt.tree.treeSize = lt.tree.Leaves.length) →
      (lt.appendEach P heap ptrs).ledger.tree.HashAlgo = (lt.appendEach P heap ptrs).ledger.hashAlgo ∧
        (lt.appendEach P heap ptrs).ledger.tree.treeSize
          = (lt.appendEach P heap ptrs).ledger.tree.Leaves.length
  | [], _, _, h => h
  | e :: rest, lt, heap, h => by
    rw [(appendEach_cons P lt heap e rest).1]
    exact appendEach_inv P rest _ _ (LedgerTree_Append_inv P lt heap e h)

/-- The size never goes down over a run of calls, failing or not. -/
theorem appendEach_size_le (P : Primitives) :
    ∀ (ptrs : List EntryPtr) (lt : LedgerTree) (heap : Heap),
      lt.GetSize ≤ (lt.appendEach P heap ptrs).ledger.GetSize
  | [], _, _ => le_refl _
  | e :: rest, lt, heap => by
    rw [(appendEach_cons P lt heap e rest).1]
    have ih := appendEach_size_le P rest (lt.Append P heap e).ledger (lt.Append P heap e).heap
    rcases LedgerTree_Append_size P lt heap e with ⟨_, c⟩ | ⟨_, c⟩ <;> omega

/-- The numbers the calls of a run find in their entries: the counter's next
values, one after the other. -/
theorem appendEach_calls_sequence (P : Primitives) :
    ∀ (ptrs : List EntryPtr) (lt : LedgerTree) (heap : Heap),
      (lt.appendEach P heap ptrs).calls.map (fun c => c.SequenceNumber)
        = (List.range ptrs.length).map (fun (k : Nat) => lt.sequence + 1 + (k : Int))
  | [], _, _ => by simp [LedgerTree.appendEach]
  | e :: rest, lt, heap => by
    rw [(appendEach_cons P lt heap e rest).2.2, List.map_cons, appendEach_calls_sequence P rest,
      LedgerTree_Append_assigned, LedgerTree_Append_sequence, List.length_cons,
      List.range_succ_eq_map, List.map_cons, List.map_map]
    simp only [Nat.cast_zero, add_zero, List.cons.injEq, true_and]
    apply List.map_congr_left
    intro k _
    simp only [Function.comp_apply, Nat.cast_succ]
    omega

theorem appendEach_calls_length (P : Primitives) :
    ∀ (ptrs : List EntryPtr) (lt : LedgerTree) (heap : Heap),
      (lt.appendEach P heap ptrs).calls.length = ptrs.length
  | [], _, _ => rfl
  | e :: rest, lt, heap => by
    rw [(appendEach_cons P lt heap e rest).2.2, List.length_cons, appendEach_calls_length P rest,
      List.length_cons]

/-- With a supported algorithm every call of a run succeeds and stores its pointer. -/
theorem appendEach_of_supported (P : Primitives) :
    ∀ (ptrs : List EntryPtr) (lt : LedgerTree) (heap : Heap),
      lt.tree.HashAlgo = lt.hashAlgo → Supported lt.hashAlgo →
      (∀ c ∈ (lt.appendEach P heap ptrs).calls, c.err = none) ∧
      (lt.appendEach P heap ptrs).ledger.entries = lt.entries ++ ptrs ∧
      (lt.appendEach P heap ptrs).ledger.GetSize = lt.GetSize + ptrs.length
  | [], _, _, _, _ => by simp [LedgerTree.appendEach]
  | e :: rest, lt, heap, h, hs => by
    obtain ⟨a1, a2, a3⟩ := LedgerTree_Append_ok_of_supported P lt heap e h hs
    have hA := LedgerTree_Append_hashAlgo P lt heap e
    have hT : (lt.Append P heap e).ledger.tree.HashAlgo = (lt.Append P heap e).ledger.hashAlgo := by
      rcases LedgerTree_Append_cases P lt heap e with ⟨c1, _⟩ | ⟨_, _, _, d, hd⟩
      · exact absurd a1 c1
      · obtain ⟨_, ht⟩ := Append_eq_ok P hd
        rw [ht, rebuildTree_HashAlgo, hA]; exact h
    obtain ⟨i1, i2, i3⟩ := appendEach_of_supported P rest (lt.Append P heap e).ledger
      (lt.Append P heap e).heap hT (by rw [hA]; exact hs)
    obtain ⟨e1, _, e3⟩ := appendEach_cons P lt heap e rest
    rw [e1, e3]
    refine ⟨?_, ?_, ?_⟩
    · intro c hc
      rcases List.mem_cons.mp hc with hc | hc
      · rw [hc]; exact a1
      · exact i1 c hc
    · rw [i2, a2]; simp
    · rw [i3, a3]; simp only [List.length_cons, Nat.cast_add, Nat.cast_one]; omega

/-- With an algorithm `hash.Hash` does not know every call of a run fails and the
tree stays as it was. -/
theorem appendEach_of_not_supported (P : Primitives) :
    ∀ (ptrs : List EntryPtr) (lt : LedgerTree) (heap : Heap),
      lt.tree.HashAlgo = lt.hashAlgo → ¬ Supported lt.hashAlgo →
      (∀ c ∈ (lt.appendEach P heap ptrs).calls, c.err ≠ none) ∧
      (lt.appendEach P heap ptrs).ledger.tree = lt.tree
  | [], _, _, _, _ => by simp [LedgerTree.appendEach]
  | e :: rest, lt, heap, h, hs => by
    obtain ⟨a1, a2⟩ := LedgerTree_Append_error_of_not_supported P lt heap e h hs
    have hA := LedgerTree_Append_hashAlgo P lt heap e
    obtain ⟨i1, i2⟩ := appendEach_of_not_supported P rest (lt.Append P heap e).ledger
      (lt.Append P heap e).heap (by rw [a2, hA]; exact h) (by rw [hA]; exact hs)
    obtain ⟨e1, _, e3⟩ := appendEach_cons P lt heap e rest
    rw [e1, e3]
    refine ⟨?_, by rw [i2, a2]⟩
    intro c hc
    rcases List.mem_cons.mp hc with hc | hc
    · rw [hc]; exact a1
    · exact i1 c hc

/-- A run does not write the entries it is not given. -/
theorem appendEach_heap_other (P : Primitives) :
    ∀ (ptrs : List EntryPtr) (lt : LedgerTree) (heap : Heap) (q : EntryPtr), q ∉ ptrs →
      (lt.appendEach P heap ptrs).heap q = heap q
  | [], _, _, _, _ => rfl
  | e :: rest, lt, heap, q, hq => by
    rw [(appendEach_cons P lt heap e rest).2.1,
      appendEach_heap_other P rest _ _ q (fun h => hq (List.mem_cons_of_mem _ h)),
      LedgerTree_Append_heap_other P lt heap e q (fun h => hq (h ▸ List.mem_cons_self _ _))]

/-- After a run over pairwise distinct entries, the entry of call `i` (counted
from 0) still carries the number that call gave it. -/
theorem appendEach_heap_sequence (P : Primitives) :
    ∀ (ptrs : List EntryPtr) (lt : LedgerTree) (heap : Heap), ptrs.Nodup →
      ∀ (i : Nat) (ptr : EntryPtr), ptrs[i]? = some ptr →
        ((lt.appendEach P heap ptrs).heap ptr).SequenceNumber = lt.sequence + 1 + (i : Int)
  | [], _, _, _, i, ptr, h => by simp at h
  | e :: rest, lt, heap, hnd, i, ptr, h => by
    obtain ⟨hne, hnd1⟩ := List.nodup_cons.mp hnd
    rw [(appendEach_cons P lt heap e rest).2.1]
    cases i with
    | zero =>
      simp only [List.getElem?_cons_zero, Option.some.injEq] at h
      subst h
      rw [appendEach_heap_other P rest _ _ e hne, LedgerTree_Append_assigned]
      simp
    | succ j =>
      simp only [List.getElem?_cons_succ] at h
      rw [appendEach_heap_sequence P rest _ _ hnd1 j ptr h, LedgerTree_Append_sequence]
      simp only [Nat.cast_succ]
      omega

/-- A failing call on an entry without hash stores nothing, when the tree has the
ledger's algorithm. -/
theorem LedgerTree_Append_error_entries (P : Primitives) (lt : LedgerTree) (heap : Heap)
    (e : EntryPtr) (h : lt.tree.HashAlgo = lt.hashAlgo) (hE : (heap e).EntryHash = none)
    (herr : (lt.Append P heap e).err ≠ none) : (lt.Append P heap e).ledger.entries = lt.entries := by
  have hns : ¬ Supported lt.hashAlgo := by
    intro hs
    exact herr (LedgerTree_Append_ok_of_supported P lt heap e h hs).1
  unfold LedgerTree.Append
  dsimp only
  split
  · split
    · rfl
    · next hh heq => exact absurd (Hash_eq_ok P heq).1 hns
  · next v hv =>
    simp only [Function.update_same, hE] at hv
    cases hv

theorem NewLedgerTree_inv (algo : Algorithm) :
    (NewLedgerTree algo).tree.HashAlgo = (NewLedgerTree algo).hashAlgo ∧
      (NewLedgerTree algo).tree.treeSize = (NewLedgerTree algo).tree.Leaves.length := by
  simp [NewLedgerTree, NewTree]

theorem GetEntry_eq_ok_iff (lt : LedgerTree) (i : Int) (ptr : EntryPtr) :
    lt.GetEntry i = Except.ok ptr ↔ 0 ≤ i ∧ lt.entries[i.toNat]? = some ptr := by
  unfold LedgerTree.GetEntry
  by_cases h : i < 0 ∨ i ≥ (lt.entries.length : Int)
  · rw [dif_pos h]
    constructor
    · intro hc; cases hc
    · rintro ⟨h0, hp⟩
      have hlt : i.toNat < lt.entries.length := by
        by_contra hc
        rw [List.getElem?_eq_none (by omega)] at hp
        cases hp
      omega
  · rw [dif_neg h]
    have hlt : i.toNat < lt.entries.length := by omega
    rw [List.getElem?_eq_getElem hlt]
    simp only [List.get_eq_getElem, Except.ok.injEq, Option.some.injEq]
    constructor
    · intro hp; exact ⟨by omega, hp⟩
    · rintro ⟨_, hp⟩; exact hp

/-! ### What `LedgerTree.Append` stores -/

theorem serializeEntry_SequenceNumber (lt lt1 : LedgerTree) (entry : Entry) (n : Int) :
    lt1.serializeEntry { entry with SequenceNumber := n } = lt.serializeEntry entry := rfl

/-- The stored pointers after a call: those before, and at most the one passed. -/
theorem LedgerTree_Append_entries (P : Primitives) (lt : LedgerTree) (heap : Heap)
    (e : EntryPtr) :
    (lt.Append P heap e).ledger.entries = lt.entries ∨
      (lt.Append P heap e).ledger.entries = lt.entries ++ [e] := by
  unfold LedgerTree.Append
  dsimp only
  split
  · split
    · left; rfl
    · right; rw [storeEntry_entries]
  · right; rw [storeEntry_entries]

/-- A call never replaces a hash an entry already carries. -/
theorem LedgerTree_Append_EntryHash_kept (P : Primitives) (lt : LedgerTree) (heap : Heap)
    (e q : EntryPtr) (h : Bytes) (hq : (heap q).EntryHash = some h) :
    ((lt.Append P heap e).heap q).EntryHash = some h := by
  by_cases hqe : q = e
  · subst hqe
    unfold LedgerTree.Append
    dsimp only
    split
    · next hn =>
      simp only [Function.update_same, hq] at hn
      cases hn
    · rw [storeEntry_heap]
      simp [hq]
  · rw [LedgerTree_Append_heap_other P lt heap e q hqe]
    exact hq

/-- A successful call: the entry ends with a hash `d` (the hash of its
serialization when it came without one, its own hash otherwise), the pointer is
stored and `d` is what the tree was fed. -/
theorem LedgerTree_Append_fed (P : Primitives) (lt : LedgerTree) (heap : Heap) (e : EntryPtr)
    (hok : (lt.Append P heap e).err = none) :
    ∃ d, ((lt.Append P heap e).heap e).EntryHash = some d ∧
      ((heap e).EntryHash = none → Hash P (lt.serializeEntry (heap e)) lt.hashAlgo = Except.ok d) ∧
      (∀ h0, (heap e).EntryHash = some h0 → d = h0) ∧
      CivicAttest.Append P lt.tree d = Except.ok (lt.Append P heap e).ledger.tree ∧
      (lt.Append P heap e).ledger.entries = lt.entries ++ [e] := by
  have key : ∀ (lt1 : LedgerTree) (h1 : Heap) (d : Bytes), lt1.tree = lt.tree →
      lt1.entries = lt.entries → (h1 e).EntryHash = some d →
      (lt1.storeEntry P h1 e).err = none →
      ((lt1.storeEntry P h1 e).heap e).EntryHash = some d ∧
      CivicAttest.Append P lt.tree d = Except.ok (lt1.storeEntry P h1 e).ledger.tree ∧
      (lt1.storeEntry P h1 e).ledger.entries = lt.entries ++ [e] := by
    intro lt1 h1 d ht he hd hok1
    rcases storeEntry_cases P lt1 h1 e with ⟨c1, _⟩ | ⟨_, _, c3⟩
    · exact absurd hok1 c1
    · refine ⟨by rw [storeEntry_heap]; exact hd, ?_, by rw [storeEntry_entries, he]⟩
      rw [hd, ht] at c3
      exact c3
  revert hok
  unfold LedgerTree.Append
  dsimp only
  split
  · next hn =>
    have hE : (heap e).EntryHash = none := by simpa using hn
    split
    · intro hok
      simp at hok
    · next hh heq =>
      intro hok
      simp only [Function.update_same] at heq
      obtain ⟨k1, k2, k3⟩ := key _ _ hh (by rfl) (by rfl) (by simp) hok
      refine ⟨hh, k1, fun _ => heq, ?_, k2, k3⟩
      intro h0 h0e
      rw [hE] at h0e
      cases h0e
  · next v hv =>
    intro hok
    have hE : (heap e).EntryHash = some v := by simpa using hv
    obtain ⟨k1, k2, k3⟩ := key _ _ v (by rfl) (by rfl) (by exact hv) hok
    refine ⟨v, k1, fun hn => ?_, ?_, k2, k3⟩
    · rw [hE] at hn
      cases hn
    · intro h0 h0e
      rw [hE] at h0e
      injection h0e

/-! ### The tree and the stored entries stay in step -/

theorem NewLedgerTree_InStep (P : Primitives) (algo : Algorithm) (heap : Heap) :
    (NewLedgerTree algo).InStep P heap := by
  refine ⟨?_, rfl, ?_⟩
  · intro p hp
    simp [NewLedgerTree] at hp
  · intro h
    exact absurd rfl h

/-- A successful call keeps the tree and the stored entries in step. -/
theorem LedgerTree_Append_InStep (P : Primitives) (lt : LedgerTree) (heap : Heap) (e : EntryPtr)
    (hA : lt.tree.HashAlgo = lt.hashAlgo) (hin : lt.InStep P heap)
    (hok : (lt.Append P heap e).err = none) :
    (lt.Append P heap e).ledger.InStep P (lt.Append P heap e).heap := by
  obtain ⟨d, hd, _, _, happ, hent⟩ := LedgerTree_Append_fed P lt heap e hok
  obtain ⟨_, htree⟩ := Append_eq_ok P happ
  obtain ⟨h1, h2, _⟩ := hin
  have hkept : ∀ p ∈ lt.entries,
      ((lt.Append P heap e).heap p).EntryHash = (heap p).EntryHash := by
    intro p hp
    cases hq : (heap p).EntryHash with
    | none => exact absurd hq (h1 p hp)
    | some h => exact LedgerTree_Append_EntryHash_kept P lt heap e p h hq
  have hL : (lt.Append P heap e).ledger.tree.Leaves
      = lt.tree.Leaves ++ [leafOf P lt.hashAlgo d] := by
    rw [htree, rebuildTree_Leaves, hA]
  refine ⟨?_, ?_, ?_⟩
  · intro p hp
    rw [hent] at hp
    rcases List.mem_append.mp hp with hp | hp
    · rw [hkept p hp]; exact h1 p hp
    · rw [List.mem_singleton.mp hp, hd]
      simp
  · rw [hL, hent, LedgerTree_Append_hashAlgo, List.map_append, h2]
    congr 1
    · apply List.map_congr_left
      intro p hp
      rw [hkept p hp]
    · simp [hd]
  · intro _
    rw [htree, rebuildTree_RootHash P _ (by simp), rebuildTree_Leaves, LedgerTree_Append_hashAlgo,
      hA]

/-- With a supported algorithm a run of calls keeps the tree and the stored
entries in step. -/
theorem appendEach_InStep (P : Primitives) :
    ∀ (ptrs : List EntryPtr) (lt : LedgerTree) (heap : Heap),
      (lt.tree.HashAlgo = lt.hashAlgo ∧ lt.tree.treeSize = lt.tree.Leaves.length) →
      Supported lt.hashAlgo → lt.InStep P heap →
      (lt.appendEach P heap ptrs).ledger.InStep P (lt.appendEach P heap ptrs).heap
  | [], _, _, _, _, h => h
  | e :: rest, lt, heap, hinv, hs, h => by
    obtain ⟨e1, e2, _⟩ := appendEach_cons P lt heap e rest
    rw [e1, e2]
    have hok := (LedgerTree_Append_ok_of_supported P lt heap e hinv.1 hs).1
    exact appendEach_InStep P rest _ _ (LedgerTree_Append_inv P lt heap e hinv)
      (by rw [LedgerTree_Append_hashAlgo]; exact hs)
      (LedgerTree_Append_InStep P lt heap e hinv.1 h hok)

/-- In a ledger reached from `NewLedgerTree`, the leaf hash of every inclusion
proof is the hash of the `EntryHash` of the entry stored at the same index. -/
theorem ledger_LeafHash (P : Primitives) (algo : Algorithm) (heap : Heap) (ptrs : List EntryPtr)
    (i : Int) (p : InclusionProof)
    (hp : ((NewLedgerTree algo).appendEach P heap ptrs).ledger.GenerateInclusionProof i
      = Except.ok p) :
    ∃ ptr h, ((NewLedgerTree algo).appendEach P heap ptrs).ledger.GetEntry i = Except.ok ptr ∧
      (((NewLedgerTree algo).appendEach P heap ptrs).heap ptr).EntryHash = some h ∧
      Hash P h algo = Except.ok p.LeafHash := by
  unfold LedgerTree.GenerateInclusionProof at hp
  obtain ⟨h0, hlt, _, _, leaf, hleaf, hh, _⟩ := GenerateInclusionProof_eq_ok hp
  by_cases hs : Supported algo
  · obtain ⟨s1, s2, _⟩ := appendEach_InStep P ptrs (NewLedgerTree algo) heap (NewLedgerTree_inv algo)
      hs (NewLedgerTree_InStep P algo heap)
    rw [appendEach_hashAlgo] at s2
    rw [s2, List.getElem?_map] at hleaf
    cases hptr : ((NewLedgerTree algo).appendEach P heap ptrs).ledger.entries[i.toNat]? with
    | none => rw [hptr] at hleaf; cases hleaf
    | some ptr =>
      rw [hptr] at hleaf
      simp only [Option.map_some', Option.some.injEq] at hleaf
      have hmem := List.getElem?_mem hptr
      cases hE : (((NewLedgerTree algo).appendEach P heap ptrs).heap ptr).EntryHash with
      | none => exact absurd hE (s1 ptr hmem)
      | some h =>
        refine ⟨ptr, h, (GetEntry_eq_ok_iff _ _ _).mpr ⟨h0, hptr⟩, hE, ?_⟩
        rw [Hash_of_supported P hs, hh, ← hleaf, hE]
        rfl
  · obtain ⟨_, ht⟩ := appendEach_of_not_supported P ptrs (NewLedgerTree algo) heap rfl hs
    rw [ht] at hlt
    simp [NewLedgerTree, NewTree] at hlt
    omega

/-- In a ledger with a supported algorithm that stores exactly one entry, the
root hash is the hash of that entry's `EntryHash`. -/
theorem ledger_single_root (P : Primitives) (algo : Algorithm) (heap : Heap)
    (ptrs : List EntryPtr) (ptr : EntryPtr) (h : Bytes) (hs : Supported algo)
    (hone : ((NewLedgerTree algo).appendEach P heap ptrs).ledger.entries = [ptr])
    (hE : (((NewLedgerTree algo).appendEach P heap ptrs).heap ptr).EntryHash = some h) :
    Hash P h algo = Except.ok ((NewLedgerTree algo).appendEach P heap ptrs).ledger.GetRootHash := by
  obtain ⟨_, s2, s3⟩ := appendEach_InStep P ptrs (NewLedgerTree algo) heap (NewLedgerTree_inv algo)
    hs (NewLedgerTree_InStep P algo heap)
  rw [appendEach_hashAlgo] at s2 s3
  rw [Hash_of_supported P hs]
  unfold LedgerTree.GetRootHash
  rw [s3 (by rw [hone]; simp), s2, hone]
  simp [hE, leafOf, Node.Hash, MTH_singleton]
  rfl

theorem appendEach_entries (P : Primitives) :
    ∀ (ptrs : List EntryPtr) (lt : LedgerTree) (heap : Heap),
      ∃ more, (lt.appendEach P heap ptrs).ledger.entries = lt.entries ++ more
  | [], lt, _ => ⟨[], by simp [LedgerTree.appendEach]⟩
  | e :: rest, lt, heap => by
    obtain ⟨more, hm⟩ := appendEach_entries P rest (lt.Append P heap e).ledger
      (lt.Append P heap e).heap
    rw [(appendEach_cons P lt heap e rest).1, hm]
    rcases LedgerTree_Append_entries P lt heap e with h | h
    · exact ⟨more, by rw [h]⟩
    · exact ⟨e :: more, by rw [h]; simp⟩

/-- The text `test|0102|sig|1700000000`: what `serializeEntry` makes of `testEntry`. -/
theorem serializeEntry_testEntry (lt : LedgerTree) :
    lt.serializeEntry testEntry
      = [116, 101, 115, 116, 124, 48, 49, 48, 50, 124, 115, 105, 103, 124,
         49, 55, 48, 48, 48, 48, 48, 48, 48, 48] := by
  simp [LedgerTree.serializeEntry, testEntry, hexEncodeToString, hexDigit, formatDecimal,
    formatDecimalNat]
  decide

/-! ### Comparing byte strings -/

/-- The comparison loop never leaves the range of `expected` when enough of it is
left, and answers whether the bytes compared are those of `expected` from `i` on. -/
theorem compareFrom_eq (expected : Bytes) :
    ∀ (computed : Bytes) (i : Nat), i + computed.length ≤ expected.length →
      compareFrom expected i computed
        = some (decide (computed = (expected.drop i).take computed.length))
  | [], i, _ => by simp [compareFrom]
  | c :: rest, i, h => by
    have hi : i < expected.length := by simp at h; omega
    have hd : expected.drop i = expected[i] :: expected.drop (i + 1) :=
      List.drop_eq_getElem_cons hi
    rw [compareFrom, List.getElem?_eq_getElem hi]
    simp only
    by_cases hc : c = expected[i]
    · rw [if_neg (by simpa using hc), compareFrom_eq expected rest (i + 1) (by simp at h; omega),
        hd]
      simp only [List.length_cons, List.take_succ_cons, List.cons.injEq, hc, true_and]
    · rw [if_pos hc, hd]
      simp only [List.length_cons, List.take_succ_cons, List.cons.injEq, hc, false_and,
        decide_False]

theorem compareFrom_zero (expected computed : Bytes) (h : computed.length = expected.length) :
    compareFrom expected 0 computed = some (decide (computed = expected)) := by
  rw [compareFrom_eq expected computed 0 (by omega), h]
  simp

/-- The function `compareHashes` never indexes out of range: it answers whether
the two byte strings are equal. -/
theorem compareHashes_eq (a b : Bytes) : compareHashes a b = some (decide (a = b)) := by
  unfold compareHashes
  by_cases h : a.length = b.length
  · rw [if_neg (by simpa using h), compareFrom_zero b a h]
  · rw [if_pos h]
    have : a ≠ b := fun e => h (by rw [e])
    simp [this]

/-- The function `hash.Verify` with a supported algorithm: no error, no index out
of range, and the answer is whether `expected` is the hash of `data`. -/
theorem hash_Verify_eq (P : Primitives) (data expected : Bytes) {algo : Algorithm}
    (hs : Supported algo) :
    hash.Verify P data expected algo = Except.ok (decide (digest P algo data = expected)) := by
  unfold hash.Verify
  rw [Hash_of_supported P hs]
  simp only
  by_cases h : (digest P algo data).length = expected.length
  · rw [if_neg (by simpa using h), compareFrom_zero expected _ h]
  · rw [if_pos h]
    have : digest P algo data ≠ expected := fun e => h (by rw [e])
    simp [this]

/-! ### Instants -/

theorem Time_Before_iff (t u : Time) :
    t.Before u = true ↔ t.unix < u.unix ∨ (t.unix = u.unix ∧ t.nsec < u.nsec) := by
  simp [Time.Before]

theorem Time_After_iff (t u : Time) :
    t.After u = true ↔ u.unix < t.unix ∨ (t.unix = u.unix ∧ u.nsec < t.nsec) := by
  simp [Time.After]

/-- With nanoseconds below one second, as `time.Time` keeps them, the order of
instants is the order of the nanoseconds since the epoch. -/
theorem Time_le_iff_nanos (t u : Time) (ht : t.nsec < 1000000000) (hu : u.nsec < 1000000000) :
    t.le u ↔ t.nanos ≤ u.nanos := by
  unfold Time.le Time.nanos
  constructor
  · rintro (h | ⟨h1, h2⟩) <;> omega
  · intro h
    by_cases h1 : t.unix < u.unix
    · exact Or.inl h1
    · right
      constructor <;> omega

/-! ### The verifier and the signer -/

/-- What steps 5 to 10 of the verifier leave in the result. -/
theorem verifierResult_fields (inp : VerifierInput) (hashMatch sigValid : Bool) :
    (verifierResult inp hashMatch sigValid).Valid = (hashMatch && sigValid) ∧
    (verifierResult inp hashMatch sigValid).check "hash_match" = hashMatch ∧
    (verifierResult inp hashMatch sigValid).check "signature_valid" = sigValid ∧
    (verifierResult inp hashMatch sigValid).check "ledger_inclusion" = !inp.offline ∧
    (verifierResult inp hashMatch sigValid).check "identity_valid" = false ∧
    (verifierResult inp hashMatch sigValid).IdentityInfo = none ∧
    (∀ e ∈ (verifierResult inp hashMatch sigValid).Errors,
      e = "Content hash mismatch" ∨ e = "Invalid signature") := by
  obtain ⟨media, bundle, pk, offline, audit, now⟩ := inp
  by_cases ht : bundle.TimestampToken.length > 0 <;>
    cases offline <;> cases audit <;> cases hashMatch <;> cases sigValid <;>
    simp [verifierResult, mapSet, VerificationResult.check, List.lookup, ht]

/-- A run of the verifier that ends without a fatal error: the CBOR encoding of
the media was hashed, the key and the signature have the Ed25519 sizes, and the
result is `verifierResult` at the outcome of the two comparisons. -/
theorem verifierMain_eq_ok {P : Primitives} {S : SigPrimitives} {C : Codec Bytes}
    {inp : VerifierInput} {r : VerificationResult} (h : verifierMain P S C inp = Except.ok r) :
    ∃ canonicalMedia, C.encodeCBOR inp.mediaContent = Except.ok canonicalMedia ∧
      inp.pubKeyBytes.length = 32 ∧ inp.sigBundle.Signature.length = 64 ∧
      r = verifierResult inp
        (decide (digest P SHA256 canonicalMedia = inp.sigBundle.ContentHash))
        (S.ed25519Verify inp.pubKeyBytes inp.sigBundle.ContentHash inp.sigBundle.Signature) := by
  unfold verifierMain at h
  have hc : canonical.Encode C inp.mediaContent canonical.CBOR = C.encodeCBOR inp.mediaContent := by
    simp [canonical.Encode]
  rw [hc] at h
  cases henc : C.encodeCBOR inp.mediaContent with
  | error e => rw [henc] at h; cases h
  | ok canonicalMedia =>
    rw [henc] at h
    simp only at h
    rw [Hash_of_supported P (Or.inl rfl)] at h
    simp only at h
    rw [compareHashes_eq] at h
    simp only at h
    unfold signatures.Verify at h
    rw [if_pos rfl] at h
    by_cases h32 : inp.pubKeyBytes.length = 32
    · rw [if_neg (by simpa using h32)] at h
      by_cases h64 : inp.sigBundle.Signature.length = 64
      · rw [if_neg (by simpa using h64)] at h
        simp only at h
        injection h with h
        exact ⟨canonicalMedia, rfl, h32, h64, h.symm⟩
      · rw [if_pos h64] at h; cases h
    · rw [if_pos h32] at h; cases h

/-- A run of the signer that ends with a bundle: the content was encoded in the
format the flag names and the bundle's `ContentHash` is the SHA-256 digest of
that encoding. -/
theorem signerMain_eq_ok {P : Primitives} {S : SigPrimitives} {C : Codec Bytes}
    {inp : SignerInput} {b : SignatureBundle} (h : signerMain P S C inp = Except.ok b) :
    ∃ canonicalData,
      ((inp.canonFormat = "CBOR" ∧ C.encodeCBOR inp.content = Except.ok canonicalData) ∨
        (inp.canonFormat = "JSON" ∧ C.encodeJSON inp.content = Except.ok canonicalData)) ∧
      b.ContentHash = digest P SHA256 canonicalData := by
  have key : ∀ (format : String) (canonicalData : Bytes),
      canonical.Encode C inp.content format = Except.ok canonicalData →
      (match Hash P canonicalData SHA256 with
        | Except.error err => Except.error ("Failed to hash content: " ++ err)
        | Except.ok contentHash =>
          match signatures.Sign S inp.privateKey contentHash signatures.Ed25519 with
          | Except.error err => Except.error ("Failed to sign: " ++ err)
          | Except.ok signature =>
            match ((NewLedgerTree SHA256).Append P (fun _ =>
                ({ EntryHash := none, Timestamp := inp.now, SignerIdentityID := inp.identityID,
                   SignatureHash := contentHash,
                   EntryType := [115, 105, 103, 110, 97, 116, 117, 114, 101],
                   SequenceNumber := 0 } : Entry)) 0).err with
            | some err => Except.error ("Failed to append to ledger: " ++ err)
            | none =>
              match ((NewLedgerTree SHA256).Append P (fun _ =>
                  ({ EntryHash := none, Timestamp := inp.now, SignerIdentityID := inp.identityID,
                     SignatureHash := contentHash,
                     EntryType := [115, 105, 103, 110, 97, 116, 117, 114, 101],
                     SequenceNumber := 0 } : Entry)) 0).ledger.GenerateInclusionProof 0 with
              | Except.error err =>
                Except.error ("Failed to generate inclusion proof: " ++ err)
              | Except.ok proof =>
                Except.ok
                  ({ ContentHash := contentHash, ContentHashAlgorithm := SHA256,
                     CanonicalFormatVersion := "1.0", SignerIdentityID := inp.identityID,
                     KeyVersion := 1, Signature := signature, TimestampToken := inp.tsData,
                     LedgerEntryHash := (((NewLedgerTree SHA256).Append P (fun _ =>
                       ({ EntryHash := none, Timestamp := inp.now,
                          SignerIdentityID := inp.identityID, SignatureHash := contentHash,
                          EntryType := [115, 105, 103, 110, 97, 116, 117, 114, 101],
                          SequenceNumber := 0 } : Entry)) 0).heap 0).EntryHash.getD [],
                     MerkleInclusionProof :=
                       some { LeafIndex := proof.LeafIndex, LeafHash := proof.LeafHash,
                              TreeSize := proof.TreeSize, Path := proof.Path },
                     BundleVersion := "1.0" } : SignatureBundle)) = Except.ok b →
      b.ContentHash = digest P SHA256 canonicalData := by
    intro format canonicalData _ hb
    rw [Hash_of_supported P (Or.inl rfl)] at hb
    simp only at hb
    split at hb
    · cases hb
    · split at hb
      · cases hb
      · split at hb
        · cases hb
        · injection hb with hb
          rw [← hb]
  unfold signerMain at h
  dsimp only at h
  by_cases hc : inp.canonFormat = "CBOR"
  · rw [if_pos hc] at h
    simp only at h
    cases henc : canonical.Encode C inp.content canonical.CBOR with
    | error e => rw [henc] at h; cases h
    | ok canonicalData =>
      rw [henc] at h
      refine ⟨canonicalData, Or.inl ⟨hc, ?_⟩, key _ _ henc h⟩
      simpa [canonical.Encode] using henc
  · rw [if_neg hc] at h
    by_cases hj : inp.canonFormat = "JSON"
    · rw [if_pos hj] at h
      simp only at h
      cases henc : canonical.Encode C inp.content canonical.JSON with
      | error e => rw [henc] at h; cases h
      | ok canonicalData =>
        rw [henc] at h
        refine ⟨canonicalData, Or.inr ⟨hj, ?_⟩, key _ _ henc h⟩
        have hne : canonical.JSON ≠ canonical.CBOR := by decide
        simpa [canonical.Encode, hne] using henc
    · rw [if_neg hj] at h
      cases h

/-- The verifier ends without a fatal error as soon as the media encodes and the
key and the signature have the Ed25519 sizes. -/
theorem verifierMain_of_sizes (P : Primitives) (S : SigPrimitives) (C : Codec Bytes)
    (inp : VerifierInput) (canonicalMedia : Bytes)
    (henc : C.encodeCBOR inp.mediaContent = Except.ok canonicalMedia)
    (h32 : inp.pubKeyBytes.length = 32) (h64 : inp.sigBundle.Signature.length = 64) :
    verifierMain P S C inp = Except.ok (verifierResult inp
      (decide (digest P SHA256 canonicalMedia = inp.sigBundle.ContentHash))
      (S.ed25519Verify inp.pubKeyBytes inp.sigBundle.ContentHash inp.sigBundle.Signature)) := by
  unfold verifierMain
  have hc : canonical.Encode C inp.mediaContent canonical.CBOR = C.encodeCBOR inp.mediaContent := by
    simp [canonical.Encode]
  rw [hc, henc]
  simp only
  rw [Hash_of_supported P (Or.inl rfl)]
  simp only
  rw [compareHashes_eq]
  simp only
  unfold signatures.Verify
  rw [if_pos rfl, if_neg (by simpa using h32), if_neg (by simpa using h64)]

/-- A bundle the signer built with the flag `-canon CBOR` passes the verifier's
hash comparison on the same content. -/
theorem signer_CBOR_hash_match (P : Primitives) (S : SigPrimitives) (C : Codec Bytes)
    (sin : SignerInput) (b : SignatureBundle) (vin : VerifierInput) (r : VerificationResult)
    (hfmt : sin.canonFormat = "CBOR") (hs : signerMain P S C sin = Except.ok b)
    (hm : vin.mediaContent = sin.content) (hb : vin.sigBundle = b)
    (hv : verifierMain P S C vin = Except.ok r) : r.check "hash_match" = true := by
  obtain ⟨data, hd, hch⟩ := signerMain_eq_ok hs
  obtain ⟨cm, hcm, _, _, hr⟩ := verifierMain_eq_ok hv
  rcases hd with ⟨_, hd⟩ | ⟨hj, _⟩
  · rw [hm, hd] at hcm
    injection hcm with hcm
    rw [hr, (verifierResult_fields _ _ _).2.1, hb, hch, hcm]
    simp
  · rw [hfmt] at hj
    exact absurd hj (by decide)

/-! ### Timestamp tokens -/

theorem Token_Verify_eq (t : Token) (messageHash : Bytes) (hashAlgo : String) :
    t.Verify messageHash hashAlgo
      = some (decide (t.HashAlgorithm = hashAlgo ∧ t.MessageImprint = messageHash)) := by
  unfold Token.Verify
  by_cases ha : t.HashAlgorithm = hashAlgo
  · rw [if_neg (not_not.mpr ha)]
    by_cases hl : t.MessageImprint.length = messageHash.length
    · rw [if_neg (not_not.mpr hl), compareFrom_zero _ _ hl]
      simp [ha]
    · rw [if_pos hl]
      have hne : t.MessageImprint ≠ messageHash := fun he => hl (by rw [he])
      simp [hne]
  · rw [if_pos ha]
    simp [ha]

/-! ### The sibling `buildPath` picks -/

/-- The loop of `buildPath` stops at the first leaf whose hash is the node's. -/
theorem buildPathLoop_findIdx (t : Tree) (node : Node) :
    ∀ (rest : List Node) (i : Nat) (path : List Bytes),
      buildPathLoop t node i rest path =
        if rest.findIdx (fun l => decide (l.Hash = node.Hash)) < rest.length then
          match t.Leaves[(i + rest.findIdx (fun l => decide (l.Hash = node.Hash))) ^^^ 1]? with
          | some s => path ++ [s.Hash]
          | none => path
        else path
  | [], i, path => by simp [buildPathLoop]
  | leaf :: rest, i, path => by
    rw [buildPathLoop_cons, List.findIdx_cons]
    by_cases hq : leaf.Hash = node.Hash
    · simp [hq]
    · rw [if_neg hq, buildPathLoop_findIdx t node rest (i + 1) path]
      simp only [hq, decide_False, cond_false, List.length_cons, Nat.add_lt_add_iff_right]
      rw [show i + 1 + List.findIdx (fun l => decide (l.Hash = node.Hash)) rest
        = i + (List.findIdx (fun l => decide (l.Hash = node.Hash)) rest + 1) by omega]

theorem findIdx_le_of_getElem? {α : Type} (q : α → Bool) (xs : List α) (i : Nat) (x : α)
    (hx : xs[i]? = some x) (hq : q x = true) : xs.findIdx q ≤ i := by
  by_contra hlt
  have hlt2 : i < xs.findIdx q := by omega
  have hf := List.not_of_lt_findIdx hlt2
  obtain ⟨hi, hxi⟩ := List.getElem?_eq_some.mp hx
  rw [hxi, hq] at hf
  exact absurd hf (by simp)

theorem findIdx_eq_of_first {α : Type} (q : α → Bool) (xs : List α) (i : Nat) (x : α)
    (hx : xs[i]? = some x) (hq : q x = true)
    (hfirst : ∀ k l, k < i → xs[k]? = some l → q l = false) : xs.findIdx q = i := by
  obtain ⟨hi, hxi⟩ := List.getElem?_eq_some.mp hx
  rw [List.findIdx_eq hi]
  refine ⟨by rw [hxi]; exact hq, fun j hji => ?_⟩
  exact hfirst j _ hji (List.getElem?_eq_getElem (Nat.lt_trans hji hi))

/-- The path `buildPath` returns for a node: the hash of the leaf next to the
first leaf whose hash is the node's. -/
theorem buildPath_eq (t : Tree) (node : Node) :
    buildPath t node [] =
      if t.Leaves.findIdx (fun l => decide (l.Hash = node.Hash)) < t.Leaves.length then
        match t.Leaves[t.Leaves.findIdx (fun l => decide (l.Hash = node.Hash)) ^^^ 1]? with
        | some s => [s.Hash]
        | none => []
      else [] := by
  unfold buildPath
  rw [buildPathLoop_findIdx]
  simp only [Nat.zero_add, List.nil_append]

/-- For every hash: in the tree of `leaf1`, `leaf2`, `leaf1` the proof for index 2
carries the hash of the leaf at index 1, the neighbour of index 0. -/
theorem duplicate_leaf_Path (P : Primitives) :
    ∃ t p, appendAll P (NewTree SHA256) [leaf1, leaf2, leaf1] = Except.ok t ∧
      GenerateInclusionProof t 2 = Except.ok p ∧ p.Path = [digest P SHA256 leaf2] := by
  obtain ⟨t, ht⟩ := appendAll_of_supported P [leaf1, leaf2, leaf1] (NewTree SHA256)
    (Or.inl rfl)
  obtain ⟨_, hL, _, _⟩ := built_tree P SHA256 _ t ht
  obtain ⟨p, hp⟩ := GenerateInclusionProof_of_valid t 2 (by decide) (by rw [hL]; simp)
  refine ⟨t, p, ht, hp, ?_⟩
  obtain ⟨_, _, _, _, leaf, hleaf, _, hpath⟩ := GenerateInclusionProof_eq_ok hp
  rw [hL] at hleaf
  simp only [List.map_cons, List.map_nil] at hleaf
  have hleaf2 : leaf = leafOf P SHA256 leaf1 := by
    have : ([leafOf P SHA256 leaf1, leafOf P SHA256 leaf2, leafOf P SHA256 leaf1])[2]?
        = some (leafOf P SHA256 leaf1) := rfl
    have h2 : (2 : Int).toNat = 2 := rfl
    rw [h2, this] at hleaf
    injection hleaf with hleaf
    exact hleaf.symm
  rw [hpath, buildPath_eq, hL, hleaf2]
  simp [List.findIdx_cons, leafOf, Node.Hash]

/-! ### A ledger over an unsupported algorithm -/

/-- With an unsupported algorithm every `Append` fails; the entry stays in
`entries` exactly when it came with a hash, and no entry hash is written. -/
theorem LedgerTree_Append_not_supported (P : Primitives) (lt : LedgerTree) (heap : Heap)
    (e : EntryPtr) (h : lt.tree.HashAlgo = lt.hashAlgo) (hs : ¬ Supported lt.hashAlgo) :
    (lt.Append P heap e).ledger.entries
        = lt.entries ++ (if (heap e).EntryHash.isSome then [e] else []) ∧
      (∀ q, ((lt.Append P heap e).heap q).EntryHash = (heap q).EntryHash) := by
  have hq : ∀ q, (Function.update heap e
      { heap e with SequenceNumber := lt.sequence + 1 } q).EntryHash = (heap q).EntryHash := by
    intro q
    by_cases hqe : q = e
    · subst hqe
      rw [Function.update_same]
    · rw [Function.update_noteq hqe]
  have hs2 : ¬ Supported lt.tree.HashAlgo := by rw [h]; exact hs
  unfold LedgerTree.Append
  dsimp only
  split
  · rename_i heq
    rw [hq] at heq
    rw [LedgerTree.serializeEntry, Hash_of_not_supported P hs]
    dsimp only
    refine ⟨?_, hq⟩
    rw [heq]
    simp
  · rename_i x heq
    rw [hq] at heq
    unfold LedgerTree.storeEntry
    dsimp only
    unfold CivicAttest.Append
    rw [Hash_of_not_supported P hs2]
    dsimp only
    refine ⟨?_, hq⟩
    rw [heq]
    simp

theorem appendEach_not_supported_entries (P : Primitives) :
    ∀ (ptrs : List EntryPtr) (lt : LedgerTree) (heap : Heap),
      lt.tree.HashAlgo = lt.hashAlgo → ¬ Supported lt.hashAlgo →
      (lt.appendEach P heap ptrs).ledger.entries
        = lt.entries ++ ptrs.filter (fun q => (heap q).EntryHash.isSome)
  | [], _, _, _, _ => by simp [LedgerTree.appendEach]
  | e :: rest, lt, heap, h, hs => by
    obtain ⟨a1, a2⟩ := LedgerTree_Append_not_supported P lt heap e h hs
    obtain ⟨_, b2⟩ := LedgerTree_Append_error_of_not_supported P lt heap e h hs
    have hA := LedgerTree_Append_hashAlgo P lt heap e
    rw [(appendEach_cons P lt heap e rest).1,
      appendEach_not_supported_entries P rest _ _ (by rw [b2, hA]; exact h) (by rw [hA]; exact hs),
      a1]
    have hf : (fun q => ((lt.Append P heap e).heap q).EntryHash.isSome)
        = (fun q => (heap q).EntryHash.isSome) := by
      funext q
      rw [a2]
    rw [hf, List.filter_cons]
    cases (heap e).EntryHash <;> simp

/-- With a supported algorithm the stored entries and the tree stay in step. -/
theorem ledger_in_step_of_supported (P : Primitives) (algo : Algorithm) (heap : Heap)
    (ptrs : List EntryPtr) (hs : Supported algo) :
    (((NewLedgerTree algo).appendEach P heap ptrs).ledger.entries.length : Int)
        = ((NewLedgerTree algo).appendEach P heap ptrs).ledger.GetSize ∧
      ∀ i : Int,
        (∃ e, ((NewLedgerTree algo).appendEach P heap ptrs).ledger.GetEntry i = Except.ok e) ↔
        (∃ p, ((NewLedgerTree algo).appendEach P heap ptrs).ledger.GenerateInclusionProof i
          = Except.ok p) := by
  obtain ⟨_, c2, c3⟩ := appendEach_of_supported P ptrs (NewLedgerTree algo) heap rfl hs
  obtain ⟨_, d2⟩ := appendEach_inv P ptrs (NewLedgerTree algo) heap (NewLedgerTree_inv algo)
  have hlen : (((NewLedgerTree algo).appendEach P heap ptrs).ledger.entries.length : Int)
      = ((NewLedgerTree algo).appendEach P heap ptrs).ledger.GetSize := by
    rw [c2, c3]
    simp [NewLedgerTree, LedgerTree.GetSize, Size, NewTree]
  refine ⟨hlen, fun i => ⟨?_, ?_⟩⟩
  · rintro ⟨e, he⟩
    obtain ⟨h0, h1⟩ := (GetEntry_eq_ok_iff _ _ _).mp he
    have hi := (List.getElem?_eq_some.mp h1).1
    unfold LedgerTree.GenerateInclusionProof
    refine GenerateInclusionProof_of_valid _ i h0 ?_
    rw [← d2]
    simp only [LedgerTree.GetSize, Size] at hlen
    omega
  · rintro ⟨p, hp⟩
    unfold LedgerTree.GenerateInclusionProof at hp
    obtain ⟨h0, h1, _⟩ := GenerateInclusionProof_eq_ok hp
    rw [← d2] at h1
    simp only [LedgerTree.GetSize, Size] at hlen
    have hi : i.toNat < ((NewLedgerTree algo).appendEach P heap ptrs).ledger.entries.length := by
      omega
    exact ⟨_, (GetEntry_eq_ok_iff _ _ _).mpr ⟨h0, List.getElem?_eq_getElem hi⟩⟩

/-! ### The serialization of an entry -/

/-- Two strings cut at the first separator: equal wholes have equal parts. -/
theorem append_sep_inj_left {α : Type} (c : α) :
    ∀ (a a2 r r2 : List α), c ∉ a → c ∉ a2 → a ++ c :: r = a2 ++ c :: r2 → a = a2 ∧ r = r2
  | [], [], r, r2, _, _, h => by
    simp only [List.nil_append, List.cons.injEq, true_and] at h
    exact ⟨rfl, h⟩
  | [], y :: a2, r, r2, _, h2, h => by
    simp only [List.nil_append, List.cons_append, List.cons.injEq] at h
    exact absurd (by rw [h.1]; exact List.mem_cons_self _ _) h2
  | x :: a, [], r, r2, h1, _, h => by
    simp only [List.nil_append, List.cons_append, List.cons.injEq] at h
    exact absurd (by rw [← h.1]; exact List.mem_cons_self _ _) h1
  | x :: a, y :: a2, r, r2, h1, h2, h => by
    simp only [List.cons_append, List.cons.injEq] at h
    obtain ⟨e1, e2⟩ := append_sep_inj_left c a a2 r r2
      (fun hm => h1 (List.mem_cons_of_mem _ hm)) (fun hm => h2 (List.mem_cons_of_mem _ hm)) h.2
    exact ⟨by rw [h.1, e1], e2⟩

/-- Two strings cut at the last separator: equal wholes have equal parts. -/
theorem append_sep_inj_right {α : Type} (c : α) (x x2 d d2 : List α) (h1 : c ∉ d)
    (h2 : c ∉ d2) (h : x ++ c :: d = x2 ++ c :: d2) : x = x2 ∧ d = d2 := by
  have hr := congrArg List.reverse h
  simp only [List.reverse_append, List.reverse_cons, List.append_assoc,
    List.singleton_append] at hr
  obtain ⟨e1, e2⟩ := append_sep_inj_left c d.reverse d2.reverse x.reverse x2.reverse
    (by simpa using h1) (by simpa using h2) hr
  exact ⟨List.reverse_injective e2, List.reverse_injective e1⟩

theorem hexDigit_inj : ∀ a < 16, ∀ b < 16, hexDigit a = hexDigit b → a = b := by decide

theorem hexDigit_ne_sep : ∀ a < 16, hexDigit a ≠ 124 := by decide

theorem hexEncodeToString_cons (b : Fin 256) (rest : Bytes) :
    hexEncodeToString (b :: rest)
      = hexDigit (b.val / 16) :: hexDigit (b.val % 16) :: hexEncodeToString rest := by
  simp [hexEncodeToString]

theorem hexEncodeToString_injective :
    ∀ (a b : Bytes), hexEncodeToString a = hexEncodeToString b → a = b
  | [], [], _ => rfl
  | [], y :: b, h => by
    rw [hexEncodeToString_cons] at h
    simp [hexEncodeToString] at h
  | x :: a, [], h => by
    rw [hexEncodeToString_cons] at h
    simp [hexEncodeToString] at h
  | x :: a, y :: b, h => by
    rw [hexEncodeToString_cons, hexEncodeToString_cons] at h
    simp only [List.cons.injEq] at h
    obtain ⟨h1, h2, h3⟩ := h
    have e1 := hexDigit_inj _ (by omega) _ (by omega) h1
    have e2 := hexDigit_inj _ (Nat.mod_lt _ (by decide)) _ (Nat.mod_lt _ (by decide)) h2
    have exy : x = y := by
      apply Fin.ext
      omega
    rw [exy, hexEncodeToString_injective a b h3]

theorem hexEncodeToString_no_sep : ∀ a : Bytes, (124 : Fin 256) ∉ hexEncodeToString a
  | [] => by simp [hexEncodeToString]
  | x :: a => by
    rw [hexEncodeToString_cons]
    simp only [List.mem_cons, not_or]
    exact ⟨fun h => hexDigit_ne_sep _ (by omega) h.symm,
      fun h => hexDigit_ne_sep _ (Nat.mod_lt _ (by decide)) h.symm,
      hexEncodeToString_no_sep a⟩

theorem digitChar_val : ∀ d < 10, ((Fin.ofNat (48 + d) : Fin 256).val - 48 = d ∧
    (Fin.ofNat (48 + d) : Fin 256) ≠ 124 ∧ (Fin.ofNat (48 + d) : Fin 256) ≠ 45) := by decide

theorem parseDecimalNat_formatDecimalNat (n : Nat) : parseDecimalNat (formatDecimalNat n) = n := by
  unfold parseDecimalNat formatDecimalNat
  by_cases h0 : n = 0
  · rw [if_pos h0, h0]
    rfl
  · rw [if_neg h0]
    have hmap : ((Nat.digits 10 n).reverse.map fun d => (Fin.ofNat (48 + d) : Fin 256)).map
        (fun c => c.val - 48) = (Nat.digits 10 n).reverse := by
      rw [List.map_map]
      conv_rhs => rw [← List.map_id (Nat.digits 10 n).reverse]
      apply List.map_congr_left
      intro d hd
      have hd2 : d < 10 := Nat.digits_lt_base (by decide) (List.mem_reverse.mp hd)
      exact (digitChar_val d hd2).1
    rw [hmap, List.reverse_reverse, Nat.ofDigits_digits]

theorem formatDecimalNat_injective (n m : Nat) (h : formatDecimalNat n = formatDecimalNat m) :
    n = m := by
  rw [← parseDecimalNat_formatDecimalNat n, h, parseDecimalNat_formatDecimalNat]

theorem formatDecimalNat_chars (n : Nat) :
    ∀ c ∈ formatDecimalNat n, c ≠ (124 : Fin 256) ∧ c ≠ (45 : Fin 256) := by
  intro c hc
  unfold formatDecimalNat at hc
  by_cases h0 : n = 0
  · rw [if_pos h0] at hc
    simp only [List.mem_singleton] at hc
    rw [hc]
    decide
  · rw [if_neg h0] at hc
    obtain ⟨d, hd, hdc⟩ := List.mem_map.mp hc
    have hd2 : d < 10 := Nat.digits_lt_base (by decide) (List.mem_reverse.mp hd)
    rw [← hdc]
    exact (digitChar_val d hd2).2

theorem formatDecimalNat_ne_nil (n : Nat) : formatDecimalNat n ≠ [] := by
  intro h
  have h1 := parseDecimalNat_formatDecimalNat n
  rw [h] at h1
  have h2 : n = 0 := by
    rw [← h1]
    rfl
  rw [h2] at h
  exact absurd h (by decide)

theorem formatDecimal_no_sep (n : Int) : (124 : Fin 256) ∉ formatDecimal n := by
  unfold formatDecimal
  split_ifs
  · simp only [List.mem_cons, not_or]
    exact ⟨by decide, fun h => (formatDecimalNat_chars _ _ h).1 rfl⟩
  · exact fun h => (formatDecimalNat_chars _ _ h).1 rfl

theorem formatDecimal_injective (n m : Int) (h : formatDecimal n = formatDecimal m) : n = m := by
  unfold formatDecimal at h
  have hhead : ∀ k l : Nat, (45 : Fin 256) :: formatDecimalNat k ≠ formatDecimalNat l := by
    intro k l he
    have hmem : (45 : Fin 256) ∈ formatDecimalNat l := by
      rw [← he]
      exact List.mem_cons_self _ _
    exact (formatDecimalNat_chars _ _ hmem).2 rfl
  by_cases hn : n < 0 <;> by_cases hm : m < 0
  · rw [if_pos hn, if_pos hm] at h
    simp only [List.cons.injEq, true_and] at h
    have := formatDecimalNat_injective _ _ h
    omega
  · rw [if_pos hn, if_neg hm] at h
    exact absurd h (hhead _ _)
  · rw [if_neg hn, if_pos hm] at h
    exact absurd h.symm (hhead _ _)
  · rw [if_neg hn, if_neg hm] at h
    have := formatDecimalNat_injective _ _ h
    omega

/-- The serialization tells two entries apart on the four hashed fields when no
`SignerIdentityID` holds the separator. -/
theorem serializeEntry_injective_of_no_sep (lt : LedgerTree) (e1 e2 : Entry)
    (h1 : (124 : Fin 256) ∉ e1.SignerIdentityID) (h2 : (124 : Fin 256) ∉ e2.SignerIdentityID)
    (h : lt.serializeEntry e1 = lt.serializeEntry e2) :
    e1.SignerIdentityID = e2.SignerIdentityID ∧ e1.SignatureHash = e2.SignatureHash ∧
      e1.EntryType = e2.EntryType ∧ e1.Timestamp.unix = e2.Timestamp.unix := by
  unfold LedgerTree.serializeEntry at h
  simp only [List.append_assoc, List.singleton_append] at h
  obtain ⟨a1, r1⟩ := append_sep_inj_left _ _ _ _ _ h1 h2 h
  obtain ⟨a2, r2⟩ := append_sep_inj_left _ _ _ _ _ (hexEncodeToString_no_sep _)
    (hexEncodeToString_no_sep _) r1
  obtain ⟨a3, a4⟩ := append_sep_inj_right _ _ _ _ _ (formatDecimal_no_sep _)
    (formatDecimal_no_sep _) r2
  exact ⟨a1, hexEncodeToString_injective _ _ a2, a3, formatDecimal_injective _ _ a4⟩

/-! ### The claims -/

/-- C1. For every non-empty sequence of data items appended to a tree created by
`NewTree` with a supported hash algorithm, every append succeeds and `RootHash()`
is the recursive root `MTH` of the leaf hashes `Hash(data_i)`: the bottom-up
pairwise rebuild with odd-node promotion computes the root of the recursive
split at the largest power of two below `n`, for every `n`. -/
theorem RootHash_eq_MTH (P : Primitives) (algo : Algorithm) (ds : List Bytes)
    (halgo : Supported algo) (hne : ds ≠ []) :
    ∃ t, appendAll P (NewTree algo) ds = Except.ok t ∧
      RootHash t = MTH (digest P algo) (ds.map (digest P algo)) := by
  obtain ⟨t, ht⟩ := appendAll_of_supported P ds (NewTree algo) halgo
  exact ⟨t, ht, ((built_tree P algo ds t ht).2.2.2 hne).2⟩

/-- C1 at three leaves under SHA-256. -/
theorem RootHash_eq_MTH_witness :
    Supported SHA256 ∧ ([[1], [2], [3]] : List Bytes) ≠ [] ∧
      ∃ t, appendAll padPrimitives (NewTree SHA256) [[1], [2], [3]] = Except.ok t ∧
        RootHash t = MTH (digest padPrimitives SHA256)
          ([[1], [2], [3]].map (digest padPrimitives SHA256)) :=
  ⟨by decide, by decide,
    RootHash_eq_MTH padPrimitives SHA256 [[1], [2], [3]] (by decide) (by decide)⟩


/-- C3. For every tree built by appends and every index `0 ≤ i < Size()`,
`GenerateInclusionProof(i)` succeeds and `VerifyInclusionProof` accepts the proof
it returns; the same proof is still accepted by the tree after any further
successful appends. -/
theorem VerifyInclusionProof_generated (P : Primitives) (algo : Algorithm) (ds : List Bytes)
    (t : Tree) (ht : appendAll P (NewTree algo) ds = Except.ok t) (i : Int)
    (h0 : 0 ≤ i) (h1 : i < Size t) :
    ∃ p, GenerateInclusionProof t i = Except.ok p ∧ VerifyInclusionProof t p = true ∧
      ∀ (more : List Bytes) (t1 : Tree), appendAll P t more = Except.ok t1 →
        VerifyInclusionProof t1 p = true := by
  have hlen := built_tree_length P algo ds t ht
  obtain ⟨p, hp⟩ := GenerateInclusionProof_of_valid t i h0 (by omega)
  obtain ⟨_, _, hidx, _, leaf, hleaf, hh, _⟩ := GenerateInclusionProof_eq_ok hp
  refine ⟨p, hp, ?_, ?_⟩
  · rw [VerifyInclusionProof_eq_true_iff, hidx]
    exact ⟨h0, leaf, hleaf, hh.symm⟩
  · intro more t1 h1
    obtain ⟨_, hL, _, _⟩ := appendAll_eq_ok P more t t1 h1
    rw [VerifyInclusionProof_eq_true_iff, hidx]
    refine ⟨h0, leaf, ?_, hh.symm⟩
    rw [hL, List.getElem?_append_left (by omega)]
    exact hleaf

/-- C3 on the tree of two leaves, index 1, with one further append. -/
theorem VerifyInclusionProof_generated_witness :
    ∃ t, appendAll padPrimitives (NewTree SHA256) [[1], [2]] = Except.ok t ∧
      (0 : Int) ≤ 1 ∧ (1 : Int) < Size t ∧
      ∃ p, GenerateInclusionProof t 1 = Except.ok p ∧ VerifyInclusionProof t p = true ∧
        ∀ (more : List Bytes) (t1 : Tree), appendAll padPrimitives t more = Except.ok t1 →
          VerifyInclusionProof t1 p = true :=
  ⟨_, rfl, by decide, by decide,
    VerifyInclusionProof_generated padPrimitives SHA256 [[1], [2]] _ rfl 1 (by decide)
      (by decide)⟩

/-- C5. For every tree, every valid index `i` and the proof
`p = GenerateInclusionProof(i)`: with `p.LeafHash` replaced by any different byte
string, `VerifyInclusionProof` returns false. -/
theorem VerifyInclusionProof_other_LeafHash (t : Tree) (i : Int) (p : InclusionProof)
    (hp : GenerateInclusionProof t i = Except.ok p) (h : Bytes) (hne : h ≠ p.LeafHash) :
    VerifyInclusionProof t { p with LeafHash := h } = false := by
  obtain ⟨_, _, hidx, _, leaf, hleaf, hh, _⟩ := GenerateInclusionProof_eq_ok hp
  rw [Bool.eq_false_iff]
  intro hv
  rw [VerifyInclusionProof_eq_true_iff] at hv
  obtain ⟨_, leaf2, hl2, hh2⟩ := hv
  simp only [hidx] at hl2 hh2
  rw [hleaf] at hl2
  injection hl2 with e
  subst e
  exact hne (by rw [hh, ← hh2])

/-- C5 on the tree of two leaves: the proof for index 0 with its leaf hash
replaced by the empty string. -/
theorem VerifyInclusionProof_other_LeafHash_witness :
    ∃ t p, appendAll padPrimitives (NewTree SHA256) [[1], [2]] = Except.ok t ∧
      GenerateInclusionProof t 0 = Except.ok p ∧ ([] : Bytes) ≠ p.LeafHash ∧
      VerifyInclusionProof t { p with LeafHash := [] } = false := by
  refine ⟨_, _, rfl, rfl, ?_, ?_⟩
  · decide
  · refine VerifyInclusionProof_other_LeafHash _ 0 _ ?_ [] ?_
    · rfl
    · decide


/-- C8. The root hash depends only on the ordered sequence of leaf hashes: two
trees with the same algorithm, built by appending sequences `d` and `d1` of equal
length with `Hash(d_i) = Hash(d1_i)` for every `i`, have the same `RootHash()`. -/
theorem RootHash_of_equal_leaf_hashes (P : Primitives) (algo : Algorithm)
    (d d1 : List Bytes) (t t1 : Tree)
    (ht : appendAll P (NewTree algo) d = Except.ok t)
    (ht1 : appendAll P (NewTree algo) d1 = Except.ok t1)
    (hlen : d.length = d1.length)
    (hh : ∀ (i : Nat) (h : i < d.length) (h1 : i < d1.length),
      Hash P (d.get ⟨i, h⟩) algo = Hash P (d1.get ⟨i, h1⟩) algo) :
    RootHash t = RootHash t1 := by
  by_cases hd : d = []
  · subst hd
    have hd1 : d1 = [] := List.length_eq_zero.mp hlen.symm
    subst hd1
    rw [ht] at ht1
    injection ht1 with e
    rw [e]
  · have hd1 : d1 ≠ [] := by
      intro h0
      subst h0
      exact hd (List.length_eq_zero.mp hlen)
    obtain ⟨hs, hr⟩ := (built_tree P algo d t ht).2.2.2 hd
    obtain ⟨_, hr1⟩ := (built_tree P algo d1 t1 ht1).2.2.2 hd1
    rw [hr, hr1]
    congr 1
    apply List.ext_getElem (by simpa using hlen)
    intro i h h1
    simp only [List.length_map] at h h1
    have e := hh i h h1
    rw [Hash_of_supported P hs, Hash_of_supported P hs] at e
    injection e with e
    simpa using e

/-- C8 on two runs over the same three items. -/
theorem RootHash_of_equal_leaf_hashes_witness :
    ∃ t t1, appendAll padPrimitives (NewTree SHA256) [[1], [2], [3]] = Except.ok t ∧
      appendAll padPrimitives (NewTree SHA256) [[1], [2], [3]] = Except.ok t1 ∧
      RootHash t = RootHash t1 :=
  ⟨_, _, rfl, rfl,
    RootHash_of_equal_leaf_hashes padPrimitives SHA256 [[1], [2], [3]] [[1], [2], [3]] _ _
      rfl rfl rfl (fun _ _ _ => rfl)⟩

/-- C9. On a tree created by `NewTree` with a supported algorithm no append fails,
whatever the data: `n` appends succeed and leave `Size() = n`, the item appended
`k`-th is the leaf at index `k - 1` (with hash `Hash(data)`), `RootHash()` is not
empty once `n ≥ 1`, and one more `Append` of any data succeeds again. -/
theorem Append_never_fails (P : Primitives) (algo : Algorithm) (ds : List Bytes)
    (halgo : Supported algo) :
    ∃ t, appendAll P (NewTree algo) ds = Except.ok t ∧ Size t = ds.length ∧
      (∀ (k : Nat) (hk : k < ds.length), ∃ h, Hash P (ds.get ⟨k, hk⟩) algo = Except.ok h ∧
        t.Leaves[k]? = some (Node.leaf h (ds.get ⟨k, hk⟩))) ∧
      (ds ≠ [] → RootHash t ≠ []) ∧
      (∀ data : Bytes, ∃ t2, Append P t data = Except.ok t2 ∧ Size t2 = Size t + 1) := by
  obtain ⟨t, ht⟩ := appendAll_of_supported P ds (NewTree algo) halgo
  obtain ⟨hA, hL, hS, hR⟩ := built_tree P algo ds t ht
  refine ⟨t, ht, by simp [Size, hS], ?_, ?_, ?_⟩
  · intro k hk
    refine ⟨digest P algo (ds.get ⟨k, hk⟩), Hash_of_supported P halgo _, ?_⟩
    rw [hL, List.getElem?_map, List.getElem?_eq_getElem hk]
    rfl
  · intro hne
    obtain ⟨_, hr⟩ := hR hne
    have hpos : 0 < (RootHash t).length := by
      rw [hr]
      apply MTH_length_pos _ (digest_length_pos P halgo)
      · simpa using hne
      · intro h hmem
        obtain ⟨d, _, rfl⟩ := List.mem_map.mp hmem
        exact digest_length_pos P halgo d
    intro h0
    rw [h0] at hpos
    simp at hpos
  · intro data
    have hs : Supported t.HashAlgo := by rw [hA]; exact halgo
    refine ⟨_, Append_of_supported P t data hs, ?_⟩
    simp [Size, rebuildTree_treeSize]

/-- C9 under SHA-256 on four items, one of them empty. -/
theorem Append_never_fails_witness :
    Supported SHA256 ∧
    ∃ t, appendAll padPrimitives (NewTree SHA256) [[1], [], [3], [4]] = Except.ok t ∧
      Size t = 4 ∧ RootHash t ≠ [] := by
  obtain ⟨t, h1, h2, _, h4, _⟩ :=
    Append_never_fails padPrimitives SHA256 [[1], [], [3], [4]] (by decide)
  exact ⟨by decide, t, h1, by simpa using h2, h4 (by decide)⟩

/-- C10. On every tree built by appends, `GenerateInclusionProof(i)` returns an
error if and only if `i < 0` or `i ≥ Size()`, and a proof if and only if
`0 ≤ i < Size()`; on an empty tree it fails for every index. -/
theorem GenerateInclusionProof_error_iff (P : Primitives) (algo : Algorithm) (ds : List Bytes)
    (t : Tree) (ht : appendAll P (NewTree algo) ds = Except.ok t) (i : Int) :
    ((∃ e, GenerateInclusionProof t i = Except.error e) ↔ (i < 0 ∨ i ≥ Size t)) ∧
    ((∃ p, GenerateInclusionProof t i = Except.ok p) ↔ (0 ≤ i ∧ i < Size t)) ∧
    (Size t = 0 → ∃ e, GenerateInclusionProof t i = Except.error e) := by
  have hlen := built_tree_length P algo ds t ht
  have hbad : (i < 0 ∨ i ≥ Size t) → ∃ e, GenerateInclusionProof t i = Except.error e := by
    intro h
    exact ⟨_, GenerateInclusionProof_of_invalid t i (by omega)⟩
  have hgood : (0 ≤ i ∧ i < Size t) → ∃ p, GenerateInclusionProof t i = Except.ok p := by
    intro h
    exact GenerateInclusionProof_of_valid t i h.1 (by omega)
  refine ⟨⟨?_, hbad⟩, ⟨?_, hgood⟩, ?_⟩
  · rintro ⟨e, he⟩
    by_contra hc
    obtain ⟨p, hp⟩ := hgood (by omega)
    rw [hp] at he
    cases he
  · rintro ⟨p, hp⟩
    obtain ⟨h0, h1, _⟩ := GenerateInclusionProof_eq_ok hp
    omega
  · intro h0
    exact hbad (by omega)

/-- C10 on the tree of two leaves at index 2, the first index out of range. -/
theorem GenerateInclusionProof_error_iff_witness :
    ∃ t, appendAll padPrimitives (NewTree SHA256) [[1], [2]] = Except.ok t ∧
      ((∃ e, GenerateInclusionProof t 2 = Except.error e) ↔ ((2 : Int) < 0 ∨ (2 : Int) ≥ Size t)) :=
  ⟨_, rfl, (GenerateInclusionProof_error_iff padPrimitives SHA256 [[1], [2]] _ rfl 2).1⟩


/-- C2, the code on four leaves: for every choice of digest primitive and data,
the `Path` that `GenerateInclusionProof(2)` returns on a tree of four leaves is
not the audit path of leaf 2 (the hash of leaf 3, then the root of leaves 0 and 1),
and recombining `LeafHash` with it along the split of a tree of four yields no
root at all. -/
theorem GenerateInclusionProof_Path_not_auditPath (P : Primitives) (d0 d1 d2 d3 : Bytes) :
    ∃ t p, appendAll P (NewTree SHA256) [d0, d1, d2, d3] = Except.ok t ∧
      GenerateInclusionProof t 2 = Except.ok p ∧
      auditPath (digest P SHA256) 2 ([d0, d1, d2, d3].map (digest P SHA256))
        = [digest P SHA256 d3, digest P SHA256 (digest P SHA256 d0 ++ digest P SHA256 d1)] ∧
      p.Path ≠ auditPath (digest P SHA256) 2 ([d0, d1, d2, d3].map (digest P SHA256)) ∧
      rootFromPath (digest P SHA256) p.LeafHash 2 4 p.Path = none := by
  obtain ⟨t, p, ht, _, hp, hlen⟩ := four_leaves_index_two P d0 d1 d2 d3
  have h4 : splitPoint 4 = 2 := splitPoint_eq_of_bounds (e := 1) (by decide) (by decide)
  have h2 : splitPoint 2 = 1 := splitPoint_eq_of_bounds (e := 0) (by decide) (by decide)
  have ha : auditPath (digest P SHA256) 2 ([d0, d1, d2, d3].map (digest P SHA256))
      = [digest P SHA256 d3, digest P SHA256 (digest P SHA256 d0 ++ digest P SHA256 d1)] := by
    simp only [List.map_cons, List.map_nil]
    rw [auditPath]
    simp only [List.length_cons, List.length_nil, h4]
    simp only [lt_self_iff_false, if_false, Nat.sub_self]
    simp only [List.drop, List.take]
    rw [auditPath]
    simp only [List.length_nil, h2]
    simp only [Nat.lt_one_iff, if_true, List.take, List.drop]
    rw [auditPath, MTH_singleton, MTH_split _ _ (by simp)]
    simp only [List.length_cons, List.length_nil, h2, List.take, List.drop, MTH_singleton]
    rfl
  refine ⟨t, p, ht, hp, ha, ?_, ?_⟩
  · intro h
    rw [ha] at h
    rw [h] at hlen
    simp at hlen
  · obtain ⟨x, hx⟩ := List.length_eq_one.mp hlen
    rw [hx, rootFromPath]
    simp only [show ¬ (4 ≤ 1) by decide, dite_false, List.getLast?_singleton, h4,
      lt_self_iff_false, if_false, List.dropLast_single, Nat.sub_self]
    rw [rootFromPath]
    simp

/-- C7, the code on four leaves: for every choice of digest primitive and data,
the proof for index 2 of a tree of four leaves has a `Path` of one entry, not two;
and no proof `GenerateInclusionProof` returns has more than one. -/
theorem GenerateInclusionProof_Path_length (P : Primitives) (d0 d1 d2 d3 : Bytes) :
    (∃ t p, appendAll P (NewTree SHA256) [d0, d1, d2, d3] = Except.ok t ∧ Size t = 4 ∧
      GenerateInclusionProof t 2 = Except.ok p ∧ p.Path.length = 1) ∧
    (∀ (t : Tree) (i : Int) (p : InclusionProof),
      GenerateInclusionProof t i = Except.ok p → p.Path.length ≤ 1) :=
  ⟨four_leaves_index_two P d0 d1 d2 d3, fun _ _ _ h => GenerateInclusionProof_Path_length_le h⟩

/-- C4 as stated fails: on the tree of `"leaf1"`, `"leaf2"` under SHA-256, whatever
the digest primitive, the proof for index 0 has a non-empty `Path`, and with its
entry replaced by a different byte string it is still accepted. -/
theorem VerifyInclusionProof_accepts_altered_Path :
    ¬ ∃ P : Primitives, ∀ (t : Tree) (p : InclusionProof),
      appendAll P (NewTree SHA256) [leaf1, leaf2] = Except.ok t →
      GenerateInclusionProof t 0 = Except.ok p →
      p.Path ≠ [] ∧ ∀ (j : Nat) (b : Bytes), j < p.Path.length → p.Path[j]? ≠ some b →
        VerifyInclusionProof t { p with Path := p.Path.set j b } = false := by
  rintro ⟨P, h⟩
  obtain ⟨t, p, ht, hp, hpath⟩ := two_leaves_index_zero P leaf1 leaf2
  have hlen := digest_length_pos P (Or.inl rfl : Supported SHA256) leaf2
  have hf := (h t p ht hp).2 0 [] (by simp [hpath]) (by
    rw [hpath]
    simp only [List.getElem?_cons_zero, ne_eq, Option.some.injEq]
    intro h0
    rw [h0] at hlen
    simp at hlen)
  have ht2 : VerifyInclusionProof t { p with Path := p.Path.set 0 [] } = true := by
    exact (VerifyInclusionProof_congr t _ p rfl rfl).trans (VerifyInclusionProof_of_ok hp)
  rw [ht2] at hf
  cases hf

/-- C4 as amended: `VerifyInclusionProof` does not read `Path`. For every tree,
every valid index `i` and the proof `p = GenerateInclusionProof(i)`, the proof is
still accepted with its `Path` replaced by any list of byte strings, in particular
with any one entry replaced by any byte string. -/
theorem VerifyInclusionProof_ignores_Path (t : Tree) (i : Int) (p : InclusionProof)
    (hp : GenerateInclusionProof t i = Except.ok p) :
    (∀ path : List Bytes, VerifyInclusionProof t { p with Path := path } = true) ∧
    (∀ (j : Nat) (b : Bytes), VerifyInclusionProof t { p with Path := p.Path.set j b } = true) := by
  have hv := VerifyInclusionProof_of_ok hp
  constructor
  · intro path
    exact (VerifyInclusionProof_congr t _ p rfl rfl).trans hv
  · intro j b
    exact (VerifyInclusionProof_congr t _ p rfl rfl).trans hv

/-- C4 as amended, on the tree of `[1]`, `[2]`: the proof for index 0 with the one
entry of its `Path` replaced by the empty string. -/
theorem VerifyInclusionProof_ignores_Path_witness :
    ∃ t p, appendAll padPrimitives (NewTree SHA256) [[1], [2]] = Except.ok t ∧
      GenerateInclusionProof t 0 = Except.ok p ∧ p.Path.length = 1 ∧
      VerifyInclusionProof t { p with Path := p.Path.set 0 [] } = true := by
  refine ⟨_, _, rfl, rfl, by decide, ?_⟩
  refine (VerifyInclusionProof_ignores_Path _ 0 _ ?_).2 0 []
  rfl

/-- C6 as stated fails: under SHA-256, whatever the digest primitive, the proof
generated for index 0 of the tree of `"leaf1"` names tree size 1, and the tree
accepts it after `"leaf2"` was appended and `Size()` is 2. -/
theorem VerifyInclusionProof_accepts_other_TreeSize :
    ¬ ∃ P : Primitives, ∀ (t t1 : Tree) (p : InclusionProof),
      appendAll P (NewTree SHA256) [leaf1] = Except.ok t →
      GenerateInclusionProof t 0 = Except.ok p →
      Append P t leaf2 = Except.ok t1 →
      p.TreeSize ≠ Size t1 → VerifyInclusionProof t1 p = false := by
  rintro ⟨P, h⟩
  obtain ⟨t, ht⟩ := appendAll_of_supported P [leaf1] (NewTree SHA256) (Or.inl rfl)
  obtain ⟨hA, hL, hS, _⟩ := built_tree P SHA256 _ t ht
  obtain ⟨p, hp⟩ := GenerateInclusionProof_of_valid t 0 (by decide) (by rw [hL]; simp)
  have hs : Supported t.HashAlgo := by rw [hA]; exact Or.inl rfl
  have ha := Append_of_supported P t leaf2 hs
  obtain ⟨_, _, _, hts, _⟩ := GenerateInclusionProof_eq_ok hp
  have hne : p.TreeSize ≠ Size (rebuildTree P
      { t with Leaves := t.Leaves ++ [leafOf P t.HashAlgo leaf2],
               treeSize := t.treeSize + 1 }) := by
    rw [hts]
    simp [Size, rebuildTree_treeSize]
  have hf := h t _ p ht hp ha hne
  rw [VerifyInclusionProof_after_Append P (VerifyInclusionProof_of_ok hp) ha] at hf
  cases hf

/-- C6 as amended: `VerifyInclusionProof` does not read `TreeSize`. For every tree
`t` and proof `p` the result is the same whatever `p.TreeSize` is, equal to
`t.Size()` or not: it is true exactly when `0 ≤ p.LeafIndex < len(t.Leaves)` and
`p.LeafHash` equals the hash of the leaf stored at `p.LeafIndex`. -/
theorem VerifyInclusionProof_ignores_TreeSize (t : Tree) (p : InclusionProof) (size : Int) :
    VerifyInclusionProof t { p with TreeSize := size } = VerifyInclusionProof t p ∧
    (VerifyInclusionProof t p = true ↔
      0 ≤ p.LeafIndex ∧ p.LeafIndex < t.Leaves.length ∧
        ∃ leaf, t.Leaves[p.LeafIndex.toNat]? = some leaf ∧ leaf.Hash = p.LeafHash) := by
  refine ⟨VerifyInclusionProof_congr t _ p rfl rfl, ?_⟩
  rw [VerifyInclusionProof_eq_true_iff]
  constructor
  · rintro ⟨h0, leaf, hl, hh⟩
    refine ⟨h0, ?_, leaf, hl, hh⟩
    by_contra hc
    rw [List.getElem?_eq_none (by omega)] at hl
    cases hl
  · rintro ⟨h0, _, leaf, hl, hh⟩
    exact ⟨h0, leaf, hl, hh⟩


/-- C11. For every tree built by appends and every valid index `i`, the proof
`GenerateInclusionProof(i)` returns has `LeafIndex = i`, `TreeSize = Size()` and
`LeafHash = Hash(data_i)`, where `data_i` is the item appended `i`-th (from 0). -/
theorem GenerateInclusionProof_fields (P : Primitives) (algo : Algorithm) (ds : List Bytes)
    (t : Tree) (ht : appendAll P (NewTree algo) ds = Except.ok t) (i : Int)
    (h0 : 0 ≤ i) (h1 : i < Size t) :
    ∃ p, GenerateInclusionProof t i = Except.ok p ∧ p.LeafIndex = i ∧ p.TreeSize = Size t ∧
      ∃ d, ds[i.toNat]? = some d ∧ Hash P d algo = Except.ok p.LeafHash := by
  have hlen := built_tree_length P algo ds t ht
  obtain ⟨_, hL, hS, hR⟩ := built_tree P algo ds t ht
  obtain ⟨p, hp⟩ := GenerateInclusionProof_of_valid t i h0 (by omega)
  obtain ⟨_, _, hidx, hts, leaf, hleaf, hh, _⟩ := GenerateInclusionProof_eq_ok hp
  have hds : ds ≠ [] := by
    intro h
    subst h
    simp [Size, hS] at h1
    omega
  obtain ⟨hs, _⟩ := hR hds
  have hi : i.toNat < ds.length := by
    simp only [Size, hS] at h1
    omega
  refine ⟨p, hp, hidx, hts, ds[i.toNat], List.getElem?_eq_getElem hi, ?_⟩
  rw [hL, List.getElem?_map, List.getElem?_eq_getElem hi] at hleaf
  simp only [Option.map_some', Option.some.injEq] at hleaf
  rw [Hash_of_supported P hs, hh, ← hleaf]
  rfl

/-- C11 on the tree of `[1]`, `[2]` at index 1. -/
theorem GenerateInclusionProof_fields_witness :
    ∃ t, appendAll padPrimitives (NewTree SHA256) [[1], [2]] = Except.ok t ∧
      (0 : Int) ≤ 1 ∧ (1 : Int) < Size t ∧
      ∃ p, GenerateInclusionProof t 1 = Except.ok p ∧ p.LeafIndex = 1 ∧ p.TreeSize = Size t ∧
        ∃ d, ([[1], [2]] : List Bytes)[(1 : Int).toNat]? = some d ∧
          Hash padPrimitives d SHA256 = Except.ok p.LeafHash :=
  ⟨_, rfl, by decide, by decide,
    GenerateInclusionProof_fields padPrimitives SHA256 [[1], [2]] _ rfl 1 (by decide)
      (by decide)⟩

/-- C12. On every tree built by appends `VerifyInclusionProof` answers true or
false for every proof value, whatever its `LeafIndex`, `LeafHash`, `Path` and
`TreeSize` (it is a total function: its one slice access is guarded by the index
check), and the answer is false whenever `LeafIndex` is outside `[0, Size())`. -/
theorem VerifyInclusionProof_total (P : Primitives) (algo : Algorithm) (ds : List Bytes)
    (t : Tree) (ht : appendAll P (NewTree algo) ds = Except.ok t) (p : InclusionProof) :
    (VerifyInclusionProof t p = true ∨ VerifyInclusionProof t p = false) ∧
    ((p.LeafIndex < 0 ∨ p.LeafIndex ≥ Size t) → VerifyInclusionProof t p = false) := by
  have hlen := built_tree_length P algo ds t ht
  refine ⟨by cases VerifyInclusionProof t p <;> simp, ?_⟩
  intro h
  unfold VerifyInclusionProof
  rw [dif_pos (by omega)]

/-- C12 on the tree of `[1]`, `[2]` and a proof with a negative index, an empty
leaf hash, a path of odd entries and a tree size of 99. -/
theorem VerifyInclusionProof_total_witness :
    ∃ t, appendAll padPrimitives (NewTree SHA256) [[1], [2]] = Except.ok t ∧
      VerifyInclusionProof t
        { LeafIndex := -1, LeafHash := [], TreeSize := 99, Path := [[], [7]] } = false := by
  refine ⟨_, rfl, ?_⟩
  exact (VerifyInclusionProof_total padPrimitives SHA256 [[1], [2]] _ rfl
    { LeafIndex := -1, LeafHash := [], TreeSize := 99, Path := [[], [7]] }).2
    (Or.inl (by decide))

/-- C13. For every tree, `GenerateConsistencyProof(oldSize)` returns an error if
and only if `oldSize < 0` or `oldSize > Size()`; a proof it returns has
`OldSize = oldSize` and `NewSize = Size()`. -/
theorem GenerateConsistencyProof_error_iff (t : Tree) (oldSize : Int) :
    ((∃ e, GenerateConsistencyProof t oldSize = Except.error e)
      ↔ (oldSize < 0 ∨ oldSize > Size t)) ∧
    ((∃ cp, GenerateConsistencyProof t oldSize = Except.ok cp)
      ↔ (0 ≤ oldSize ∧ oldSize ≤ Size t)) ∧
    (∀ cp, GenerateConsistencyProof t oldSize = Except.ok cp →
      cp.OldSize = oldSize ∧ cp.NewSize = Size t) := by
  unfold GenerateConsistencyProof
  by_cases h : oldSize < 0 ∨ oldSize > Size t
  · rw [if_pos h]
    refine ⟨⟨fun _ => h, fun _ => ⟨_, rfl⟩⟩, ⟨?_, ?_⟩, ?_⟩
    · rintro ⟨cp, hcp⟩; cases hcp
    · intro h2; omega
    · intro cp hcp; cases hcp
  · rw [if_neg h]
    refine ⟨⟨?_, fun h2 => absurd h2 h⟩, ⟨fun _ => by omega, fun _ => ⟨_, rfl⟩⟩, ?_⟩
    · rintro ⟨e, he⟩; cases he
    · intro cp hcp
      injection hcp with hcp
      subst hcp
      exact ⟨rfl, rfl⟩

/-- C14, the code on two leaves: for every digest primitive and data, the tree of
two leaves answers `GenerateConsistencyProof(1)` with a proof whose `Path` is
empty; and no proof `GenerateConsistencyProof` returns has any entry. -/
theorem GenerateConsistencyProof_Path_empty (P : Primitives) (d0 d1 : Bytes) :
    (∃ t cp, appendAll P (NewTree SHA256) [d0, d1] = Except.ok t ∧ Size t = 2 ∧
      GenerateConsistencyProof t 1 = Except.ok cp ∧ cp.Path = []) ∧
    (∀ (t : Tree) (oldSize : Int) (cp : ConsistencyProof),
      GenerateConsistencyProof t oldSize = Except.ok cp → cp.Path = []) := by
  have hall : ∀ (t : Tree) (oldSize : Int) (cp : ConsistencyProof),
      GenerateConsistencyProof t oldSize = Except.ok cp → cp.Path = [] := by
    intro t oldSize cp hcp
    unfold GenerateConsistencyProof at hcp
    split_ifs at hcp
    injection hcp with hcp
    subst hcp
    rfl
  refine ⟨?_, hall⟩
  obtain ⟨t, ht⟩ := appendAll_of_supported P [d0, d1] (NewTree SHA256) (Or.inl rfl)
  obtain ⟨_, _, hS, _⟩ := built_tree P SHA256 _ t ht
  have hsz : Size t = 2 := by simp [Size, hS]
  have hok : ∃ cp, GenerateConsistencyProof t 1 = Except.ok cp := by
    unfold GenerateConsistencyProof
    rw [if_neg (by rw [hsz]; decide)]
    exact ⟨_, rfl⟩
  obtain ⟨cp, hcp⟩ := hok
  exact ⟨t, cp, ht, hsz, hcp, hall t 1 cp hcp⟩

/-- C15, the code on two tree heads of one size: `VerifyConsistency` returns true
for every pair of tree heads with the same `TreeSize`, whatever their root
hashes, so also when the two roots differ. -/
theorem VerifyConsistency_same_size (lt : LedgerTree) (size : Int) (root1 root2 : Bytes)
    (time1 time2 : Time) (sig1 sig2 id1 id2 : Bytes) :
    lt.VerifyConsistency
      { TreeSize := size, RootHash := root1, Timestamp := time1, Signature := sig1,
        LedgerAuthorityID := id1 }
      { TreeSize := size, RootHash := root2, Timestamp := time2, Signature := sig2,
        LedgerAuthorityID := id2 } = true := by
  simp [LedgerTree.VerifyConsistency]


/-- C16. Over any run of `Append` calls, failing or not and from any ledger,
`GetSize()` does not decrease. Hence for tree heads `s1`, `s2` taken from one
ledger, `s1` before the calls `ptrs2` and `s2` after them:
`s1.TreeSize ≤ s2.TreeSize`, `VerifyConsistency(s1, s2)` is true, and
`GenerateConsistencyProof(s1.TreeSize)` succeeds when `s2` is taken. -/
theorem GetSize_never_decreases (P : Primitives) (algo : Algorithm) (heap1 heap2 : Heap)
    (ptrs1 ptrs2 : List EntryPtr) (now1 now2 : Time) :
    (∀ (lt : LedgerTree) (heap : Heap) (ptrs : List EntryPtr),
      lt.GetSize ≤ (lt.appendEach P heap ptrs).ledger.GetSize) ∧
    (((NewLedgerTree algo).appendEach P heap1 ptrs1).ledger.GetSignedTreeHead now1).TreeSize
      ≤ ((((NewLedgerTree algo).appendEach P heap1 ptrs1).ledger.appendEach P heap2
          ptrs2).ledger.GetSignedTreeHead now2).TreeSize ∧
    (((NewLedgerTree algo).appendEach P heap1 ptrs1).ledger.appendEach P heap2
        ptrs2).ledger.VerifyConsistency
      (((NewLedgerTree algo).appendEach P heap1 ptrs1).ledger.GetSignedTreeHead now1)
      ((((NewLedgerTree algo).appendEach P heap1 ptrs1).ledger.appendEach P heap2
          ptrs2).ledger.GetSignedTreeHead now2) = true ∧
    ∃ cp, (((NewLedgerTree algo).appendEach P heap1 ptrs1).ledger.appendEach P heap2
        ptrs2).ledger.GenerateConsistencyProof
      (((NewLedgerTree algo).appendEach P heap1 ptrs1).ledger.GetSignedTreeHead now1).TreeSize
        = Except.ok cp := by
  have h0 := appendEach_size_le P ptrs1 (NewLedgerTree algo) heap1
  have h1 := appendEach_size_le P ptrs2 ((NewLedgerTree algo).appendEach P heap1 ptrs1).ledger heap2
  have hz : (NewLedgerTree algo).GetSize = 0 := rfl
  rw [hz] at h0
  refine ⟨fun lt heap ptrs => appendEach_size_le P ptrs lt heap, h1, ?_, ?_⟩
  · simp only [LedgerTree.VerifyConsistency, LedgerTree.GetSignedTreeHead]
    rw [if_neg]
    simp only [LedgerTree.GetSize] at h1
    omega
  · unfold LedgerTree.GenerateConsistencyProof GenerateConsistencyProof
    rw [if_neg]
    · exact ⟨_, rfl⟩
    · simp only [LedgerTree.GetSignedTreeHead, LedgerTree.GetSize] at h0 h1 ⊢
      omega

/-- C17. On a ledger created by `NewLedgerTree`, with any algorithm, the numbers
given to the entries of the successful calls of a run, in order, are
`1, 2, ..., N`, where `N` is the number of successful calls. -/
theorem successful_sequence_numbers (P : Primitives) (algo : Algorithm) (heap : Heap)
    (ptrs : List EntryPtr) :
    (((NewLedgerTree algo).appendEach P heap ptrs).calls.filter
        (fun c => c.err.isNone)).map (fun c => c.SequenceNumber)
      = (List.range (((NewLedgerTree algo).appendEach P heap ptrs).calls.filter
          (fun c => c.err.isNone)).length).map (fun (k : Nat) => (k : Int) + 1) := by
  have hseq := appendEach_calls_sequence P ptrs (NewLedgerTree algo) heap
  have hlen := appendEach_calls_length P ptrs (NewLedgerTree algo) heap
  by_cases hs : Supported algo
  · obtain ⟨hall, _⟩ := appendEach_of_supported P ptrs (NewLedgerTree algo) heap rfl hs
    have hf : ((NewLedgerTree algo).appendEach P heap ptrs).calls.filter (fun c => c.err.isNone)
        = ((NewLedgerTree algo).appendEach P heap ptrs).calls := by
      rw [List.filter_eq_self]
      intro c hc
      simp [hall c hc]
    rw [hf, hseq, hlen]
    apply List.map_congr_left
    intro k _
    simp [NewLedgerTree]
    omega
  · obtain ⟨hall, _⟩ := appendEach_of_not_supported P ptrs (NewLedgerTree algo) heap rfl hs
    have hf : ((NewLedgerTree algo).appendEach P heap ptrs).calls.filter (fun c => c.err.isNone)
        = [] := by
      rw [List.filter_eq_nil_iff]
      intro c hc
      have := hall c hc
      cases hce : c.err with
      | none => exact absurd hce this
      | some _ => simp
    rw [hf]
    rfl

/-- C18 as stated fails: on a ledger created with the algorithm name `"MD5"`,
whatever the digest primitive, `Append` of an entry without hash returns an error
and the ledger is not as before (its counter went from 0 to 1). -/
theorem LedgerTree_Append_error_changes_ledger :
    ¬ ∃ P : Primitives,
      ((NewLedgerTree "MD5").Append P testHeap 0).err ≠ none →
        ((NewLedgerTree "MD5").Append P testHeap 0).ledger = NewLedgerTree "MD5" := by
  rintro ⟨P, h⟩
  have hns : ¬ Supported (NewLedgerTree "MD5").hashAlgo := by decide
  have herr := (LedgerTree_Append_error_of_not_supported P (NewLedgerTree "MD5") testHeap 0
    rfl hns).1
  have hseq := LedgerTree_Append_sequence P (NewLedgerTree "MD5") testHeap 0
  rw [h herr] at hseq
  simp [NewLedgerTree] at hseq

/-- C18 as amended. Whenever `Append` returns an error on a ledger reached from
`NewLedgerTree` by `Append` calls, the Merkle tree (so its size and root) is
exactly as before the call and the sequence counter has advanced by one; when the
entry passed had no `EntryHash`, the list of stored entries is as before too. -/
theorem LedgerTree_Append_error_effect (P : Primitives) (algo : Algorithm) (heap0 heap : Heap)
    (ptrs : List EntryPtr) (e : EntryPtr)
    (herr : (((NewLedgerTree algo).appendEach P heap0 ptrs).ledger.Append P heap e).err ≠ none) :
    (((NewLedgerTree algo).appendEach P heap0 ptrs).ledger.Append P heap e).ledger.tree
      = ((NewLedgerTree algo).appendEach P heap0 ptrs).ledger.tree ∧
    (((NewLedgerTree algo).appendEach P heap0 ptrs).ledger.Append P heap e).ledger.GetSize
      = ((NewLedgerTree algo).appendEach P heap0 ptrs).ledger.GetSize ∧
    (((NewLedgerTree algo).appendEach P heap0 ptrs).ledger.Append P heap e).ledger.GetRootHash
      = ((NewLedgerTree algo).appendEach P heap0 ptrs).ledger.GetRootHash ∧
    (((NewLedgerTree algo).appendEach P heap0 ptrs).ledger.Append P heap e).ledger.sequence
      = ((NewLedgerTree algo).appendEach P heap0 ptrs).ledger.sequence + 1 ∧
    ((heap e).EntryHash = none →
      (((NewLedgerTree algo).appendEach P heap0 ptrs).ledger.Append P heap e).ledger.entries
        = ((NewLedgerTree algo).appendEach P heap0 ptrs).ledger.entries) := by
  have hinv := appendEach_inv P ptrs (NewLedgerTree algo) heap0 (NewLedgerTree_inv algo)
  generalize ((NewLedgerTree algo).appendEach P heap0 ptrs).ledger = lt at herr hinv ⊢
  have ht : (lt.Append P heap e).ledger.tree = lt.tree := by
    rcases LedgerTree_Append_cases P lt heap e with ⟨_, c2, _⟩ | ⟨c1, _⟩
    · exact c2
    · exact absurd c1 herr
  refine ⟨ht, ?_, ?_, LedgerTree_Append_sequence P lt heap e, ?_⟩
  · simp [LedgerTree.GetSize, ht]
  · simp [LedgerTree.GetRootHash, ht]
  · intro hE
    exact LedgerTree_Append_error_entries P lt heap e hinv.1 hE herr

/-- C18 as amended, on a new ledger with the algorithm name `"MD5"`. -/
theorem LedgerTree_Append_error_effect_witness :
    (((NewLedgerTree "MD5").appendEach padPrimitives testHeap []).ledger.Append padPrimitives
        testHeap 0).err ≠ none ∧
    (((NewLedgerTree "MD5").appendEach padPrimitives testHeap []).ledger.Append padPrimitives
        testHeap 0).ledger.sequence = 1 :=
  ⟨by decide,
    by simpa [LedgerTree.appendEach, NewLedgerTree] using
      (LedgerTree_Append_error_effect padPrimitives "MD5" testHeap testHeap [] 0
        (by decide)).2.2.2.1⟩

/-- C19. On a new ledger the first `Append` call gives its entry the number 1,
and in every run of calls, failing or not, the numbers given are
`1, 2, 3, ...` in call order: each is strictly greater than all given before. -/
theorem sequence_numbers_increase (P : Primitives) (algo : Algorithm) (heap : Heap)
    (ptrs : List EntryPtr) :
    (∀ e : EntryPtr, (((NewLedgerTree algo).Append P heap e).heap e).SequenceNumber = 1) ∧
    ((NewLedgerTree algo).appendEach P heap ptrs).calls.map (fun c => c.SequenceNumber)
      = (List.range ptrs.length).map (fun (k : Nat) => (k : Int) + 1) ∧
    (((NewLedgerTree algo).appendEach P heap ptrs).calls.map
      (fun c => c.SequenceNumber)).Pairwise (fun a b => a < b) := by
  have hseq : ((NewLedgerTree algo).appendEach P heap ptrs).calls.map (fun c => c.SequenceNumber)
      = (List.range ptrs.length).map (fun (k : Nat) => (k : Int) + 1) := by
    rw [appendEach_calls_sequence P ptrs (NewLedgerTree algo) heap]
    apply List.map_congr_left
    intro k _
    simp [NewLedgerTree]
    omega
  refine ⟨?_, hseq, ?_⟩
  · intro e
    rw [LedgerTree_Append_assigned]
    simp [NewLedgerTree]
  · rw [hseq, List.pairwise_map]
    apply List.Pairwise.imp _ (List.pairwise_lt_range ptrs.length)
    intro a b hab
    omega

/-- C20 as stated fails: under SHA-256, whatever the digest primitive, after two
`Append` calls with the same entry pointer `GetEntry(0)` returns the entry
appended first, and its `SequenceNumber` is not 1 (the second call wrote 2 into
it). -/
theorem GetEntry_same_entry_twice :
    ¬ ∃ P : Primitives, ∀ ptr : EntryPtr,
      ((NewLedgerTree SHA256).appendEach P testHeap [0, 0]).ledger.GetEntry 0 = Except.ok ptr →
        (((NewLedgerTree SHA256).appendEach P testHeap [0, 0]).heap ptr).SequenceNumber = 1 := by
  rintro ⟨P, h⟩
  have hs : Supported (NewLedgerTree SHA256).hashAlgo := Or.inl rfl
  obtain ⟨_, hent, _⟩ := appendEach_of_supported P [0, 0] (NewLedgerTree SHA256) testHeap rfl hs
  have hget : ((NewLedgerTree SHA256).appendEach P testHeap [0, 0]).ledger.GetEntry 0
      = Except.ok 0 := by
    rw [GetEntry_eq_ok_iff, hent]
    exact ⟨le_refl _, rfl⟩
  have h1 := h 0 hget
  obtain ⟨_, e2, _⟩ := appendEach_cons P (NewLedgerTree SHA256) testHeap 0 [0]
  obtain ⟨_, e3, _⟩ := appendEach_cons P ((NewLedgerTree SHA256).Append P testHeap 0).ledger
    ((NewLedgerTree SHA256).Append P testHeap 0).heap 0 []
  rw [e2, e3] at h1
  simp only [LedgerTree.appendEach] at h1
  rw [LedgerTree_Append_assigned, LedgerTree_Append_sequence] at h1
  simp [NewLedgerTree] at h1

/-- C20 as amended. For a ledger with a supported algorithm on which `n` appends
were made, each with an entry of its own (pairwise distinct pointers):
`GetEntry(i)` returns an error if and only if `i < 0` or `i ≥ n`, and otherwise
returns the entry appended `(i+1)`-th, whose `SequenceNumber` is `i + 1`. -/
theorem GetEntry_after_appends (P : Primitives) (algo : Algorithm) (heap : Heap)
    (ptrs : List EntryPtr) (hs : Supported algo) (hnd : ptrs.Nodup) (i : Int) :
    ((∃ e, ((NewLedgerTree algo).appendEach P heap ptrs).ledger.GetEntry i = Except.error e)
      ↔ (i < 0 ∨ i ≥ ptrs.length)) ∧
    (0 ≤ i → i < ptrs.length →
      ∃ ptr, ((NewLedgerTree algo).appendEach P heap ptrs).ledger.GetEntry i = Except.ok ptr ∧
        ptrs[i.toNat]? = some ptr ∧
        (((NewLedgerTree algo).appendEach P heap ptrs).heap ptr).SequenceNumber = i + 1) := by
  obtain ⟨_, hent, _⟩ := appendEach_of_supported P ptrs (NewLedgerTree algo) heap rfl hs
  have hent2 : ((NewLedgerTree algo).appendEach P heap ptrs).ledger.entries = ptrs := by
    simpa [NewLedgerTree] using hent
  have hgood : 0 ≤ i → i < ptrs.length →
      ∃ ptr, ((NewLedgerTree algo).appendEach P heap ptrs).ledger.GetEntry i = Except.ok ptr ∧
        ptrs[i.toNat]? = some ptr ∧
        (((NewLedgerTree algo).appendEach P heap ptrs).heap ptr).SequenceNumber = i + 1 := by
    intro h0 h1
    have hi : i.toNat < ptrs.length := by omega
    refine ⟨ptrs[i.toNat], ?_, List.getElem?_eq_getElem hi, ?_⟩
    · rw [GetEntry_eq_ok_iff, hent2]
      exact ⟨h0, List.getElem?_eq_getElem hi⟩
    · rw [appendEach_heap_sequence P ptrs (NewLedgerTree algo) heap hnd i.toNat _
        (List.getElem?_eq_getElem hi)]
      simp [NewLedgerTree]
      omega
  refine ⟨⟨?_, ?_⟩, hgood⟩
  · rintro ⟨e, he⟩
    by_contra hc
    obtain ⟨ptr, hp, _⟩ := hgood (by omega) (by omega)
    rw [hp] at he
    cases he
  · intro h
    unfold LedgerTree.GetEntry
    rw [dif_pos (by rw [hent2]; exact h)]
    exact ⟨_, rfl⟩

/-- C20 as amended, on two appends with entries of their own, at index 1. -/
theorem GetEntry_after_appends_witness :
    Supported SHA256 ∧ ([0, 1] : List EntryPtr).Nodup ∧
    ∃ ptr, ((NewLedgerTree SHA256).appendEach padPrimitives testHeap [0, 1]).ledger.GetEntry 1
        = Except.ok ptr ∧
      (((NewLedgerTree SHA256).appendEach padPrimitives testHeap [0, 1]).heap ptr).SequenceNumber
        = 2 := by
  refine ⟨by decide, by decide, ?_⟩
  obtain ⟨ptr, h1, _, h3⟩ :=
    (GetEntry_after_appends padPrimitives SHA256 testHeap [0, 1] (by decide) (by decide) 1).2
      (by decide) (by decide)
  exact ⟨ptr, h1, by simpa using h3⟩


/-- C21. Appended entries are not touched by later appends: for every ledger
state, every index `i` at which `GetEntry(i)` succeeds, and every later run of
`Append` calls (successful or not) with entries other than the one stored at `i`,
`GetEntry(i)` afterwards returns the same entry with the same `EntryHash`,
`SequenceNumber`, `SignerIdentityID`, `SignatureHash`, `EntryType` and
`Timestamp`. -/
theorem stored_entry_unchanged (P : Primitives) (lt : LedgerTree) (heap : Heap)
    (ptrs : List EntryPtr) (i : Int) (ptr : EntryPtr)
    (hget : lt.GetEntry i = Except.ok ptr) (hne : ptr ∉ ptrs) :
    (lt.appendEach P heap ptrs).ledger.GetEntry i = Except.ok ptr ∧
    ((lt.appendEach P heap ptrs).heap ptr).EntryHash = (heap ptr).EntryHash ∧
    ((lt.appendEach P heap ptrs).heap ptr).SequenceNumber = (heap ptr).SequenceNumber ∧
    ((lt.appendEach P heap ptrs).heap ptr).SignerIdentityID = (heap ptr).SignerIdentityID ∧
    ((lt.appendEach P heap ptrs).heap ptr).SignatureHash = (heap ptr).SignatureHash ∧
    ((lt.appendEach P heap ptrs).heap ptr).EntryType = (heap ptr).EntryType ∧
    ((lt.appendEach P heap ptrs).heap ptr).Timestamp = (heap ptr).Timestamp := by
  have hh := appendEach_heap_other P ptrs lt heap ptr hne
  obtain ⟨more, hm⟩ := appendEach_entries P ptrs lt heap
  rw [GetEntry_eq_ok_iff] at hget ⊢
  obtain ⟨h0, hp⟩ := hget
  have hlt : i.toNat < lt.entries.length := by
    by_contra hc
    rw [List.getElem?_eq_none (by omega)] at hp
    cases hp
  refine ⟨⟨h0, ?_⟩, by rw [hh], by rw [hh], by rw [hh], by rw [hh], by rw [hh], by rw [hh]⟩
  rw [hm, List.getElem?_append_left hlt]
  exact hp

/-- C21 on a ledger holding the entry at address 0, with two later appends of
the entries at addresses 1 and 2. -/
theorem stored_entry_unchanged_witness :
    ((NewLedgerTree SHA256).appendEach padPrimitives testHeap [0]).ledger.GetEntry 0
      = Except.ok 0 ∧
    (0 : EntryPtr) ∉ ([1, 2] : List EntryPtr) ∧
    (((NewLedgerTree SHA256).appendEach padPrimitives testHeap [0]).ledger.appendEach padPrimitives
        ((NewLedgerTree SHA256).appendEach padPrimitives testHeap [0]).heap [1, 2]).ledger.GetEntry 0
      = Except.ok 0 ∧
    ((((NewLedgerTree SHA256).appendEach padPrimitives testHeap [0]).ledger.appendEach padPrimitives
        ((NewLedgerTree SHA256).appendEach padPrimitives testHeap [0]).heap [1, 2]).heap
          0).SequenceNumber
      = (((NewLedgerTree SHA256).appendEach padPrimitives testHeap [0]).heap 0).SequenceNumber := by
  have h := stored_entry_unchanged padPrimitives
    ((NewLedgerTree SHA256).appendEach padPrimitives testHeap [0]).ledger
    ((NewLedgerTree SHA256).appendEach padPrimitives testHeap [0]).heap [1, 2] 0 0 rfl (by decide)
  exact ⟨rfl, by decide, h.1, h.2.2.1⟩

/-- C22. After a successful `Append` of an entry on a ledger with algorithm `a`
the entry is stored, and its `EntryHash` is: when none was supplied, `Hash(s, a)`
for the serialization `s` = `SignerIdentityID`, `|`, the lowercase hex of
`SignatureHash`, `|`, `EntryType`, `|`, the decimal Unix seconds of `Timestamp`;
when one was supplied, the supplied one. -/
theorem Append_stored_EntryHash (P : Primitives) (lt : LedgerTree) (heap : Heap) (e : EntryPtr)
    (hok : (lt.Append P heap e).err = none) :
    (lt.Append P heap e).ledger.entries = lt.entries ++ [e] ∧
    ((heap e).EntryHash = none →
      ∃ h, Hash P ((heap e).SignerIdentityID ++ [124] ++ hexEncodeToString (heap e).SignatureHash
            ++ [124] ++ (heap e).EntryType ++ [124] ++ formatDecimal (heap e).Timestamp.unix)
          lt.hashAlgo = Except.ok h ∧
        ((lt.Append P heap e).heap e).EntryHash = some h) ∧
    (∀ h0, (heap e).EntryHash = some h0 →
      ((lt.Append P heap e).heap e).EntryHash = some h0) := by
  obtain ⟨d, hd, h1, h2, _, hent⟩ := LedgerTree_Append_fed P lt heap e hok
  refine ⟨hent, ?_, ?_⟩
  · intro hn
    exact ⟨d, h1 hn, hd⟩
  · intro h0 h0e
    rw [hd, h2 h0 h0e]

/-- C22 on a new SHA-256 ledger and the entry `testEntry`, which comes without
hash and serializes to `test|0102|sig|1700000000`. -/
theorem Append_stored_EntryHash_witness :
    ((NewLedgerTree SHA256).Append padPrimitives testHeap 0).err = none ∧
    (testHeap 0).EntryHash = none ∧
    ∃ h, Hash padPrimitives
        [116, 101, 115, 116, 124, 48, 49, 48, 50, 124, 115, 105, 103, 124,
         49, 55, 48, 48, 48, 48, 48, 48, 48, 48] SHA256 = Except.ok h ∧
      (((NewLedgerTree SHA256).Append padPrimitives testHeap 0).heap 0).EntryHash = some h := by
  have hok : ((NewLedgerTree SHA256).Append padPrimitives testHeap 0).err = none := rfl
  obtain ⟨h, h1, h2⟩ :=
    (Append_stored_EntryHash padPrimitives (NewLedgerTree SHA256) testHeap 0 hok).2.1 rfl
  refine ⟨hok, rfl, h, ?_, h2⟩
  rw [← serializeEntry_testEntry (NewLedgerTree SHA256)]
  exact h1

/-- C23 as stated fails: on a new SHA-256 ledger, whatever the digest primitive,
after the append of an entry that came with the one-byte `EntryHash` `[7]`, the
leaf hash of the inclusion proof for index 0 is not the `EntryHash` of the entry
`GetEntry(0)` returns (it is a digest, 32 bytes long). -/
theorem LeafHash_is_not_EntryHash :
    ¬ ∃ P : Primitives, ∀ (p : InclusionProof) (ptr : EntryPtr),
      ((NewLedgerTree SHA256).appendEach P suppliedHeap [0]).ledger.GenerateInclusionProof 0
        = Except.ok p →
      ((NewLedgerTree SHA256).appendEach P suppliedHeap [0]).ledger.GetEntry 0 = Except.ok ptr →
      (((NewLedgerTree SHA256).appendEach P suppliedHeap [0]).heap ptr).EntryHash
        = some p.LeafHash := by
  rintro ⟨P, hall⟩
  have hs : Supported (NewLedgerTree SHA256).hashAlgo := Or.inl rfl
  obtain ⟨_, hent, hsize⟩ := appendEach_of_supported P [0] (NewLedgerTree SHA256) suppliedHeap
    rfl hs
  have hinv := appendEach_inv P [0] (NewLedgerTree SHA256) suppliedHeap (NewLedgerTree_inv SHA256)
  obtain ⟨p, hp⟩ := GenerateInclusionProof_of_valid
    ((NewLedgerTree SHA256).appendEach P suppliedHeap [0]).ledger.tree 0 (le_refl _) (by
      have h1 : ((NewLedgerTree SHA256).appendEach P suppliedHeap [0]).ledger.GetSize = 1 := by
        rw [hsize]; rfl
      simp only [LedgerTree.GetSize, Size] at h1
      rw [← hinv.2, h1]
      decide)
  obtain ⟨ptr, h, hget, hE, hH⟩ := ledger_LeafHash P SHA256 suppliedHeap [0] 0 p hp
  have hbad := hall p ptr hp hget
  rw [hE] at hbad
  injection hbad with hbad
  have hptr : ptr = 0 := by
    rw [GetEntry_eq_ok_iff, hent] at hget
    simpa [NewLedgerTree] using hget.2.symm
  subst hptr
  have hkept : (((NewLedgerTree SHA256).appendEach P suppliedHeap [0]).heap 0).EntryHash
      = some [7] := by
    rw [(appendEach_cons P (NewLedgerTree SHA256) suppliedHeap 0 []).2.1]
    show (((NewLedgerTree SHA256).Append P suppliedHeap 0).heap 0).EntryHash = some [7]
    exact LedgerTree_Append_EntryHash_kept P _ suppliedHeap 0 0 [7] (by simp [suppliedHeap])
  rw [hkept] at hE
  injection hE with hE
  have hlen := digest_length_pos P (Or.inl rfl : Supported SHA256) h
  obtain ⟨_, hdig⟩ := Hash_eq_ok P hH
  have h32 : (digest P SHA256 h).length = 32 := by
    unfold digest Hash
    simp [SHA256, P.sha256Sum256_length]
  rw [← hdig, ← hbad, ← hE] at h32
  simp at h32

/-- C23 as amended. The ledger feeds the entry hash to the tree as the leaf data,
and the tree hashes it: for every ledger reached from `NewLedgerTree` and every
index `i` at which `GenerateInclusionProof(i)` succeeds, `GetEntry(i)` succeeds
too and the proof's `LeafHash` equals `Hash(GetEntry(i).EntryHash)`; a ledger with
a supported algorithm that stores exactly one entry has `GetRootHash()` equal to
`Hash` of that entry's `EntryHash`. -/
theorem LeafHash_is_Hash_of_EntryHash (P : Primitives) (algo : Algorithm) (heap : Heap)
    (ptrs : List EntryPtr) (i : Int) (p : InclusionProof)
    (hp : ((NewLedgerTree algo).appendEach P heap ptrs).ledger.GenerateInclusionProof i
      = Except.ok p) :
    (∃ ptr h, ((NewLedgerTree algo).appendEach P heap ptrs).ledger.GetEntry i = Except.ok ptr ∧
      (((NewLedgerTree algo).appendEach P heap ptrs).heap ptr).EntryHash = some h ∧
      Hash P h algo = Except.ok p.LeafHash) ∧
    (∀ (ptr : EntryPtr) (h : Bytes), Supported algo →
      ((NewLedgerTree algo).appendEach P heap ptrs).ledger.entries = [ptr] →
      (((NewLedgerTree algo).appendEach P heap ptrs).heap ptr).EntryHash = some h →
      Hash P h algo
        = Except.ok ((NewLedgerTree algo).appendEach P heap ptrs).ledger.GetRootHash) :=
  ⟨ledger_LeafHash P algo heap ptrs i p hp,
    fun ptr h hs hone hE => ledger_single_root P algo heap ptrs ptr h hs hone hE⟩

/-- C23 as amended, on a new SHA-256 ledger after the append of `testEntry`. -/
theorem LeafHash_is_Hash_of_EntryHash_witness :
    ∃ p, ((NewLedgerTree SHA256).appendEach padPrimitives testHeap [0]).ledger.GenerateInclusionProof
        0 = Except.ok p ∧
      ∃ ptr h, ((NewLedgerTree SHA256).appendEach padPrimitives testHeap [0]).ledger.GetEntry 0
          = Except.ok ptr ∧
        (((NewLedgerTree SHA256).appendEach padPrimitives testHeap [0]).heap ptr).EntryHash
          = some h ∧
        Hash padPrimitives h SHA256 = Except.ok p.LeafHash := by
  refine ⟨_, rfl, ?_⟩
  exact (LeafHash_is_Hash_of_EntryHash padPrimitives SHA256 testHeap [0] 0 _ rfl).1


/-- C24. For every identity and every instant `t`, `IsValid(t)` is true if and
only if `Status` is active and `ValidFrom ≤ t ≤ ValidTo`, both ends included; an
identity whose status is revoked, expired or pending is valid at no instant. -/
theorem IsValid_iff (i : Identity) (t : Time) :
    (i.IsValid t = true ↔ i.Status = StatusActive ∧ i.ValidFrom.le t ∧ t.le i.ValidTo) ∧
    (i.Status = StatusRevoked ∨ i.Status = StatusExpired ∨ i.Status = StatusPending →
      i.IsValid t = false) := by
  constructor
  · unfold Identity.IsValid
    by_cases hs : i.Status = StatusActive
    · rw [if_neg (by simpa using hs)]
      by_cases hb : (t.Before i.ValidFrom || t.After i.ValidTo) = true
      · rw [if_pos hb]
        simp only [Bool.false_eq_true, false_iff, not_and]
        intro _ h1 h2
        rw [Bool.or_eq_true, Time_Before_iff, Time_After_iff] at hb
        unfold Time.le at h1 h2
        omega
      · rw [if_neg hb]
        simp only [true_iff]
        rw [Bool.or_eq_true, Time_Before_iff, Time_After_iff] at hb
        refine ⟨hs, ?_, ?_⟩ <;> unfold Time.le <;> omega
    · rw [if_pos hs]
      simp [hs]
  · intro h
    unfold Identity.IsValid
    rw [if_pos]
    rcases h with h | h | h <;> rw [h] <;> decide

/-- C29. For every data, every byte string `expected` and every supported
algorithm, `hash.Verify(data, expected, algo)` returns a boolean and no error,
without any index out of range: true if and only if `expected` is byte for byte
`Hash(data, algo)`, false otherwise (also when the lengths differ); and
`Verify(data, Hash(data, algo), algo)` is true. -/
theorem hash_Verify_iff (P : Primitives) (data expected : Bytes) (algo : Algorithm)
    (hs : Supported algo) :
    (∃ b, hash.Verify P data expected algo = Except.ok b ∧
      (b = true ↔ Hash P data algo = Except.ok expected)) ∧
    (∀ h, Hash P data algo = Except.ok h → hash.Verify P data h algo = Except.ok true) := by
  constructor
  · refine ⟨_, hash_Verify_eq P data expected hs, ?_⟩
    rw [Hash_of_supported P hs]
    simp
  · intro h hh
    rw [hash_Verify_eq P data h hs, (Hash_eq_ok P hh).2]
    simp

/-- C29 under SHA-256: the hash of `[1, 2]` is accepted, the two bytes `[1, 2]`
(of another length) are not. -/
theorem hash_Verify_iff_witness :
    Supported SHA256 ∧
    hash.Verify padPrimitives [1, 2] (padPrimitives.sha256Sum256 [1, 2]) SHA256 = Except.ok true ∧
    ∃ b, hash.Verify padPrimitives [1, 2] [1, 2] SHA256 = Except.ok b ∧
      (b = true ↔ Hash padPrimitives [1, 2] SHA256 = Except.ok [1, 2]) :=
  ⟨by decide,
    (hash_Verify_iff padPrimitives [1, 2] [] SHA256 (by decide)).2 _ rfl,
    (hash_Verify_iff padPrimitives [1, 2] [1, 2] SHA256 (by decide)).1⟩

/-- C30. Every operation that dispatches on an algorithm or format name fails on
a name it does not know. `hash.Hash`, `hash.Verify` and `hash.HashString` return
an error if and only if the algorithm is none of SHA-256, SHA-3-512, BLAKE3;
`signatures.GenerateKeyPair`, `Sign` and `Verify` return an error for every
algorithm other than Ed25519, the declared Ed448 included; `canonical.Encode` and
`Decode` return an error for every format other than CBOR and JSON. -/
theorem unsupported_name_fails (P : Primitives) (S : SigPrimitives) (α : Type) (C : Codec α)
    (name : String) (data expected key message signature : Bytes) (value : α) :
    ((∃ e, Hash P data name = Except.error e) ↔ ¬ Supported name) ∧
    ((∃ e, hash.Verify P data expected name = Except.error e) ↔ ¬ Supported name) ∧
    ((∃ e, hash.HashString P data name = Except.error e) ↔ ¬ Supported name) ∧
    (name ≠ signatures.Ed25519 →
      (∃ e, signatures.GenerateKeyPair S name = Except.error e) ∧
      (∃ e, signatures.Sign S key message name = Except.error e) ∧
      (∃ e, signatures.Verify S key message signature name = Except.error e)) ∧
    ((∃ e, signatures.GenerateKeyPair S signatures.Ed448 = Except.error e) ∧
      (∃ e, signatures.Sign S key message signatures.Ed448 = Except.error e) ∧
      (∃ e, signatures.Verify S key message signature signatures.Ed448 = Except.error e)) ∧
    (name ≠ canonical.CBOR → name ≠ canonical.JSON →
      (∃ e, canonical.Encode C value name = Except.error e) ∧
      (∃ e, canonical.Decode C data name = Except.error e)) := by
  have hsig : ∀ n : String, n ≠ signatures.Ed25519 →
      (∃ e, signatures.GenerateKeyPair S n = Except.error e) ∧
      (∃ e, signatures.Sign S key message n = Except.error e) ∧
      (∃ e, signatures.Verify S key message signature n = Except.error e) := by
    intro n hn
    unfold signatures.GenerateKeyPair signatures.Sign signatures.Verify
    rw [if_neg hn, if_neg hn, if_neg hn]
    refine ⟨?_, ?_, ?_⟩ <;> split_ifs <;> exact ⟨_, rfl⟩
  refine ⟨?_, ?_, ?_, hsig name, hsig signatures.Ed448 (by decide), ?_⟩
  · by_cases hs : Supported name
    · rw [Hash_of_supported P hs]
      simp [hs]
    · rw [Hash_of_not_supported P hs]
      simp [hs]
  · by_cases hs : Supported name
    · rw [hash_Verify_eq P data expected hs]
      simp [hs]
    · unfold hash.Verify
      rw [Hash_of_not_supported P hs]
      simp [hs]
  · unfold hash.HashString
    by_cases hs : Supported name
    · rw [Hash_of_supported P hs]
      simp [hs]
    · rw [Hash_of_not_supported P hs]
      simp [hs]
  · intro h1 h2
    unfold canonical.Encode canonical.Decode
    rw [if_neg h1, if_neg h2, if_neg h1, if_neg h2]
    exact ⟨⟨_, rfl⟩, ⟨_, rfl⟩⟩


/-- C25. Whenever the verifier runs to completion, `Valid` is
`hash_match AND signature_valid AND (offline OR ledger_inclusion)`; `hash_match`
says whether the recomputed content hash is `bundle.ContentHash`, so `Valid` is
false when they differ or when the signature does not verify; and with any other
timestamp token and audit flag the verifier completes again with the same
`Valid` and the same errors. -/
theorem verifier_Valid (P : Primitives) (S : SigPrimitives) (C : Codec Bytes)
    (inp : VerifierInput) (r : VerificationResult) (h : verifierMain P S C inp = Except.ok r) :
    r.Valid = (r.check "hash_match" && r.check "signature_valid"
      && (inp.offline || r.check "ledger_inclusion")) ∧
    (∃ canonicalMedia computedHash, C.encodeCBOR inp.mediaContent = Except.ok canonicalMedia ∧
      Hash P canonicalMedia SHA256 = Except.ok computedHash ∧
      r.check "hash_match" = decide (computedHash = inp.sigBundle.ContentHash) ∧
      (computedHash ≠ inp.sigBundle.ContentHash → r.Valid = false)) ∧
    (r.check "signature_valid"
      = S.ed25519Verify inp.pubKeyBytes inp.sigBundle.ContentHash inp.sigBundle.Signature) ∧
    (r.check "signature_valid" = false → r.Valid = false) ∧
    (∀ (token : Bytes) (audit : Bool), ∃ r2,
      verifierMain P S C
        { inp with sigBundle := { inp.sigBundle with TimestampToken := token }, audit := audit }
        = Except.ok r2 ∧ r2.Valid = r.Valid ∧ r2.Errors = r.Errors) := by
  obtain ⟨cm, hcm, h32, h64, hr⟩ := verifierMain_eq_ok h
  obtain ⟨f1, f2, f3, f4, _⟩ := verifierResult_fields inp
    (decide (digest P SHA256 cm = inp.sigBundle.ContentHash))
    (S.ed25519Verify inp.pubKeyBytes inp.sigBundle.ContentHash inp.sigBundle.Signature)
  rw [← hr] at f1 f2 f3 f4
  refine ⟨?_, ⟨cm, _, hcm, Hash_of_supported P (Or.inl rfl) cm, f2, ?_⟩, f3, ?_, ?_⟩
  · rw [f1, f2, f3, f4]
    cases inp.offline <;> simp
  · intro hne
    rw [f1]
    simp [hne]
  · intro hf
    rw [f1, ← f3, hf]
    simp
  · intro token audit
    refine ⟨_, verifierMain_of_sizes P S C _ cm hcm h32 h64, ?_, ?_⟩
    · rw [(verifierResult_fields _ _ _).1, f1]
    · rw [hr]
      obtain ⟨media, bundle, pk, offline, audit0, now⟩ := inp
      by_cases ht : 0 < token.length <;> by_cases ht0 : 0 < bundle.TimestampToken.length <;>
        cases offline <;> cases audit <;> cases audit0 <;>
        cases decide (digest P SHA256 cm = bundle.ContentHash) <;>
        cases S.ed25519Verify pk bundle.ContentHash bundle.Signature <;>
        simp [verifierResult, ht, ht0]

/-- C25 on `testBundle` and the content `hello`. -/
theorem verifier_Valid_witness :
    ∃ r, verifierMain padPrimitives testSig testCodec (testVerifierInput testBundle) = Except.ok r ∧
      r.Valid = (r.check "hash_match" && r.check "signature_valid"
        && ((testVerifierInput testBundle).offline || r.check "ledger_inclusion")) :=
  ⟨_, rfl, (verifier_Valid padPrimitives testSig testCodec (testVerifierInput testBundle) _ rfl).1⟩

/-- C26, the code in online mode: whatever the two comparisons returned, for a
bundle without inclusion proof the result has `ledger_inclusion = true` and
`Valid = hash_match AND signature_valid`; on `testBundle`, which has no inclusion
proof, the verifier ends with `ledger_inclusion = true` and `Valid = true`. -/
theorem verifier_online_ledger_inclusion (inp : VerifierInput) (hashMatch sigValid : Bool) :
    (verifierResult
      { inp with offline := false,
                 sigBundle := { inp.sigBundle with MerkleInclusionProof := none } }
      hashMatch sigValid).check "ledger_inclusion" = true ∧
    (verifierResult
      { inp with offline := false,
                 sigBundle := { inp.sigBundle with MerkleInclusionProof := none } }
      hashMatch sigValid).Valid = (hashMatch && sigValid) ∧
    (∃ r, verifierMain padPrimitives testSig testCodec (testVerifierInput testBundle)
        = Except.ok r ∧
      (testVerifierInput testBundle).offline = false ∧
      (testVerifierInput testBundle).sigBundle.MerkleInclusionProof = none ∧
      r.check "ledger_inclusion" = true ∧ r.Valid = true) := by
  refine ⟨?_, ?_, _, rfl, rfl, rfl, ?_, ?_⟩
  · rw [(verifierResult_fields _ _ _).2.2.2.1]
    rfl
  · exact (verifierResult_fields _ _ _).1
  · decide
  · decide

/-- C27, the code on a bundle signed with `-canon JSON`: the bundle's
`ContentHash` is the digest of the JSON encoding of the content, the verifier
hashes the CBOR encoding of the same content, so `hash_match` is true only if
the two digests coincide, and `Valid` is false when they differ. -/
theorem signer_JSON_hash_match (P : Primitives) (S : SigPrimitives) (C : Codec Bytes)
    (sin : SignerInput) (b : SignatureBundle) (vin : VerifierInput) (r : VerificationResult)
    (jsonBytes cborBytes : Bytes)
    (hfmt : sin.canonFormat = "JSON") (hs : signerMain P S C sin = Except.ok b)
    (hm : vin.mediaContent = sin.content) (hb : vin.sigBundle = b)
    (hv : verifierMain P S C vin = Except.ok r)
    (hj : C.encodeJSON sin.content = Except.ok jsonBytes)
    (hc : C.encodeCBOR sin.content = Except.ok cborBytes) :
    b.ContentHash = digest P SHA256 jsonBytes ∧
    (r.check "hash_match" = true ↔ digest P SHA256 cborBytes = digest P SHA256 jsonBytes) ∧
    (digest P SHA256 cborBytes ≠ digest P SHA256 jsonBytes → r.Valid = false) := by
  obtain ⟨data, hd, hch⟩ := signerMain_eq_ok hs
  obtain ⟨cm, hcm, _, _, hr⟩ := verifierMain_eq_ok hv
  have hdata : data = jsonBytes := by
    rcases hd with ⟨hcb, _⟩ | ⟨_, hd⟩
    · rw [hfmt] at hcb
      exact absurd hcb (by decide)
    · rw [hj] at hd
      injection hd with hd
      exact hd.symm
  have hcm2 : cm = cborBytes := by
    rw [hm, hc] at hcm
    injection hcm with hcm
    exact hcm.symm
  subst hdata hcm2
  obtain ⟨f1, f2, _⟩ := verifierResult_fields vin
    (decide (digest P SHA256 cm = vin.sigBundle.ContentHash))
    (S.ed25519Verify vin.pubKeyBytes vin.sigBundle.ContentHash vin.sigBundle.Signature)
  rw [← hr, hb, hch] at f1 f2
  refine ⟨hch, ?_, ?_⟩
  · rw [f2]
    simp
  · intro hne
    rw [f1]
    simp [hne]

/-- C27 on the content `hello` signed with `-canon JSON`: the verifier ends with
`hash_match = false` and `Valid = false`. -/
theorem signer_JSON_hash_match_witness :
    ∃ b r, signerMain padPrimitives testSig testCodec { testSignerInput with canonFormat := "JSON" }
        = Except.ok b ∧
      verifierMain padPrimitives testSig testCodec (testVerifierInput b) = Except.ok r ∧
      r.check "hash_match" = false ∧ r.Valid = false := by
  refine ⟨_, _, rfl, rfl, ?_, ?_⟩
  · have h := (signer_JSON_hash_match padPrimitives testSig testCodec
      { testSignerInput with canonFormat := "JSON" } _ (testVerifierInput _) _
      ([34] ++ helloBytes ++ [34]) (Fin.ofNat (64 + helloBytes.length) :: helloBytes)
      rfl rfl rfl rfl rfl rfl rfl).2.1
    rw [Bool.eq_false_iff]
    intro ht
    exact absurd (h.mp ht) (by decide)
  · decide

/-- C28 as stated fails: with `padPrimitives`, `testSig` and `testCodec` standing
for the libraries, the verifier run on `testBundle` and the content `hello` ends
with `Valid = true`, although the identity record of the claimed signer,
`revokedIdentity`, has status revoked. -/
theorem verifier_accepts_revoked_identity :
    ¬ ∀ (P : Primitives) (S : SigPrimitives) (C : Codec Bytes) (inp : VerifierInput)
        (identity : Identity) (r : VerificationResult),
      identity.IdentityID = inp.sigBundle.SignerIdentityID →
      identity.PublicKey = inp.pubKeyBytes →
      identity.Status = StatusRevoked →
      verifierMain P S C inp = Except.ok r → r.Valid = false := by
  intro h
  have h1 := h padPrimitives testSig testCodec (testVerifierInput testBundle) revokedIdentity _
    rfl rfl rfl rfl
  exact absurd h1 (by decide)

/-- C28 as amended. The verifier looks up no identity record: whenever it runs to
completion, for a bundle whose claimed signer identity has status revoked (as for
any other status), the result reports no identity check (no `IdentityInfo`, no
identity entry in `Checks`, no error other than a hash mismatch or an invalid
signature) and `Valid` is `hash_match AND signature_valid`; so `Valid` is true
when the content hash matches and the signature verifies under the public key
given. -/
theorem verifier_no_identity_check (P : Primitives) (S : SigPrimitives) (C : Codec Bytes)
    (inp : VerifierInput) (identity : Identity) (r : VerificationResult)
    (_hid : identity.IdentityID = inp.sigBundle.SignerIdentityID)
    (_hkey : identity.PublicKey = inp.pubKeyBytes)
    (_hrev : identity.Status = StatusRevoked)
    (h : verifierMain P S C inp = Except.ok r) :
    r.Valid = (r.check "hash_match" && r.check "signature_valid") ∧
    r.IdentityInfo = none ∧ r.check "identity_valid" = false ∧
    (∀ e ∈ r.Errors, e = "Content hash mismatch" ∨ e = "Invalid signature") ∧
    (r.check "hash_match" = true → r.check "signature_valid" = true → r.Valid = true) := by
  obtain ⟨cm, _, _, _, hr⟩ := verifierMain_eq_ok h
  obtain ⟨f1, f2, f3, _, f5, f6, f7⟩ := verifierResult_fields inp
    (decide (digest P SHA256 cm = inp.sigBundle.ContentHash))
    (S.ed25519Verify inp.pubKeyBytes inp.sigBundle.ContentHash inp.sigBundle.Signature)
  rw [← hr] at f1 f2 f3 f5 f6 f7
  refine ⟨by rw [f1, f2, f3], f6, f5, f7, ?_⟩
  intro h1 h2
  rw [f1, ← f2, ← f3, h1, h2]
  rfl

/-- C28 as amended, on `testBundle`, the content `hello` and `revokedIdentity`. -/
theorem verifier_no_identity_check_witness :
    revokedIdentity.IdentityID = (testVerifierInput testBundle).sigBundle.SignerIdentityID ∧
    revokedIdentity.PublicKey = (testVerifierInput testBundle).pubKeyBytes ∧
    revokedIdentity.Status = StatusRevoked ∧
    ∃ r, verifierMain padPrimitives testSig testCodec (testVerifierInput testBundle)
        = Except.ok r ∧
      r.Valid = (r.check "hash_match" && r.check "signature_valid") ∧ r.IdentityInfo = none :=
  ⟨rfl, rfl, rfl, _, rfl,
    (verifier_no_identity_check padPrimitives testSig testCodec (testVerifierInput testBundle)
      revokedIdentity _ rfl rfl rfl rfl).1,
    (verifier_no_identity_check padPrimitives testSig testCodec (testVerifierInput testBundle)
      revokedIdentity _ rfl rfl rfl rfl).2.1⟩


/-- C31. For every token, message hash `h` and algorithm name `a`,
`Token.Verify(h, a)` returns without an out-of-range access, and returns true if
and only if the token's `HashAlgorithm` is `a` and its `MessageImprint` is `h`
byte for byte; the token `MockTSAClient.Request(h, a)` returns (with a nil error)
satisfies `Verify(h, a)`. -/
theorem Token_Verify_iff (t : Token) (h : Bytes) (a : String) (m : MockTSAClient) (now : Time) :
    (∃ b, t.Verify h a = some b) ∧
    (t.Verify h a = some true ↔ t.HashAlgorithm = a ∧ t.MessageImprint = h) ∧
    (t.Verify h a = some false ↔ ¬ (t.HashAlgorithm = a ∧ t.MessageImprint = h)) ∧
    (∃ token, (m.Request now h a).1 = Except.ok token ∧ token.MessageImprint = h ∧
      token.HashAlgorithm = a ∧ token.Verify h a = some true) := by
  refine ⟨⟨_, Token_Verify_eq t h a⟩, ?_, ?_, ⟨_, rfl, rfl, rfl, ?_⟩⟩
  · rw [Token_Verify_eq]
    simp
  · rw [Token_Verify_eq]
    simp
  · rw [Token_Verify_eq]
    simp

/-- C32, the code: the `Path` of `GenerateInclusionProof(i)` holds the hash of the
leaf at `j xor 1`, when that index is in range, where `j` is the index of the
FIRST leaf whose hash equals the hash of leaf `i` (so `j ≤ i`), and is empty
otherwise; it is the leaf at `i xor 1` when no earlier leaf has the hash of
leaf `i`. -/
theorem GenerateInclusionProof_Path_first_match (t : Tree) (i : Int) (p : InclusionProof)
    (h : GenerateInclusionProof t i = Except.ok p) :
    ∃ leaf, t.Leaves[i.toNat]? = some leaf ∧
      t.Leaves.findIdx (fun l => decide (l.Hash = leaf.Hash)) ≤ i.toNat ∧
      p.Path =
        (match t.Leaves[t.Leaves.findIdx (fun l => decide (l.Hash = leaf.Hash)) ^^^ 1]? with
          | some s => [s.Hash]
          | none => []) ∧
      ((∀ k l, k < i.toNat → t.Leaves[k]? = some l → l.Hash ≠ leaf.Hash) →
        p.Path = (match t.Leaves[i.toNat ^^^ 1]? with
          | some s => [s.Hash]
          | none => [])) := by
  obtain ⟨h0, h1, _, _, leaf, hleaf, _, hpath⟩ := GenerateInclusionProof_eq_ok h
  have hle := findIdx_le_of_getElem? (fun l => decide (l.Hash = leaf.Hash)) t.Leaves i.toNat leaf
    hleaf (by simp)
  have hlt : t.Leaves.findIdx (fun l => decide (l.Hash = leaf.Hash)) < t.Leaves.length := by
    have := (List.getElem?_eq_some.mp hleaf).1
    omega
  have hp : p.Path =
      (match t.Leaves[t.Leaves.findIdx (fun l => decide (l.Hash = leaf.Hash)) ^^^ 1]? with
        | some s => [s.Hash]
        | none => []) := by
    rw [hpath, buildPath_eq, if_pos hlt]
  refine ⟨leaf, hleaf, hle, hp, fun hfirst => ?_⟩
  have hidx := findIdx_eq_of_first (fun l => decide (l.Hash = leaf.Hash)) t.Leaves i.toNat leaf
    hleaf (by simp) (fun k l hk hl => by simpa using hfirst k l hk hl)
  rw [hp, hidx]

/-- C32 on the tree of `leaf1`, `leaf2`, `leaf1` and index 2: `2 xor 1 = 3` is not
below the size 3, and the `Path` holds the hash of the leaf at index 1. -/
theorem GenerateInclusionProof_Path_first_match_witness :
    ∃ t p, appendAll padPrimitives (NewTree SHA256) [leaf1, leaf2, leaf1] = Except.ok t ∧
      GenerateInclusionProof t 2 = Except.ok p ∧
      ¬ ((2 ^^^ 1 : Nat) < t.Leaves.length) ∧
      p.Path = [digest padPrimitives SHA256 leaf2] ∧
      ∃ leaf, t.Leaves[(2 : Int).toNat]? = some leaf ∧
        t.Leaves.findIdx (fun l => decide (l.Hash = leaf.Hash)) ≤ (2 : Int).toNat ∧
        p.Path =
          (match t.Leaves[t.Leaves.findIdx (fun l => decide (l.Hash = leaf.Hash)) ^^^ 1]? with
            | some s => [s.Hash]
            | none => []) ∧
        ((∀ k l, k < (2 : Int).toNat → t.Leaves[k]? = some l → l.Hash ≠ leaf.Hash) →
          p.Path = (match t.Leaves[(2 : Int).toNat ^^^ 1]? with
            | some s => [s.Hash]
            | none => [])) := by
  refine ⟨_, _, rfl, rfl, by decide, by decide, ?_⟩
  exact GenerateInclusionProof_Path_first_match _ 2 _ rfl


/-- C33, the code on a ledger whose algorithm is not supported: after any sequence
of `Append` calls `GetSize()` is 0 and no inclusion proof can be generated, while
the stored entries are those passed with an `EntryHash` already set, so
`GetEntry(i)` succeeds for each of them. -/
theorem entries_outgrow_tree (P : Primitives) (algo : Algorithm) (heap : Heap)
    (ptrs : List EntryPtr) (hs : ¬ Supported algo) :
    ((NewLedgerTree algo).appendEach P heap ptrs).ledger.GetSize = 0 ∧
    ((NewLedgerTree algo).appendEach P heap ptrs).ledger.entries
      = ptrs.filter (fun q => (heap q).EntryHash.isSome) ∧
    (∀ i : Int, ∃ err,
      ((NewLedgerTree algo).appendEach P heap ptrs).ledger.GenerateInclusionProof i
        = Except.error err) ∧
    (∀ i : Int,
      (∃ e, ((NewLedgerTree algo).appendEach P heap ptrs).ledger.GetEntry i = Except.ok e) ↔
      0 ≤ i ∧ i < ((ptrs.filter (fun q => (heap q).EntryHash.isSome)).length : Int)) := by
  obtain ⟨_, htree⟩ := appendEach_of_not_supported P ptrs (NewLedgerTree algo) heap rfl hs
  have hent := appendEach_not_supported_entries P ptrs (NewLedgerTree algo) heap rfl hs
  have hent2 : ((NewLedgerTree algo).appendEach P heap ptrs).ledger.entries
      = ptrs.filter (fun q => (heap q).EntryHash.isSome) := by
    rw [hent]
    simp [NewLedgerTree]
  refine ⟨?_, hent2, fun i => ?_, fun i => ⟨?_, ?_⟩⟩
  · rw [LedgerTree.GetSize, htree]
    rfl
  · unfold LedgerTree.GenerateInclusionProof
    rw [htree]
    refine ⟨_, GenerateInclusionProof_of_invalid _ i ?_⟩
    simp only [NewLedgerTree, NewTree, List.length_nil, Nat.cast_zero]
    omega
  · rintro ⟨e, he⟩
    obtain ⟨h0, h1⟩ := (GetEntry_eq_ok_iff _ _ _).mp he
    rw [hent2] at h1
    have hi := (List.getElem?_eq_some.mp h1).1
    omega
  · rintro ⟨h0, h1⟩
    have hi : i.toNat
        < ((NewLedgerTree algo).appendEach P heap ptrs).ledger.entries.length := by
      rw [hent2]
      omega
    exact ⟨_, (GetEntry_eq_ok_iff _ _ _).mpr ⟨h0, List.getElem?_eq_getElem hi⟩⟩

/-- C33 on a ledger created with `MD5` after the append of an entry that came with
the hash `[7]`: one stored entry, size 0, `GetEntry(0)` succeeds and
`GenerateInclusionProof(0)` fails. -/
theorem entries_outgrow_tree_witness :
    ¬ Supported "MD5" ∧
    ((NewLedgerTree "MD5").appendEach padPrimitives suppliedHeap [0]).ledger.GetSize = 0 ∧
    ((NewLedgerTree "MD5").appendEach padPrimitives suppliedHeap [0]).ledger.entries = [0] ∧
    ((NewLedgerTree "MD5").appendEach padPrimitives suppliedHeap [0]).ledger.GetEntry 0
      = Except.ok 0 ∧
    (∃ err,
      ((NewLedgerTree "MD5").appendEach padPrimitives suppliedHeap [0]).ledger.GenerateInclusionProof
        0 = Except.error err) :=
  ⟨by decide,
    (entries_outgrow_tree padPrimitives "MD5" suppliedHeap [0] (by decide)).1,
    (entries_outgrow_tree padPrimitives "MD5" suppliedHeap [0] (by decide)).2.1,
    rfl,
    (entries_outgrow_tree padPrimitives "MD5" suppliedHeap [0] (by decide)).2.2.1 0⟩

/-- C35. For a tree built by appends that holds exactly `2^k` leaves, with root
`r`: appending `m` further items, `1 ≤ m ≤ 2^k`, succeeds, building a fresh tree of
the same algorithm from just those items succeeds, and the new `RootHash()` is
`Hash(r || r')` with `r'` the root of the fresh tree; when a single item is
appended, with leaf hash `h`, the new root is `Hash(r || h)`. -/
theorem RootHash_after_power_of_two (P : Primitives) (algo : Algorithm) (ds ms : List Bytes)
    (k : Nat) (t : Tree) (h1 : appendAll P (NewTree algo) ds = Except.ok t)
    (hk : ds.length = 2 ^ k) (hm1 : 1 ≤ ms.length) (hm2 : ms.length ≤ 2 ^ k) :
    ∃ t2 t3, appendAll P t ms = Except.ok t2 ∧
      appendAll P (NewTree algo) ms = Except.ok t3 ∧
      Hash P (RootHash t ++ RootHash t3) algo = Except.ok (RootHash t2) ∧
      (∀ d, ms = [d] → ∃ h, Hash P d algo = Except.ok h ∧
        Hash P (RootHash t ++ h) algo = Except.ok (RootHash t2)) := by
  have hpos : 0 < 2 ^ k := by positivity
  have hds : ds ≠ [] := by
    intro he
    rw [he] at hk
    simp at hk
    omega
  have hms : ms ≠ [] := by
    intro he
    rw [he] at hm1
    simp at hm1
  obtain ⟨hA, hL, _, hr⟩ := built_tree P algo ds t h1
  obtain ⟨hs, hroot⟩ := hr hds
  obtain ⟨t2, ht2⟩ := appendAll_of_supported P ms t (by rw [hA]; exact hs)
  obtain ⟨t3, ht3⟩ := appendAll_of_supported P ms (NewTree algo) hs
  obtain ⟨_, _, _, hr3⟩ := built_tree P algo ms t3 ht3
  obtain ⟨_, hroot3⟩ := hr3 hms
  obtain ⟨_, hL2, _, hr2⟩ := appendAll_eq_ok P ms t t2 ht2
  obtain ⟨_, hroot2⟩ := hr2 hms
  have hleaves : t2.Leaves.map Node.Hash = ds.map (digest P algo) ++ ms.map (digest P algo) := by
    rw [hL2, hL, hA]
    simp [leafOf, Node.Hash, Function.comp_def]
  have hlen1 : (ds.map (digest P algo)).length = 2 ^ k := by simp [hk]
  have hsplit : splitPoint (ds.map (digest P algo) ++ ms.map (digest P algo)).length = 2 ^ k := by
    apply splitPoint_eq_of_bounds
    · simp only [List.length_append, List.length_map]
      omega
    · simp only [List.length_append, List.length_map]
      omega
  have hnew : RootHash t2 = digest P algo (RootHash t ++ RootHash t3) := by
    rw [hroot2, hA, hleaves, MTH_split _ _ (by
      simp only [List.length_append, List.length_map]
      omega), hsplit, ← hlen1, List.take_left, List.drop_left, hroot, hroot3]
  refine ⟨t2, t3, ht2, ht3, ?_, ?_⟩
  · rw [Hash_of_supported P hs, hnew]
  · intro d hd
    refine ⟨_, Hash_of_supported P hs d, ?_⟩
    rw [Hash_of_supported P hs, hnew, hroot3, hd]
    simp [MTH_singleton]

/-- C35 on the tree of `leaf1`, `leaf2` (`k = 1`) and the further item `leaf3`. -/
theorem RootHash_after_power_of_two_witness :
    ∃ t, appendAll padPrimitives (NewTree SHA256) [leaf1, leaf2] = Except.ok t ∧
      ∃ t2 t3, appendAll padPrimitives t [leaf3] = Except.ok t2 ∧
        appendAll padPrimitives (NewTree SHA256) [leaf3] = Except.ok t3 ∧
        Hash padPrimitives (RootHash t ++ RootHash t3) SHA256 = Except.ok (RootHash t2) ∧
        (∀ d, [leaf3] = [d] → ∃ h, Hash padPrimitives d SHA256 = Except.ok h ∧
          Hash padPrimitives (RootHash t ++ h) SHA256 = Except.ok (RootHash t2)) := by
  refine ⟨_, rfl, ?_⟩
  exact RootHash_after_power_of_two padPrimitives SHA256 [leaf1, leaf2] [leaf3] 1 _ rfl
    (by decide) (by decide) (by decide)


/-- C34, the code: `pipeEntry1` (`SignerIdentityID = "a"`, `EntryType = "|b"`) and
`pipeEntry2` (`SignerIdentityID = "a|"`, `EntryType = "b"`) differ in two hashed
fields and have the same serialization `a|||b|0`, because the fields are joined
with a separator they may contain; two entries with the same serialization agree
on `SignerIdentityID`, `SignatureHash`, `EntryType` and the Unix seconds when
neither `SignerIdentityID` holds the separator. -/
theorem serializeEntry_collision (lt : LedgerTree) :
    lt.serializeEntry pipeEntry1 = lt.serializeEntry pipeEntry2 ∧
    lt.serializeEntry pipeEntry1 = [97, 124, 124, 124, 98, 124, 48] ∧
    pipeEntry1.SignerIdentityID ≠ pipeEntry2.SignerIdentityID ∧
    pipeEntry1.EntryType ≠ pipeEntry2.EntryType ∧
    (∀ e1 e2 : Entry, (124 : Fin 256) ∉ e1.SignerIdentityID →
      (124 : Fin 256) ∉ e2.SignerIdentityID → lt.serializeEntry e1 = lt.serializeEntry e2 →
      e1.SignerIdentityID = e2.SignerIdentityID ∧ e1.SignatureHash = e2.SignatureHash ∧
        e1.EntryType = e2.EntryType ∧ e1.Timestamp.unix = e2.Timestamp.unix) := by
  refine ⟨?_, ?_, by decide, by decide,
    fun e1 e2 h1 h2 h => serializeEntry_injective_of_no_sep lt e1 e2 h1 h2 h⟩
  · rfl
  · rfl

end CivicAttest
